import Mathlib

/-!
# GaussianBlur: a shallow embedding of `GaussianBlur.cpp`

The development embeds the per-plane body of `gaussianBlurGetFrame` (kernel
construction, scalar horizontal and vertical pass, the ARM NEON variants of the
two passes) and the argument validation of `gaussianBlurCreate`.

Modelling conventions.

* C `int` values are mathematical integers (`Int`), and `wrap32` is the
  reduction to the range of a 32-bit `int`.  It is applied to the narrowing cast
  `(int)` of the 64-bit `radius` argument, to the product `i * i` in the kernel
  exponent, to `kernel_size = 2 * radius + 1` in the kernel construction over
  the machine's operations (`kernelSize32`), and, in the bounds-checked passes
  of the index-safety section, to every index expression (`x + k`,
  `y * stride + x`, `k + radius`) and to the sample count
  `plane_height * plane_width` of the intermediate buffer.  Elsewhere sizes and
  indices are the mathematical integers.
* `double` has two models.
  - Exact arithmetic in a linear ordered field `F` with a floor function, with
    the C library's `exp` a parameter `exp : F → F` (the reals with `Real.exp`
    where the exponential is needed).  The definitions `buildKernel`, `hAccum`,
    `horizontalPass`, `vAccum`, `verticalPass`, `processPlane` use it; rounding
    error is not part of this model.
  - The operations of the machine as a record `MachineArith`, each arithmetic
    operation returning its rounded result.  The definitions `buildKernelM`,
    `hAccumM`, `horizontalPassM`, `vAccumM`, `verticalPassM`, `processPlaneM`
    are the same loops over such a record.  Two records are used: `binary64`,
    IEEE 754 double precision on dyadic numbers with round to nearest, ties to
    even, one rounding per operation (no fused multiply-add), which evaluates
    the loops at concrete inputs (the C library's `exp` is the table `libmExp`
    at the arguments these evaluations reach); and `roundedArith rnd expf`, the
    operations of an ordered field followed by a rounding function `rnd`, which
    carries the error analysis under the assumptions `NearestRounding rnd` and
    `BoundedExp expf`.  Binary64 rounding of rational numbers, `roundQ`,
    satisfies `NearestRounding`; the dyadic operations of `binary64` return
    `roundQ` of the exact result (`binary64_refines_roundQ`), and the entries
    of `libmExp` are the doubles nearest to the real exponential
    (`libmExp_nearest`).
  The `float` lanes of the NEON path are modelled by exact arithmetic.
* A buffer reached through a pointer is a function from the (integer) index to
  the sample stored there; a store is `Function.update`.  A loop is a fold
  over its index range, threading the buffer (or the accumulator) it updates.
* For index safety the scalar passes are run a second time with every access
  checked against the size of its buffer (`Option` results); for the write
  footprint the four buffers of a plane invocation form one state record.
-/

namespace GaussianBlur

/-! ## Loops, machine integers, conversions -/

/-- The loop `for (int i = lo; i <= hi; i++) s = body i s`. -/
def forLoop {σ : Type} (lo hi : Int) (body : Int → σ → σ) (s : σ) : σ :=
  (List.range (hi + 1 - lo).toNat).foldl (fun st (j : Nat) => body (lo + (j : Int)) st) s

/-- Reduction of an integer to the range of a 32-bit two's complement `int`. -/
def wrap32 (v : Int) : Int :=
  (v + 2147483648) % 4294967296 - 2147483648

/-- Truncation toward zero, the value-changing part of a C conversion from a
floating-point type to an integer type. -/
def truncate {F : Type} [LinearOrderedField F] [FloorRing F] (v : F) : Int :=
  if 0 ≤ v then Int.floor v else Int.ceil v

/-- The conversion `(uint16_t)v` of a `double`: truncation toward zero; a
truncated value outside `[0, 65535]` is reduced modulo `2^16`. -/
def toUInt16 {F : Type} [LinearOrderedField F] [FloorRing F] (v : F) : Nat :=
  (truncate v % 65536).toNat

/-- The statement `val = val < 0 ? 0 : val > 65535 ? 65535 : val;`. -/
def saturate {F : Type} [LinearOrderedField F] (val : F) : F :=
  if val < 0 then 0 else if val > 65535 then 65535 else val

/-- The edge rule applied to a tap position in both scalar passes:
`if (xx < 0) xx = 0; else if (xx >= extent) xx = extent - 1;`. -/
def clampTap (xx extent : Int) : Int :=
  if xx < 0 then 0 else if xx ≥ extent then extent - 1 else xx

/-! ## Kernel construction (lines 46-60) -/

/-- The exponent `-(i * i) / (2 * sigma * sigma)`: the numerator is computed in
`int`, the division in `double`. -/
def kernelExponent {F : Type} [LinearOrderedField F] (sigma : F) (i : Int) : F :=
  ((wrap32 (-(wrap32 (i * i))) : Int) : F) / (2 * sigma * sigma)

/-- The first loop of the kernel construction: it stores the raw weights and
accumulates their sum.  The state is the pair `(kernel, sum)`. -/
def rawKernel {F : Type} [LinearOrderedField F] (exp : F → F) (radius : Int)
    (kernel0 : Int → F) : (Int → F) × F :=
  let sigma : F := (radius : F) / 3
  forLoop (-radius) radius
    (fun i st =>
      let kernel := Function.update st.1 (i + radius) (exp (kernelExponent sigma i))
      (kernel, st.2 + kernel (i + radius)))
    (kernel0, 0)

/-- The declaration `int kernel_size = 2 * radius + 1;`. -/
def kernelSize (radius : Int) : Int :=
  2 * radius + 1

/-- The kernel after the normalising loop `kernel[i] /= sum`.  The argument
`kernel0` is the content of the freshly allocated array. -/
def buildKernel {F : Type} [LinearOrderedField F] (exp : F → F) (radius : Int)
    (kernel0 : Int → F) : Int → F :=
  let kernel_size := kernelSize radius
  let st := rawKernel exp radius kernel0
  forLoop 0 (kernel_size - 1)
    (fun i kernel => Function.update kernel i (kernel i / st.2))
    st.1

/-! ## Scalar passes (lines 112-126 and 176-190) -/

/-- The accumulator of the scalar horizontal pass at `(x, y)` after its tap loop. -/
def hAccum {F : Type} [LinearOrderedField F] (srcp : Int → Nat) (src_stride plane_width : Int)
    (radius : Int) (kernel : Int → F) (x y : Int) : F :=
  forLoop (-radius) radius
    (fun k val =>
      let xx := clampTap (x + k) plane_width
      val + (srcp (y * src_stride + xx) : F) * kernel (k + radius))
    0

/-- The scalar horizontal pass: it fills `tmp[y * plane_width + x]`. -/
def horizontalPass {F : Type} [LinearOrderedField F] [FloorRing F] (srcp : Int → Nat)
    (src_stride plane_width plane_height : Int) (radius : Int) (kernel : Int → F)
    (tmp : Int → Nat) : Int → Nat :=
  forLoop 0 (plane_height - 1)
    (fun y tmp =>
      forLoop 0 (plane_width - 1)
        (fun x tmp =>
          let val := hAccum srcp src_stride plane_width radius kernel x y
          let val := saturate val
          Function.update tmp (y * plane_width + x) (toUInt16 (val + 1 / 2)))
        tmp)
    tmp

/-- The accumulator of the scalar vertical pass at `(x, y)` after its tap loop. -/
def vAccum {F : Type} [LinearOrderedField F] (tmp : Int → Nat) (plane_width plane_height : Int)
    (radius : Int) (kernel : Int → F) (x y : Int) : F :=
  forLoop (-radius) radius
    (fun k val =>
      let yy := clampTap (y + k) plane_height
      val + (tmp (yy * plane_width + x) : F) * kernel (k + radius))
    0

/-- The scalar vertical pass: it reads `tmp` and fills `dstp[y * dst_stride + x]`. -/
def verticalPass {F : Type} [LinearOrderedField F] [FloorRing F] (tmp : Int → Nat)
    (dst_stride plane_width plane_height : Int) (radius : Int) (kernel : Int → F)
    (dstp : Int → Nat) : Int → Nat :=
  forLoop 0 (plane_height - 1)
    (fun y dstp =>
      forLoop 0 (plane_width - 1)
        (fun x dstp =>
          let val := vAccum tmp plane_width plane_height radius kernel x y
          let val := saturate val
          Function.update dstp (y * dst_stride + x) (toUInt16 (val + 1 / 2)))
        dstp)
    dstp

/-- The body of the plane loop on the scalar path: kernel construction, then the
horizontal pass into the intermediate buffer, then the vertical pass into the
destination.  `kernel0`, `tmp0` and `dstp` are the contents of the kernel array,
of the intermediate buffer and of the destination plane before the call. -/
def processPlane {F : Type} [LinearOrderedField F] [FloorRing F] (exp : F → F)
    (srcp : Int → Nat) (src_stride dst_stride plane_width plane_height : Int) (radius : Int)
    (kernel0 : Int → F) (tmp0 dstp : Int → Nat) : Int → Nat :=
  let kernel := buildKernel exp radius kernel0
  let tmp := horizontalPass srcp src_stride plane_width plane_height radius kernel tmp0
  verticalPass tmp dst_stride plane_width plane_height radius kernel dstp

/-! ## ARM NEON passes (lines 66-110 and 130-174) -/

/-- Number of iterations of the block loop `for (; x <= plane_width - 8; x += 8)`
entered with `x = 0`; iteration `b` runs with `x = 8 * b`. -/
def neonBlocks (plane_width : Int) : Int :=
  max 0 (plane_width / 8)

/-- One lane of `vcvtq_u32_f32`: conversion to `uint32_t`, rounding toward zero
and saturating. -/
def cvtU32 {F : Type} [LinearOrderedField F] [FloorRing F] (v : F) : Nat :=
  if v < 0 then 0 else min (Int.floor v).toNat 4294967295

/-- One lane of `vqmovn_u32`: saturating narrowing to `uint16_t`. -/
def qmovnU16 (n : Nat) : Nat :=
  min n 65535

/-- The sample stored for a lane: `vqmovn_u32(vcvtq_u32_f32(val))`. -/
def neonLaneStore {F : Type} [LinearOrderedField F] [FloorRing F] (val : F) : Nat :=
  qmovnU16 (cvtU32 val)

/-- Lane `j` (0 to 7; lanes 0-3 are `val_low`, lanes 4-7 `val_high`) of the
accumulators of the NEON horizontal pass for the block starting at `x`, after
the tap loop.  `vld1q_u16(&srcp[y * src_stride + xx])` loads the eight
consecutive samples that start at the clamped index, so lane `j` receives
`srcp[y * src_stride + xx + j]`; `vmlaq_n_f32(a, b, c)` is `a + b * c`. -/
def neonHAccum {F : Type} [LinearOrderedField F] (srcp : Int → Nat)
    (src_stride plane_width : Int) (radius : Int) (kernel : Int → F) (x y j : Int) : F :=
  forLoop (-radius) radius
    (fun k val =>
      let xx := clampTap (x + k) plane_width
      val + (srcp (y * src_stride + xx + j) : F) * kernel (k + radius))
    0

/-- The NEON horizontal pass: per row, the 8-wide blocks, then the scalar loop
for the remaining positions. -/
def neonHorizontalPass {F : Type} [LinearOrderedField F] [FloorRing F] (srcp : Int → Nat)
    (src_stride plane_width plane_height : Int) (radius : Int) (kernel : Int → F)
    (tmp : Int → Nat) : Int → Nat :=
  forLoop 0 (plane_height - 1)
    (fun y tmp =>
      forLoop (8 * neonBlocks plane_width) (plane_width - 1)
        (fun x tmp =>
          let val := hAccum srcp src_stride plane_width radius kernel x y
          let val := saturate val
          Function.update tmp (y * plane_width + x) (toUInt16 (val + 1 / 2)))
        (forLoop 0 (neonBlocks plane_width - 1)
          (fun b tmp =>
            forLoop 0 7
              (fun j tmp =>
                Function.update tmp (y * plane_width + 8 * b + j)
                  (neonLaneStore (neonHAccum srcp src_stride plane_width radius kernel (8 * b) y j)))
              tmp)
          tmp))
    tmp

/-- Lane `j` of the accumulators of the NEON vertical pass for the block
starting at `x`: `vld1q_u16(&tmp[yy * plane_width + x])` gives lane `j` the
sample `tmp[yy * plane_width + x + j]`. -/
def neonVAccum {F : Type} [LinearOrderedField F] (tmp : Int → Nat)
    (plane_width plane_height : Int) (radius : Int) (kernel : Int → F) (x y j : Int) : F :=
  forLoop (-radius) radius
    (fun k val =>
      let yy := clampTap (y + k) plane_height
      val + (tmp (yy * plane_width + x + j) : F) * kernel (k + radius))
    0

/-- The NEON vertical pass. -/
def neonVerticalPass {F : Type} [LinearOrderedField F] [FloorRing F] (tmp : Int → Nat)
    (dst_stride plane_width plane_height : Int) (radius : Int) (kernel : Int → F)
    (dstp : Int → Nat) : Int → Nat :=
  forLoop 0 (plane_height - 1)
    (fun y dstp =>
      forLoop (8 * neonBlocks plane_width) (plane_width - 1)
        (fun x dstp =>
          let val := vAccum tmp plane_width plane_height radius kernel x y
          let val := saturate val
          Function.update dstp (y * dst_stride + x) (toUInt16 (val + 1 / 2)))
        (forLoop 0 (neonBlocks plane_width - 1)
          (fun b dstp =>
            forLoop 0 7
              (fun j dstp =>
                Function.update dstp (y * dst_stride + 8 * b + j)
                  (neonLaneStore (neonVAccum tmp plane_width plane_height radius kernel (8 * b) y j)))
              dstp)
          dstp))
    dstp

/-- The body of the plane loop when `__ARM_NEON__` is defined. -/
def neonProcessPlane {F : Type} [LinearOrderedField F] [FloorRing F] (exp : F → F)
    (srcp : Int → Nat) (src_stride dst_stride plane_width plane_height : Int) (radius : Int)
    (kernel0 : Int → F) (tmp0 dstp : Int → Nat) : Int → Nat :=
  let kernel := buildKernel exp radius kernel0
  let tmp := neonHorizontalPass srcp src_stride plane_width plane_height radius kernel tmp0
  neonVerticalPass tmp dst_stride plane_width plane_height radius kernel dstp

/-- A plane of one row of eight samples whose only non-zero sample is `65535`
at column 1; the row padding behind the eight samples is zero. -/
def brightRow : Int → Nat :=
  fun i => if i = 1 then 65535 else 0

/-! ## Argument validation of `gaussianBlurCreate` (lines 214-251) -/

/-- The sample types of the host interface. -/
inductive VSSampleType where
  | stInteger
  | stFloat
  deriving DecidableEq, Repr

/-- What `gaussianBlurCreate` inspects of the video info of the input clip:
the result of `vsh::isConstantVideoFormat(vi)`, `vi->format.sampleType` and
`vi->format.bitsPerSample`. -/
structure VideoInfo where
  constantFormat : Bool
  sampleType : VSSampleType
  bitsPerSample : Int
  deriving DecidableEq, Repr

/-- The two ways `gaussianBlurCreate` returns: after `mapSetError` with a
message (the node is freed and no filter is created), or after
`createVideoFilter` with instance data holding `radius`. -/
inductive CreateOutcome where
  | error (msg : String)
  | created (radius : Int)
  deriving DecidableEq, Repr

/-- The call `mapGetInt(in, "radius", 0, &err)`: the 64-bit value and the error
flag; a missing argument yields `0` with the flag set. -/
def mapGetInt (radiusArg : Option Int) : Int × Bool :=
  match radiusArg with
  | none => (0, true)
  | some v => (v, false)

/-- The function `gaussianBlurCreate`.  The value returned by `mapGetInt` is
narrowed by the cast `(int)` before it is compared with `1`. -/
def gaussianBlurCreate (vi : VideoInfo) (radiusArg : Option Int) : CreateOutcome :=
  if !vi.constantFormat || vi.sampleType != VSSampleType.stInteger || vi.bitsPerSample != 16 then
    CreateOutcome.error "GaussianBlur: Only constant format 16-bit integer input supported."
  else
    let r := mapGetInt radiusArg
    let radius := wrap32 r.1
    if r.2 then
      CreateOutcome.error "GaussianBlur: 'radius' parameter is required."
    else if radius < 1 then
      CreateOutcome.error "GaussianBlur: 'radius' must be greater than 0."
    else
      CreateOutcome.created radius

/-- A clip of the supported format: constant, integer samples, 16 bits. -/
def supportedInfo : VideoInfo :=
  { constantFormat := true, sampleType := VSSampleType.stInteger, bitsPerSample := 16 }

/-- A plane whose samples are all `65535`. -/
def srcp_white : Int → Nat :=
  fun _ => 65535

/-! ## Reference definitions of the convolution pass, following the specification -/

/-- The specification's `clamp(a, lo, hi)`. -/
def specClamp (a lo hi : Int) : Int :=
  min (max a lo) hi

/-- The specification's output rule `floor(min(max(S, 0), 65535) + 0.5)`. -/
def specRound {F : Type} [LinearOrderedField F] [FloorRing F] (S : F) : Int :=
  Int.floor (min (max S 0) 65535 + 1 / 2)

/-- The specification's horizontal sample: the sum over `k` from `-radius` to
`radius` of `src[y*src_stride + clamp(x+k, 0, width-1)] * kernel[k+radius]`,
saturated and rounded. -/
def specHorizontal {F : Type} [LinearOrderedField F] [FloorRing F] (src : Int → Nat)
    (src_stride width : Int) (radius : Int) (kernel : Int → F) (x y : Int) : Int :=
  specRound (∑ k in Finset.Icc (-radius) radius,
    (src (y * src_stride + specClamp (x + k) 0 (width - 1)) : F) * kernel (k + radius))

/-- The specification's vertical sample: the sum over `k` from `-radius` to
`radius` of `tmp[clamp(y+k, 0, height-1)*width + x] * kernel[k+radius]`,
saturated and rounded. -/
def specVertical {F : Type} [LinearOrderedField F] [FloorRing F] (tmp : Int → Nat)
    (width height : Int) (radius : Int) (kernel : Int → F) (x y : Int) : Int :=
  specRound (∑ k in Finset.Icc (-radius) radius,
    (tmp (specClamp (y + k) 0 (height - 1) * width + x) : F) * kernel (k + radius))

/-- The raw weight that the first kernel loop stores for the offset `i`. -/
def rawWeight {F : Type} [LinearOrderedField F] (exp : F → F) (radius : Int) (i : Int) : F :=
  exp (kernelExponent ((radius : F) / 3) i)

/-- The side weight `e / (1 + 2e)` of a radius-1 kernel with raw side weight `e`. -/
def sideWeight {F : Type} [LinearOrderedField F] (e : F) : F :=
  e / (1 + 2 * e)

/-! ## Zero-padded reference passes, following the specification's clamp-to-edge check -/

/-- The horizontal accumulator of the reference implementation that is identical
to the engine except that out-of-range taps contribute zero. -/
def zeroPadHAccum {F : Type} [LinearOrderedField F] (srcp : Int → Nat)
    (src_stride plane_width : Int) (radius : Int) (kernel : Int → F) (x y : Int) : F :=
  forLoop (-radius) radius
    (fun k val =>
      let xx := x + k
      val + (if xx < 0 ∨ xx ≥ plane_width then 0
        else (srcp (y * src_stride + xx) : F) * kernel (k + radius)))
    0

/-- The horizontal pass of the zero-padded reference implementation. -/
def zeroPadHorizontalPass {F : Type} [LinearOrderedField F] [FloorRing F] (srcp : Int → Nat)
    (src_stride plane_width plane_height : Int) (radius : Int) (kernel : Int → F)
    (tmp : Int → Nat) : Int → Nat :=
  forLoop 0 (plane_height - 1)
    (fun y tmp =>
      forLoop 0 (plane_width - 1)
        (fun x tmp =>
          let val := zeroPadHAccum srcp src_stride plane_width radius kernel x y
          let val := saturate val
          Function.update tmp (y * plane_width + x) (toUInt16 (val + 1 / 2)))
        tmp)
    tmp

/-- The vertical accumulator of the zero-padded reference implementation. -/
def zeroPadVAccum {F : Type} [LinearOrderedField F] (tmp : Int → Nat)
    (plane_width plane_height : Int) (radius : Int) (kernel : Int → F) (x y : Int) : F :=
  forLoop (-radius) radius
    (fun k val =>
      let yy := y + k
      val + (if yy < 0 ∨ yy ≥ plane_height then 0
        else (tmp (yy * plane_width + x) : F) * kernel (k + radius)))
    0

/-- The vertical pass of the zero-padded reference implementation. -/
def zeroPadVerticalPass {F : Type} [LinearOrderedField F] [FloorRing F] (tmp : Int → Nat)
    (dst_stride plane_width plane_height : Int) (radius : Int) (kernel : Int → F)
    (dstp : Int → Nat) : Int → Nat :=
  forLoop 0 (plane_height - 1)
    (fun y dstp =>
      forLoop 0 (plane_width - 1)
        (fun x dstp =>
          let val := zeroPadVAccum tmp plane_width plane_height radius kernel x y
          let val := saturate val
          Function.update dstp (y * dst_stride + x) (toUInt16 (val + 1 / 2)))
        dstp)
    dstp

/-- The zero-padded reference implementation of the plane blur: the same kernel,
the same pass order, the same saturation and rounding. -/
def zeroPadProcessPlane {F : Type} [LinearOrderedField F] [FloorRing F] (exp : F → F)
    (srcp : Int → Nat) (src_stride dst_stride plane_width plane_height : Int) (radius : Int)
    (kernel0 : Int → F) (tmp0 dstp : Int → Nat) : Int → Nat :=
  let kernel := buildKernel exp radius kernel0
  let tmp := zeroPadHorizontalPass srcp src_stride plane_width plane_height radius kernel tmp0
  zeroPadVerticalPass tmp dst_stride plane_width plane_height radius kernel dstp

/-- The 4x4 test plane (stride 4) whose only non-zero sample is `65535` at the
corner `(0, 0)`. -/
def cornerPlane : Int → Nat :=
  fun i => if i = 0 then 65535 else 0

/-- The 5x1 test row `[0, 0, 65535, 0, 0]` (one row, stride 5). -/
def fiveRow : Int → Nat :=
  fun i => if i = 2 then 65535 else 0

/-! ## A test plane with padding -/

/-- A one-row plane of width 8 (stride 32) whose eight samples are all zero and
whose first padding sample, at column 8, is `65535`. -/
def padProbe : Int → Nat :=
  fun i => if i = 8 then 65535 else 0

/-! ## The buffers of one plane invocation as a state -/

/-- The four buffers one iteration of the plane loop can reach: the source
plane (through a pointer to `const`), the kernel array, the intermediate
buffer and the destination plane. -/
structure PlaneMemory (F : Type) where
  srcp : Int → Nat
  kernel : Int → F
  tmp : Int → Nat
  dstp : Int → Nat

/-- One iteration of the plane loop as a transformer of the buffers: the kernel
loops store into `kernel`, the horizontal pass into `tmp`, the vertical pass
into `dstp`; no statement stores through `srcp`. -/
def processPlaneMemory {F : Type} [LinearOrderedField F] [FloorRing F] (exp : F → F)
    (src_stride dst_stride plane_width plane_height : Int) (radius : Int)
    (m : PlaneMemory F) : PlaneMemory F :=
  let kernel := buildKernel exp radius m.kernel
  let tmp := horizontalPass m.srcp src_stride plane_width plane_height radius kernel m.tmp
  { srcp := m.srcp
    kernel := kernel
    tmp := tmp
    dstp := verticalPass tmp dst_stride plane_width plane_height radius kernel m.dstp }

/-- The operations the scalar path applies to values of type `double`: the
conversion of an `int`, the literal `0.5`, `+`, `*`, `/`, the C library's
`exp`, the comparison `<`, and the conversion `(uint16_t)`.  Each arithmetic
operation returns its rounded result. -/
structure MachineArith (D : Type) where
  ofInt : Int → D
  half : D
  add : D → D → D
  mul : D → D → D
  div : D → D → D
  exp : D → D
  lt : D → D → Bool
  toUInt16 : D → Nat

/-- The statement `val = val < 0 ? 0 : val > 65535 ? 65535 : val;` over the
machine's operations. -/
def saturateM {D : Type} (A : MachineArith D) (val : D) : D :=
  if A.lt val (A.ofInt 0) then A.ofInt 0
  else if A.lt (A.ofInt 65535) val then A.ofInt 65535 else val

/-- The exponent `-(i * i) / (2 * sigma * sigma)` over the machine's operations:
the numerator is computed in `int` and converted, `2 * sigma * sigma` is
`(2 * sigma) * sigma`. -/
def kernelExponentM {D : Type} (A : MachineArith D) (sigma : D) (i : Int) : D :=
  A.div (A.ofInt (wrap32 (-(wrap32 (i * i))))) (A.mul (A.mul (A.ofInt 2) sigma) sigma)

/-- The first loop of the kernel construction over the machine's operations;
`sigma = radius / 3.0`, and the state is the pair `(kernel, sum)`. -/
def rawKernelM {D : Type} (A : MachineArith D) (radius : Int) (kernel0 : Int → D) :
    (Int → D) × D :=
  let sigma : D := A.div (A.ofInt radius) (A.ofInt 3)
  forLoop (-radius) radius
    (fun i st =>
      let kernel := Function.update st.1 (i + radius) (A.exp (kernelExponentM A sigma i))
      (kernel, A.add st.2 (kernel (i + radius))))
    (kernel0, A.ofInt 0)

/-- The declaration `int kernel_size = 2 * radius + 1;` evaluated in 32-bit
`int` arithmetic. -/
def kernelSize32 (radius : Int) : Int :=
  wrap32 (wrap32 (2 * radius) + 1)

/-- The kernel after the normalising loop `for (int i = 0; i < kernel_size; i++)
kernel[i] /= sum;` over the machine's operations, with `kernel_size` the 32-bit
value. -/
def buildKernelM {D : Type} (A : MachineArith D) (radius : Int) (kernel0 : Int → D) :
    Int → D :=
  let kernel_size := kernelSize32 radius
  let st := rawKernelM A radius kernel0
  forLoop 0 (kernel_size - 1)
    (fun i kernel => Function.update kernel i (A.div (kernel i) st.2))
    st.1

/-- The accumulator of the scalar horizontal pass at `(x, y)` after its tap
loop, over the machine's operations: `val` starts at `0.0`, and each iteration
rounds the product and then the sum. -/
def hAccumM {D : Type} (A : MachineArith D) (srcp : Int → Nat)
    (src_stride plane_width : Int) (radius : Int) (kernel : Int → D) (x y : Int) : D :=
  forLoop (-radius) radius
    (fun k val =>
      let xx := clampTap (x + k) plane_width
      A.add val (A.mul (A.ofInt (srcp (y * src_stride + xx))) (kernel (k + radius))))
    (A.ofInt 0)

/-- The scalar horizontal pass over the machine's operations. -/
def horizontalPassM {D : Type} (A : MachineArith D) (srcp : Int → Nat)
    (src_stride plane_width plane_height : Int) (radius : Int) (kernel : Int → D)
    (tmp : Int → Nat) : Int → Nat :=
  forLoop 0 (plane_height - 1)
    (fun y tmp =>
      forLoop 0 (plane_width - 1)
        (fun x tmp =>
          let val := hAccumM A srcp src_stride plane_width radius kernel x y
          let val := saturateM A val
          Function.update tmp (y * plane_width + x) (A.toUInt16 (A.add val A.half)))
        tmp)
    tmp

/-- The accumulator of the scalar vertical pass at `(x, y)` after its tap loop,
over the machine's operations. -/
def vAccumM {D : Type} (A : MachineArith D) (tmp : Int → Nat)
    (plane_width plane_height : Int) (radius : Int) (kernel : Int → D) (x y : Int) : D :=
  forLoop (-radius) radius
    (fun k val =>
      let yy := clampTap (y + k) plane_height
      A.add val (A.mul (A.ofInt (tmp (yy * plane_width + x))) (kernel (k + radius))))
    (A.ofInt 0)

/-- The scalar vertical pass over the machine's operations. -/
def verticalPassM {D : Type} (A : MachineArith D) (tmp : Int → Nat)
    (dst_stride plane_width plane_height : Int) (radius : Int) (kernel : Int → D)
    (dstp : Int → Nat) : Int → Nat :=
  forLoop 0 (plane_height - 1)
    (fun y dstp =>
      forLoop 0 (plane_width - 1)
        (fun x dstp =>
          let val := vAccumM A tmp plane_width plane_height radius kernel x y
          let val := saturateM A val
          Function.update dstp (y * dst_stride + x) (A.toUInt16 (A.add val A.half)))
        dstp)
    dstp

/-- The integer nearest to `N / D`, a tie going to the even one. -/
def roundHalfEven (N D : Nat) : Nat :=
  let q := N / D
  let r := N % D
  if 2 * r < D then q else if D < 2 * r then q + 1 else if q % 2 = 0 then q else q + 1

/-- The number of binary digits of `n` (the first argument bounds the number of
halvings and is chosen larger than any operand below). -/
def bitLength : Nat → Nat → Nat
  | 0, _ => 0
  | fuel + 1, n => if n = 0 then 0 else bitLength fuel (n / 2) + 1

/-- The exponent `e` with `2^e ≤ n / d < 2^(e+1)`, for positive `n` and `d`. -/
def floorLog2 (n d : Nat) : Int :=
  let e0 : Int := (bitLength 2200 n : Int) - (bitLength 2200 d : Int)
  if 0 ≤ e0 then (if d * 2 ^ e0.toNat ≤ n then e0 else e0 - 1)
  else (if d ≤ n * 2 ^ (-e0).toNat then e0 else e0 - 1)

/-- A finite value of type `double`, written `m * 2^e`; the operations below
keep `m` odd (or `m = 0`, `e = 0`), so that equal values are equal records.
Infinities and NaN are not represented: no evaluation below leaves the finite
range. -/
structure Double where
  m : Int
  e : Int
  deriving DecidableEq

/-- Removal of the trailing zero bits of the significand. -/
def stripZeros : Nat → Int → Int → Double
  | 0, m, e => ⟨m, e⟩
  | fuel + 1, m, e =>
    if m = 0 then ⟨0, 0⟩
    else if m % 2 = 0 then stripZeros fuel (m / 2) (e + 1) else ⟨m, e⟩

/-- Rounding to `double` of the rational `(n / d) * 2^k`, to nearest with ties to
even: 53 significant bits, and the fixed quantum `2^-1074` below `2^-1022`. -/
def roundRat (n : Int) (d : Nat) (k : Int) : Double :=
  if n = 0 then ⟨0, 0⟩ else
    let a := n.natAbs
    let lg := floorLog2 a d + k
    let ex := if lg < -1022 then -1022 else lg
    let s := ex - 52
    let t := k - s
    let mag : Nat :=
      if 0 ≤ t then roundHalfEven (a * 2 ^ t.toNat) d
      else roundHalfEven a (d * 2 ^ (-t).toNat)
    stripZeros 64 (if n < 0 then -(mag : Int) else (mag : Int)) s

/-- The conversion of an `int` to `double`. -/
def Double.ofInt (n : Int) : Double :=
  roundRat n 1 0

/-- The sum of two doubles, rounded. -/
def Double.add (x y : Double) : Double :=
  let e := if x.e ≤ y.e then x.e else y.e
  roundRat (x.m * ((2 ^ (x.e - e).toNat : Nat) : Int)
    + y.m * ((2 ^ (y.e - e).toNat : Nat) : Int)) 1 e

/-- The product of two doubles, rounded. -/
def Double.mul (x y : Double) : Double :=
  roundRat (x.m * y.m) 1 (x.e + y.e)

/-- The quotient of two doubles, rounded (the divisor is not zero). -/
def Double.div (x y : Double) : Double :=
  roundRat (if y.m < 0 then -x.m else x.m) y.m.natAbs (x.e - y.e)

/-- The comparison `x < y` of two doubles. -/
def Double.lt (x y : Double) : Bool :=
  let e := if x.e ≤ y.e then x.e else y.e
  decide (x.m * ((2 ^ (x.e - e).toNat : Nat) : Int)
    < y.m * ((2 ^ (y.e - e).toNat : Nat) : Int))

/-- Truncation of a double toward zero. -/
def Double.truncate (x : Double) : Int :=
  if 0 ≤ x.e then x.m * ((2 ^ x.e.toNat : Nat) : Int)
  else if 0 ≤ x.m then ((x.m.natAbs / 2 ^ (-x.e).toNat : Nat) : Int)
  else -((x.m.natAbs / 2 ^ (-x.e).toNat : Nat) : Int)

/-- The conversion `(uint16_t)v` of a double. -/
def Double.toUInt16 (x : Double) : Nat :=
  (x.truncate % 65536).toNat

/-- The value of a double as a rational number. -/
def Double.toRat (x : Double) : ℚ :=
  (x.m : ℚ) * (2 : ℚ) ^ x.e

/-- The arguments at which the evaluations of this development call `exp`:
`0`, `-0.5`, `-1.125`, `-2` and `-4.5`, the exponents of the kernels of radius
1, 2 and 3. -/
def libmExpArgs : List Double :=
  [⟨0, 0⟩, ⟨-1, -1⟩, ⟨-9, -3⟩, ⟨-1, 1⟩, ⟨-9, -1⟩]

/-- The C library's `exp` on `libmExpArgs`: each entry is the double nearest to
the real exponential (`1`, `0.6065306597126334`, `0.32465246735834974`,
`0.1353352832366127`, `0.011108996538242306`).  No other argument is evaluated;
the table maps it to `0`. -/
def libmExp (x : Double) : Double :=
  if x = ⟨0, 0⟩ then ⟨1, 0⟩
  else if x = ⟨-1, -1⟩ then ⟨2731571253070597, -52⟩
  else if x = ⟨-9, -3⟩ then ⟨182763091377497, -49⟩
  else if x = ⟨-1, 1⟩ then ⟨1218991862308979, -53⟩
  else if x = ⟨-9, -1⟩ then ⟨6403900501771287, -59⟩
  else ⟨0, 0⟩

/-- The machine's `double` arithmetic: IEEE 754 binary64, round to nearest, ties
to even, one rounding per operation. -/
def binary64 : MachineArith Double where
  ofInt := Double.ofInt
  half := ⟨1, -1⟩
  add := Double.add
  mul := Double.mul
  div := Double.div
  exp := libmExp
  lt := Double.lt
  toUInt16 := Double.toUInt16

/-- The 7x1 test row `[46241, 65094, 52343, 60552, 51510, 49910, 36357]`. -/
def sevenRow : Int → Nat :=
  fun i => if i = 0 then 46241 else if i = 1 then 65094 else if i = 2 then 52343
    else if i = 3 then 60552 else if i = 4 then 51510 else if i = 5 then 49910
    else if i = 6 then 36357 else 0

/-- The row `sevenRow` mirrored horizontally. -/
def sevenRowMirrored : Int → Nat :=
  fun i => sevenRow (6 - i)

/-- The kernel `[0, 0.49999999999999994, 0]` (the centre weight is
`0.5 - 2^-54`). -/
def nearHalfKernel : Int → Double :=
  fun i => if i = 1 then ⟨9007199254740991, -54⟩ else ⟨0, 0⟩

/-! ## Bounds-checked execution of the scalar passes -/

/-- The tap offsets `-radius, ..., radius` in increasing order. -/
def tapOffsets (radius : Int) : List Int :=
  (List.range (2 * radius + 1).toNat).map (fun (j : Nat) => -radius + (j : Int))

/-- The specification's sum over `k` from `-radius` to `radius` of `term k`,
accumulated in `double` from `0.0` in increasing order of `k`, every partial
sum rounded. -/
def specSumM {D : Type} (A : MachineArith D) (radius : Int) (term : Int → D) : D :=
  (tapOffsets radius).foldl (fun acc k => A.add acc (term k)) (A.ofInt 0)

/-- The specification's `max(a, b)` through the machine's comparison. -/
def specMaxM {D : Type} (A : MachineArith D) (a b : D) : D :=
  if A.lt a b then b else a

/-- The specification's `min(a, b)` through the machine's comparison. -/
def specMinM {D : Type} (A : MachineArith D) (a b : D) : D :=
  if A.lt b a then b else a

/-- The specification's output rule `min(max(S, 0), 65535) + 0.5`, the sum
rounded to `double` and then converted to the sample type. -/
def specRoundM {D : Type} (A : MachineArith D) (S : D) : Nat :=
  A.toUInt16 (A.add (specMinM A (specMaxM A S (A.ofInt 0)) (A.ofInt 65535)) A.half)

/-- The specification's horizontal sample with the sum accumulated in `double`:
every product `src[y*src_stride + clamp(x+k, 0, width-1)] * kernel[k+radius]` is
rounded, and so is every partial sum. -/
def specHorizontalM {D : Type} (A : MachineArith D) (src : Int → Nat)
    (src_stride width : Int) (radius : Int) (kernel : Int → D) (x y : Int) : Nat :=
  specRoundM A (specSumM A radius (fun k =>
    A.mul (A.ofInt (src (y * src_stride + specClamp (x + k) 0 (width - 1)))) (kernel (k + radius))))

/-- The specification's vertical sample with the sum accumulated in `double`. -/
def specVerticalM {D : Type} (A : MachineArith D) (tmp : Int → Nat)
    (width height : Int) (radius : Int) (kernel : Int → D) (x y : Int) : Nat :=
  specRoundM A (specSumM A radius (fun k =>
    A.mul (A.ofInt (tmp (specClamp (y + k) 0 (height - 1) * width + x))) (kernel (k + radius))))

/-! ## The scalar passes with the taps accumulated in the opposite order -/

/-- The loop `for (int i = hi; i >= lo; i--) s = body i s`. -/
def forLoopDown {σ : Type} (lo hi : Int) (body : Int → σ → σ) (s : σ) : σ :=
  (List.range (hi + 1 - lo).toNat).foldl (fun st (j : Nat) => body (hi - (j : Int)) st) s

/-- The raw weight that the first kernel loop stores for the offset `i`, over
the machine's operations. -/
def rawWeightM {D : Type} (A : MachineArith D) (radius : Int) (i : Int) : D :=
  A.exp (kernelExponentM A (A.div (A.ofInt radius) (A.ofInt 3)) i)

/-- The value of `sum` after the first kernel loop: the raw weights added in
the order `i = -radius, ..., radius`, every partial sum rounded. -/
def rawSumM {D : Type} (A : MachineArith D) (radius : Int) : D :=
  forLoop (-radius) radius (fun i s => A.add s (rawWeightM A radius i)) (A.ofInt 0)

/-! ## Rounded arithmetic on an ordered field -/

/-- The machine's operations described by a rounding function `rnd` on an
ordered field: `+`, `*` and `/` return the rounding of the exact result, an
`int` and the literal `0.5` convert exactly, `<` is the order of the field, and
the C library's `exp` is the parameter `expf`. -/
def roundedArith {F : Type} [LinearOrderedField F] [FloorRing F] (rnd expf : F → F) :
    MachineArith F where
  ofInt := fun n => (n : F)
  half := 1 / 2
  add := fun x y => rnd (x + y)
  mul := fun x y => rnd (x * y)
  div := fun x y => rnd (x / y)
  exp := expf
  lt := fun x y => decide (x < y)
  toUInt16 := toUInt16

/-- The properties of binary64 rounding to nearest that the error analysis
uses: it is monotone, it fixes the multiples of `1/8` up to `2^17` (among them
`0` and `1`), and in the normal range `2^-1022 <= |x| <= 2^1023` its relative
error is at most `2^-53`. -/
structure NearestRounding {F : Type} [LinearOrderedField F] (rnd : F → F) : Prop where
  mono : ∀ x y, x ≤ y → rnd x ≤ rnd y
  eighths : ∀ k : Nat, k ≤ 1048576 → rnd ((k : F) / 8) = (k : F) / 8
  rel : ∀ x, 1 / 2 ^ 1022 ≤ |x| → |x| ≤ 2 ^ 1023 → |rnd x - x| ≤ |x| / 2 ^ 53

/-- The properties of the C library's `exp` that the error analysis of the
kernel uses: `exp(0)` is `1`, and on `[-5, 5]` the result lies between `2^-10`
and `2^10`. -/
structure BoundedExp {F : Type} [LinearOrderedField F] (expf : F → F) : Prop where
  zero : expf 0 = 1
  bounds : ∀ t, |t| ≤ 5 → 1 / 1024 ≤ expf t ∧ expf t ≤ 1024

/-! ## Binary64 rounding of a rational number -/

/-- The integer nearest to `t`, a tie going to the even one. -/
def roundHalfEvenQ (t : ℚ) : Int :=
  if t - (Int.floor t : ℚ) < 1 / 2 then Int.floor t
  else if 1 / 2 < t - (Int.floor t : ℚ) then Int.floor t + 1
  else if Int.floor t % 2 = 0 then Int.floor t else Int.floor t + 1

/-- Rounding to binary64 of a non-negative rational, to nearest with ties to
even: with `e = max (floor (log2 x)) (-1022)` the result is the multiple of the
quantum `2^(e-52)` nearest to `x`. -/
def roundMagQ (x : ℚ) : ℚ :=
  (roundHalfEvenQ (x / (2 : ℚ) ^ (max (Int.log 2 x) (-1022) - 52)) : ℚ)
    * (2 : ℚ) ^ (max (Int.log 2 x) (-1022) - 52)

/-- Rounding to binary64 of a rational number (round to nearest, ties to even;
the exponent range is not bounded above). -/
def roundQ (x : ℚ) : ℚ :=
  if 0 ≤ x then roundMagQ x else -roundMagQ (-x)

/-- A rational stand-in for the exponential on `[-5, 5]`: `(1 + t/32)^32`. -/
def expQ (t : ℚ) : ℚ :=
  (1 + t / 32) ^ 32

theorem forLoop_empty {σ : Type} (lo hi : Int) (body : Int → σ → σ) (s : σ) (h : hi < lo) :
    forLoop lo hi body s = s := by
  unfold forLoop
  have h0 : (hi + 1 - lo).toNat = 0 := by omega
  simp [h0]

theorem forLoop_succ {σ : Type} (lo hi : Int) (body : Int → σ → σ) (s : σ) (h : lo ≤ hi + 1) :
    forLoop lo (hi + 1) body s = body (hi + 1) (forLoop lo hi body s) := by
  unfold forLoop
  have h1 : (hi + 1 + 1 - lo).toNat = (hi + 1 - lo).toNat + 1 := by omega
  have h2 : lo + (((hi + 1 - lo).toNat : Nat) : Int) = hi + 1 := by omega
  rw [h1, List.range_succ, List.foldl_append]
  simp only [List.foldl_cons, List.foldl_nil, h2]

/-- Invariant rule for `forLoop`: `Inv n` speaks about the state after the
iteration with index `n`. -/
theorem forLoop_invariant {σ : Type} (lo hi : Int) (body : Int → σ → σ) (s : σ)
    (Inv : Int → σ → Prop) (hle : lo - 1 ≤ hi) (h0 : Inv (lo - 1) s)
    (hstep : ∀ i st, lo ≤ i → i ≤ hi → Inv (i - 1) st → Inv i (body i st)) :
    Inv hi (forLoop lo hi body s) := by
  have key : ∀ n : Int, lo - 1 ≤ n → n ≤ hi → Inv n (forLoop lo n body s) := by
    intro n hn
    refine Int.le_induction (P := fun n => n ≤ hi → Inv n (forLoop lo n body s)) ?_ ?_ n hn
    · intro _
      rw [forLoop_empty lo (lo - 1) body s (by omega)]
      exact h0
    · intro n hn ih hn1
      rw [forLoop_succ lo n body s (by omega)]
      have := hstep (n + 1) (forLoop lo n body s) (by omega) hn1
      simp only [add_sub_cancel_right] at this
      exact this (ih (by omega))
  exact key hi hle le_rfl

/-- A loop whose iteration `i` overwrites the cells `p` with `P i p` by a value
`V p` that depends on the cell only: afterwards every cell written by some
iteration holds `V p`. -/
theorem forLoop_write_hit {α : Type} (lo hi : Int) (body : Int → (Int → α) → (Int → α))
    (P : Int → Int → Prop) (V : Int → α)
    (hhit : ∀ i m p, lo ≤ i → i ≤ hi → P i p → body i m p = V p)
    (hmiss : ∀ i m p, lo ≤ i → i ≤ hi → ¬ P i p → body i m p = m p)
    (m : Int → α) (p : Int) (hp : ∃ i, lo ≤ i ∧ i ≤ hi ∧ P i p) :
    forLoop lo hi body m p = V p := by
  obtain ⟨i0, hi0l, hi0h, hi0P⟩ := hp
  have hinv := forLoop_invariant lo hi body m
    (fun n st => (∃ i, lo ≤ i ∧ i ≤ n ∧ P i p) → st p = V p) (by omega)
    (by rintro ⟨i, h1, h2, _⟩; omega)
    (by
      intro i st hil hih ih hex
      by_cases hP : P i p
      · exact hhit i st p hil hih hP
      · rw [hmiss i st p hil hih hP]
        apply ih
        obtain ⟨j, hj1, hj2, hj3⟩ := hex
        have hne : j ≠ i := fun e => hP (e ▸ hj3)
        exact ⟨j, hj1, by omega, hj3⟩)
  exact hinv ⟨i0, hi0l, hi0h, hi0P⟩

/-- Companion of `forLoop_write_hit`: a cell that no iteration writes keeps its value. -/
theorem forLoop_write_miss {α : Type} (lo hi : Int) (body : Int → (Int → α) → (Int → α))
    (P : Int → Int → Prop)
    (hmiss : ∀ i m p, lo ≤ i → i ≤ hi → ¬ P i p → body i m p = m p)
    (m : Int → α) (p : Int) (hp : ¬ ∃ i, lo ≤ i ∧ i ≤ hi ∧ P i p) :
    forLoop lo hi body m p = m p := by
  by_cases hlt : hi < lo - 1
  · rw [forLoop_empty lo hi body m (by omega)]
  · exact forLoop_invariant lo hi body m (fun _ st => st p = m p) (by omega) rfl
      (by
        intro i st hil hih ih
        rw [hmiss i st p hil hih (fun hP => hp ⟨i, hil, hih, hP⟩)]
        exact ih)

/-- An accumulating loop computes the sum of its summands (exact arithmetic). -/
theorem forLoop_sum {F : Type} [LinearOrderedField F] (lo hi : Int) (f : Int → F) :
    forLoop lo hi (fun k val => val + f k) 0 = ∑ k in Finset.Icc lo hi, f k := by
  by_cases hlt : hi < lo - 1
  · rw [forLoop_empty lo hi _ _ (by omega), Finset.Icc_eq_empty (by omega), Finset.sum_empty]
  · refine forLoop_invariant lo hi (fun k val => val + f k) 0
      (fun n val => val = ∑ k in Finset.Icc lo n, f k) (by omega) ?_ ?_
    · show (0 : F) = ∑ k in Finset.Icc lo (lo - 1), f k
      rw [Finset.Icc_eq_empty (by omega), Finset.sum_empty]
    · intro i st hil _ ih
      show st + f i = ∑ k in Finset.Icc lo i, f k
      change st = ∑ k in Finset.Icc lo (i - 1), f k at ih
      have hins : Finset.Icc lo i = insert i (Finset.Icc lo (i - 1)) := by
        ext k
        simp only [Finset.mem_Icc, Finset.mem_insert]
        omega
      have hnot : i ∉ Finset.Icc lo (i - 1) := by
        simp only [Finset.mem_Icc]
        omega
      rw [hins, Finset.sum_insert hnot, ih, add_comm]

/-- The doubly nested store loop shared by both passes writes `val x y` at
`y * stride + x` for every position of the plane. -/
theorem planeWrite_hit (stride w h : Int) (val : Int → Int → Nat) (buf : Int → Nat)
    (hs : w ≤ stride) (x y : Int) (hx0 : 0 ≤ x) (hx : x < w) (hy0 : 0 ≤ y) (hy : y < h) :
    forLoop 0 (h - 1)
      (fun y b => forLoop 0 (w - 1) (fun x b => Function.update b (y * stride + x) (val x y)) b)
      buf (y * stride + x) = val x y := by
  have hspos : 0 < stride := by omega
  have hdiv : ∀ a b : Int, 0 ≤ a → a < w → (b * stride + a) / stride = b := by
    intro a b ha0 ha
    rw [add_comm, mul_comm, Int.add_mul_ediv_left _ _ (by omega), Int.ediv_eq_zero_of_lt ha0 (by omega)]
    simp
  have hmod : ∀ a b : Int, 0 ≤ a → a < w → (b * stride + a) % stride = a := by
    intro a b ha0 ha
    rw [add_comm, Int.add_mul_emod_self, Int.emod_eq_of_lt ha0 (by omega)]
  have hinner_miss : ∀ (y' : Int) (m : Int → Nat) (p : Int),
      (¬ ∃ x', 0 ≤ x' ∧ x' ≤ w - 1 ∧ p = y' * stride + x') →
      forLoop 0 (w - 1) (fun x b => Function.update b (y' * stride + x) (val x y')) m p = m p := by
    intro y' m p hp
    refine forLoop_write_miss 0 (w - 1) _ (fun x' q => q = y' * stride + x') ?_ m p hp
    intro i m' q _ _ hq
    exact Function.update_noteq hq _ _
  have hinner_hit : ∀ (y' : Int) (m : Int → Nat) (p : Int),
      (∃ x', 0 ≤ x' ∧ x' ≤ w - 1 ∧ p = y' * stride + x') →
      forLoop 0 (w - 1) (fun x b => Function.update b (y' * stride + x) (val x y')) m p
        = val (p % stride) (p / stride) := by
    intro y' m p hp
    refine forLoop_write_hit 0 (w - 1) _ (fun x' q => q = y' * stride + x')
      (fun q => val (q % stride) (q / stride)) ?_ ?_ m p hp
    · intro i m' q hi0 hi1 hq
      subst hq
      rw [Function.update_same]
      show val i y' = val ((y' * stride + i) % stride) ((y' * stride + i) / stride)
      rw [hdiv i y' hi0 (by omega), hmod i y' hi0 (by omega)]
    · intro i m' q _ _ hq
      exact Function.update_noteq hq _ _
  have hout := forLoop_write_hit 0 (h - 1)
    (fun y b => forLoop 0 (w - 1) (fun x b => Function.update b (y * stride + x) (val x y)) b)
    (fun y' q => ∃ x', 0 ≤ x' ∧ x' ≤ w - 1 ∧ q = y' * stride + x')
    (fun q => val (q % stride) (q / stride))
    (fun i m q _ _ hq => hinner_hit i m q hq)
    (fun i m q _ _ hq => hinner_miss i m q hq)
    buf (y * stride + x) ⟨y, hy0, by omega, x, hx0, by omega, rfl⟩
  rw [hout]
  show val ((y * stride + x) % stride) ((y * stride + x) / stride) = val x y
  rw [hdiv x y hx0 hx, hmod x y hx0 hx]

/-- The store loop leaves every cell outside the plane positions untouched. -/
theorem planeWrite_miss (stride w h : Int) (val : Int → Int → Nat) (buf : Int → Nat) (p : Int)
    (hp : ∀ x y : Int, 0 ≤ x → x < w → 0 ≤ y → y < h → p ≠ y * stride + x) :
    forLoop 0 (h - 1)
      (fun y b => forLoop 0 (w - 1) (fun x b => Function.update b (y * stride + x) (val x y)) b)
      buf p = buf p := by
  refine forLoop_write_miss 0 (h - 1) _
    (fun y' q => ∃ x', 0 ≤ x' ∧ x' ≤ w - 1 ∧ q = y' * stride + x') ?_ buf p ?_
  · intro y' m q _ _ hq
    refine forLoop_write_miss 0 (w - 1) _ (fun x' q => q = y' * stride + x') ?_ m q hq
    intro i m' q' _ _ hq'
    exact Function.update_noteq hq' _ _
  · rintro ⟨y', hy0, hy1, x', hx0, hx1, rfl⟩
    exact hp x' y' hx0 (by omega) hy0 (by omega) rfl

/-! ## Pointwise description of the scalar passes -/

theorem horizontalPass_apply {F : Type} [LinearOrderedField F] [FloorRing F] (srcp : Int → Nat)
    (src_stride plane_width plane_height radius : Int) (kernel : Int → F) (tmp : Int → Nat)
    (x y : Int) (hx0 : 0 ≤ x) (hx : x < plane_width) (hy0 : 0 ≤ y) (hy : y < plane_height) :
    horizontalPass srcp src_stride plane_width plane_height radius kernel tmp (y * plane_width + x)
      = toUInt16 (saturate (hAccum srcp src_stride plane_width radius kernel x y) + 1 / 2) :=
  planeWrite_hit plane_width plane_width plane_height
    (fun x y => toUInt16 (saturate (hAccum srcp src_stride plane_width radius kernel x y) + 1 / 2))
    tmp le_rfl x y hx0 hx hy0 hy

theorem verticalPass_apply {F : Type} [LinearOrderedField F] [FloorRing F] (tmp : Int → Nat)
    (dst_stride plane_width plane_height radius : Int) (kernel : Int → F) (dstp : Int → Nat)
    (hs : plane_width ≤ dst_stride)
    (x y : Int) (hx0 : 0 ≤ x) (hx : x < plane_width) (hy0 : 0 ≤ y) (hy : y < plane_height) :
    verticalPass tmp dst_stride plane_width plane_height radius kernel dstp (y * dst_stride + x)
      = toUInt16 (saturate (vAccum tmp plane_width plane_height radius kernel x y) + 1 / 2) :=
  planeWrite_hit dst_stride plane_width plane_height
    (fun x y => toUInt16 (saturate (vAccum tmp plane_width plane_height radius kernel x y) + 1 / 2))
    dstp hs x y hx0 hx hy0 hy

theorem verticalPass_frame {F : Type} [LinearOrderedField F] [FloorRing F] (tmp : Int → Nat)
    (dst_stride plane_width plane_height radius : Int) (kernel : Int → F) (dstp : Int → Nat)
    (p : Int)
    (hp : ∀ x y : Int, 0 ≤ x → x < plane_width → 0 ≤ y → y < plane_height →
      p ≠ y * dst_stride + x) :
    verticalPass tmp dst_stride plane_width plane_height radius kernel dstp p = dstp p :=
  planeWrite_miss dst_stride plane_width plane_height _ dstp p hp

/-! ## Saturation and rounding -/

theorem saturate_eq {F : Type} [LinearOrderedField F] (v : F) :
    saturate v = min (max v 0) 65535 := by
  unfold saturate
  split_ifs with h1 h2
  · rw [max_eq_right h1.le, min_eq_left (by norm_num)]
  · rw [max_eq_left (not_lt.mp h1), min_eq_right h2.le]
  · rw [max_eq_left (not_lt.mp h1), min_eq_left (not_lt.mp h2)]

theorem saturate_nonneg {F : Type} [LinearOrderedField F] (v : F) : 0 ≤ saturate v := by
  unfold saturate
  split_ifs with h1 h2
  · exact le_rfl
  · norm_num
  · exact not_lt.mp h1

theorem saturate_le {F : Type} [LinearOrderedField F] (v : F) : saturate v ≤ 65535 := by
  unfold saturate
  split_ifs with h1 h2
  · norm_num
  · exact le_rfl
  · exact not_lt.mp h2

/-- On `[0, 65535]` the store `(uint16_t)(v + 0.5)` is `floor (v + 1/2)`, and the
converted integer is already in the range of the target type. -/
theorem truncate_round {F : Type} [LinearOrderedField F] [FloorRing F] (v : F)
    (h0 : 0 ≤ v) (h1 : v ≤ 65535) :
    truncate (v + 1 / 2) = Int.floor (v + 1 / 2) ∧ 0 ≤ truncate (v + 1 / 2) ∧
      truncate (v + 1 / 2) ≤ 65535 := by
  have hpos : (0 : F) ≤ v + 1 / 2 := by positivity
  have ht : truncate (v + 1 / 2) = Int.floor (v + 1 / 2) := by
    unfold truncate
    rw [if_pos hpos]
  refine ⟨ht, ?_, ?_⟩
  · rw [ht]
    exact Int.floor_nonneg.mpr hpos
  · rw [ht]
    have hlt : Int.floor (v + 1 / 2) < 65536 := by
      rw [Int.floor_lt]
      push_cast
      linarith
    omega

theorem toUInt16_round {F : Type} [LinearOrderedField F] [FloorRing F] (v : F)
    (h0 : 0 ≤ v) (h1 : v ≤ 65535) :
    ((toUInt16 (v + 1 / 2) : Nat) : Int) = Int.floor (v + 1 / 2) := by
  obtain ⟨ht, hlo, hhi⟩ := truncate_round v h0 h1
  unfold toUInt16
  rw [← ht]
  omega

theorem clampTap_eq (a extent : Int) (he : 1 ≤ extent) :
    clampTap a extent = min (max a 0) (extent - 1) := by
  unfold clampTap
  split_ifs with h1 h2 <;> omega

theorem clampTap_eq_specClamp (a extent : Int) (he : 1 ≤ extent) :
    clampTap a extent = specClamp a 0 (extent - 1) := by
  rw [clampTap_eq a extent he, specClamp]

theorem hAccum_eq_sum {F : Type} [LinearOrderedField F] (srcp : Int → Nat)
    (src_stride plane_width radius : Int) (kernel : Int → F) (x y : Int) :
    hAccum srcp src_stride plane_width radius kernel x y
      = ∑ k in Finset.Icc (-radius) radius,
          (srcp (y * src_stride + clampTap (x + k) plane_width) : F) * kernel (k + radius) :=
  forLoop_sum (-radius) radius
    (fun k => (srcp (y * src_stride + clampTap (x + k) plane_width) : F) * kernel (k + radius))

theorem vAccum_eq_sum {F : Type} [LinearOrderedField F] (tmp : Int → Nat)
    (plane_width plane_height radius : Int) (kernel : Int → F) (x y : Int) :
    vAccum tmp plane_width plane_height radius kernel x y
      = ∑ k in Finset.Icc (-radius) radius,
          (tmp (clampTap (y + k) plane_height * plane_width + x) : F) * kernel (k + radius) :=
  forLoop_sum (-radius) radius
    (fun k => (tmp (clampTap (y + k) plane_height * plane_width + x) : F) * kernel (k + radius))

/-- The stored sample, read back as an integer, is the specification's rounding
of the accumulator. -/
theorem store_eq_specRound {F : Type} [LinearOrderedField F] [FloorRing F] (S : F) :
    ((toUInt16 (saturate S + 1 / 2) : Nat) : Int) = specRound S := by
  rw [toUInt16_round (saturate S) (saturate_nonneg S) (saturate_le S), saturate_eq, specRound]

/-! ## Pointwise description of the scalar passes over the machine's operations -/

set_option maxRecDepth 100000 in
/-- The kernels of radius 1, 2 and 3 over binary64 call `exp` on arguments of
`libmExpArgs` only. -/
theorem kernelExponentM_mem_libmExpArgs :
    ∀ radius ∈ ([1, 2, 3] : List Int), ∀ i ∈ tapOffsets radius,
      kernelExponentM binary64 (binary64.div (binary64.ofInt radius) (binary64.ofInt 3)) i
        ∈ libmExpArgs := by
  decide

theorem horizontalPassM_apply {D : Type} (A : MachineArith D) (srcp : Int → Nat)
    (src_stride plane_width plane_height radius : Int) (kernel : Int → D) (tmp : Int → Nat)
    (x y : Int) (hx0 : 0 ≤ x) (hx : x < plane_width) (hy0 : 0 ≤ y) (hy : y < plane_height) :
    horizontalPassM A srcp src_stride plane_width plane_height radius kernel tmp
        (y * plane_width + x)
      = A.toUInt16 (A.add
          (saturateM A (hAccumM A srcp src_stride plane_width radius kernel x y)) A.half) :=
  planeWrite_hit plane_width plane_width plane_height
    (fun x y => A.toUInt16 (A.add
      (saturateM A (hAccumM A srcp src_stride plane_width radius kernel x y)) A.half))
    tmp le_rfl x y hx0 hx hy0 hy

theorem verticalPassM_apply {D : Type} (A : MachineArith D) (tmp : Int → Nat)
    (dst_stride plane_width plane_height radius : Int) (kernel : Int → D) (dstp : Int → Nat)
    (hs : plane_width ≤ dst_stride)
    (x y : Int) (hx0 : 0 ≤ x) (hx : x < plane_width) (hy0 : 0 ≤ y) (hy : y < plane_height) :
    verticalPassM A tmp dst_stride plane_width plane_height radius kernel dstp
        (y * dst_stride + x)
      = A.toUInt16 (A.add
          (saturateM A (vAccumM A tmp plane_width plane_height radius kernel x y)) A.half) :=
  planeWrite_hit dst_stride plane_width plane_height
    (fun x y => A.toUInt16 (A.add
      (saturateM A (vAccumM A tmp plane_width plane_height radius kernel x y)) A.half))
    dstp hs x y hx0 hx hy0 hy

/-- The tap loop visits the offsets of `tapOffsets` in their order. -/
theorem forLoop_eq_foldl_tapOffsets {σ : Type} (radius : Int) (body : Int → σ → σ) (s : σ) :
    forLoop (-radius) radius body s = (tapOffsets radius).foldl (fun acc k => body k acc) s := by
  unfold forLoop tapOffsets
  rw [List.foldl_map]
  have h : (radius + 1 - -radius).toNat = (2 * radius + 1).toNat := by
    congr 1
    ring
  rw [h]

/-- When `65535 < 0` is false in the machine's comparison, the conditional
expression of the passes is the specification's `min(max(val, 0), 65535)`. -/
theorem saturateM_eq_spec {D : Type} (A : MachineArith D) (val : D)
    (hlt : A.lt (A.ofInt 65535) (A.ofInt 0) = false) :
    saturateM A val = specMinM A (specMaxM A val (A.ofInt 0)) (A.ofInt 65535) := by
  unfold saturateM specMinM specMaxM
  by_cases h1 : A.lt val (A.ofInt 0) = true
  · simp [h1, hlt]
  · simp [h1]

/-! ## C1: the scalar passes against the reference definition -/

set_option maxRecDepth 100000 in
/-- C1 (as stated, refuted): with the one-sample plane `[1]`, radius 1 and the
kernel `[0, 0.49999999999999994, 0]`, the horizontal pass over binary64 stores
`1` (the sum `0.49999999999999994 + 0.5` is the midpoint of `1 - 2^-53` and `1`
and rounds to `1.0`), while `floor(min(max(S, 0), 65535) + 0.5)` for the exact
sum `S` of the same products is `0`. -/
theorem C1_exact_sum_refuted :
    horizontalPassM binary64 (fun _ => 1) 1 1 1 1 nearHalfKernel (fun _ => 0) (0 * 1 + 0) = 1 ∧
    specHorizontal (F := ℚ) (fun _ => 1) 1 1 1 (fun i => (nearHalfKernel i).toRat) 0 0 = 0 := by
  refine ⟨by decide, ?_⟩
  unfold specHorizontal specRound
  have h : Finset.Icc (-1 : Int) 1 = {-1, 0, 1} := by decide
  rw [h, Finset.sum_insert (by decide), Finset.sum_insert (by decide), Finset.sum_singleton,
    Int.floor_eq_iff]
  norm_num [nearHalfKernel, Double.toRat, specClamp]

/-- C1 (amended): for every radius >= 1, every kernel, every plane with width
>= 1, height >= 1 and strides >= width, and every position (x, y) of the plane,
the scalar horizontal pass stores at `tmp[y*width + x]` the conversion to the
sample type of `min(max(S, 0), 65535) + 0.5`, where `S` is the clamped tap sum
of the specification accumulated in `double` in the order `k = -radius, ...,
radius` with every product and every partial sum rounded, and the addition of
`0.5` is rounded as well; the scalar vertical pass stores at
`dst[y*dst_stride + x]` the same rounding of the tap sum `T` over the intermediate
buffer.  The arithmetic is an arbitrary `MachineArith` in which `65535 < 0` is
false. -/
theorem C1_scalar_pass_rounded_reference {D : Type} (A : MachineArith D)
    (srcp tmp0 tmp dstp : Int → Nat) (src_stride dst_stride width height radius : Int)
    (kernel : Int → D) (x y : Int)
    (_hr : 1 ≤ radius) (hw : 1 ≤ width) (hh : 1 ≤ height)
    (_hss : width ≤ src_stride) (hds : width ≤ dst_stride)
    (hx0 : 0 ≤ x) (hx : x < width) (hy0 : 0 ≤ y) (hy : y < height)
    (hlt : A.lt (A.ofInt 65535) (A.ofInt 0) = false) :
    horizontalPassM A srcp src_stride width height radius kernel tmp0 (y * width + x)
        = specHorizontalM A srcp src_stride width radius kernel x y ∧
    verticalPassM A tmp dst_stride width height radius kernel dstp (y * dst_stride + x)
        = specVerticalM A tmp width height radius kernel x y := by
  constructor
  · rw [horizontalPassM_apply A srcp src_stride width height radius kernel tmp0 x y hx0 hx hy0 hy,
      saturateM_eq_spec A _ hlt]
    unfold specHorizontalM specRoundM specSumM hAccumM
    rw [forLoop_eq_foldl_tapOffsets]
    simp only [clampTap_eq_specClamp _ width hw]
  · rw [verticalPassM_apply A tmp dst_stride width height radius kernel dstp hds x y hx0 hx hy0 hy,
      saturateM_eq_spec A _ hlt]
    unfold specVerticalM specRoundM specSumM vAccumM
    rw [forLoop_eq_foldl_tapOffsets]
    simp only [clampTap_eq_specClamp _ height hh]

set_option maxRecDepth 100000 in
/-- Instance of C1 over binary64: the row `[46241, 65094, 52343, 60552, 51510,
49910, 36357]` (width 7, height 1) at radius 3 with the kernel the construction
builds, position `(3, 0)`; the vertical pass reads the mirrored row as its
intermediate buffer. -/
theorem C1_scalar_pass_rounded_reference_witness :
    horizontalPassM binary64 sevenRow 7 7 1 3 (buildKernelM binary64 3 (fun _ => ⟨0, 0⟩))
        (fun _ => 0) (0 * 7 + 3)
        = specHorizontalM binary64 sevenRow 7 7 3 (buildKernelM binary64 3 (fun _ => ⟨0, 0⟩)) 3 0 ∧
    verticalPassM binary64 sevenRowMirrored 7 7 1 3 (buildKernelM binary64 3 (fun _ => ⟨0, 0⟩))
        (fun _ => 0) (0 * 7 + 3)
        = specVerticalM binary64 sevenRowMirrored 7 1 3
            (buildKernelM binary64 3 (fun _ => ⟨0, 0⟩)) 3 0 :=
  C1_scalar_pass_rounded_reference binary64 sevenRow (fun _ => 0) sevenRowMirrored (fun _ => 0)
    7 7 7 1 3 (buildKernelM binary64 3 (fun _ => ⟨0, 0⟩)) 3 0
    (by decide) (by decide) (by decide) (by decide) (by decide) (by decide) (by decide)
    (by decide) (by decide) (by decide)

/-! ## The kernel construction -/

theorem rawKernel_spec {F : Type} [LinearOrderedField F] (exp : F → F) (radius : Int)
    (kernel0 : Int → F) (hr : 0 ≤ radius) :
    (∀ p, (rawKernel exp radius kernel0).1 p
        = if 0 ≤ p ∧ p ≤ 2 * radius then rawWeight exp radius (p - radius) else kernel0 p) ∧
    (rawKernel exp radius kernel0).2 = ∑ i in Finset.Icc (-radius) radius, rawWeight exp radius i := by
  have hinv := forLoop_invariant (-radius) radius
    (fun i (st : (Int → F) × F) =>
      let kernel := Function.update st.1 (i + radius) (exp (kernelExponent ((radius : F) / 3) i))
      (kernel, st.2 + kernel (i + radius)))
    (kernel0, 0)
    (fun n st =>
      (∀ p, st.1 p = if 0 ≤ p ∧ p ≤ n + radius then rawWeight exp radius (p - radius)
        else kernel0 p) ∧
      st.2 = ∑ i in Finset.Icc (-radius) n, rawWeight exp radius i)
    (by omega)
    (by
      refine ⟨fun p => ?_, ?_⟩
      · rw [if_neg (by omega)]
      · show (0 : F) = _
        rw [Finset.Icc_eq_empty (by omega), Finset.sum_empty])
    (by
      rintro i ⟨k, sm⟩ hil _ ⟨ihk, ihs⟩
      change ∀ p, k p = _ at ihk
      refine ⟨fun p => ?_, ?_⟩
      · show Function.update k (i + radius) (exp (kernelExponent ((radius : F) / 3) i)) p = _
        by_cases hp : p = i + radius
        · subst hp
          rw [Function.update_same, if_pos (by omega), add_sub_cancel_right]
          rfl
        · rw [Function.update_noteq hp, ihk p]
          by_cases hq : 0 ≤ p ∧ p ≤ i - 1 + radius
          · rw [if_pos hq, if_pos (by omega)]
          · rw [if_neg hq, if_neg (by omega)]
      · show sm + Function.update k (i + radius) (exp (kernelExponent ((radius : F) / 3) i))
            (i + radius) = _
        have hins : Finset.Icc (-radius) i = insert i (Finset.Icc (-radius) (i - 1)) := by
          ext j
          simp only [Finset.mem_Icc, Finset.mem_insert]
          omega
        have hnot : i ∉ Finset.Icc (-radius) (i - 1) := by
          simp only [Finset.mem_Icc]
          omega
        change sm = _ at ihs
        rw [Function.update_same, hins, Finset.sum_insert hnot, ihs, add_comm]
        rfl)
  obtain ⟨h1, h2⟩ := hinv
  refine ⟨fun p => ?_, h2⟩
  have := h1 p
  rw [show radius + radius = 2 * radius by ring] at this
  exact this

/-- The normalising loop divides the cells `0 .. hi` by `d` in place. -/
theorem normalise_spec {F : Type} [LinearOrderedField F] (hi : Int) (d : F) (k : Int → F)
    (p : Int) :
    forLoop 0 hi (fun i kernel => Function.update kernel i (kernel i / d)) k p
      = if 0 ≤ p ∧ p ≤ hi then k p / d else k p := by
  by_cases hlt : hi < 0 - 1
  · rw [forLoop_empty 0 hi _ _ (by omega), if_neg (by omega)]
  · refine forLoop_invariant 0 hi (fun i kernel => Function.update kernel i (kernel i / d)) k
      (fun n st => ∀ q, st q = if 0 ≤ q ∧ q ≤ n then k q / d else k q) (by omega) ?_ ?_ p
    · intro q
      rw [if_neg (by omega)]
    · intro i st hi0 _ ih q
      show Function.update st i (st i / d) q = _
      by_cases hq : q = i
      · subst hq
        rw [Function.update_same, ih q, if_neg (by omega), if_pos (by omega)]
      · rw [Function.update_noteq hq, ih q]
        by_cases hq2 : 0 ≤ q ∧ q ≤ i - 1
        · rw [if_pos hq2, if_pos (by omega)]
        · rw [if_neg hq2, if_neg (by omega)]

/-- Closed form of the kernel: inside `[0, 2*radius]` the normalised raw weight,
outside the previous content of the array. -/
theorem buildKernel_apply {F : Type} [LinearOrderedField F] (exp : F → F) (radius : Int)
    (kernel0 : Int → F) (hr : 0 ≤ radius) (p : Int) :
    buildKernel exp radius kernel0 p
      = if 0 ≤ p ∧ p ≤ 2 * radius then
          rawWeight exp radius (p - radius) / ∑ i in Finset.Icc (-radius) radius, rawWeight exp radius i
        else kernel0 p := by
  obtain ⟨h1, h2⟩ := rawKernel_spec exp radius kernel0 hr
  unfold buildKernel
  rw [normalise_spec, h1 p, h2, kernelSize]
  by_cases hp : 0 ≤ p ∧ p ≤ 2 * radius
  · rw [if_pos (by omega), if_pos hp, if_pos hp]
  · rw [if_neg (by omega), if_neg hp, if_neg hp]

theorem rawWeight_pos {F : Type} [LinearOrderedField F] (exp : F → F) (hexp : ∀ t, 0 < exp t)
    (radius i : Int) : 0 < rawWeight exp radius i :=
  hexp _

theorem rawWeight_zero {F : Type} [LinearOrderedField F] (exp : F → F) (hexp0 : exp 0 = 1)
    (radius : Int) : rawWeight exp radius 0 = 1 := by
  have h : wrap32 (-(wrap32 (0 * 0))) = 0 := by decide
  rw [rawWeight, kernelExponent, h, Int.cast_zero, zero_div, hexp0]

theorem rawWeight_neg {F : Type} [LinearOrderedField F] (exp : F → F) (radius i : Int) :
    rawWeight exp radius (-i) = rawWeight exp radius i := by
  rw [rawWeight, rawWeight, kernelExponent, kernelExponent, neg_mul_neg]

/-- The normalising divisor is at least the central raw weight, which is `1`. -/
theorem one_le_rawSum {F : Type} [LinearOrderedField F] (exp : F → F) (hexp : ∀ t, 0 < exp t)
    (hexp0 : exp 0 = 1) (radius : Int) (hr : 0 ≤ radius) :
    1 ≤ ∑ i in Finset.Icc (-radius) radius, rawWeight exp radius i := by
  have hmem : (0 : Int) ∈ Finset.Icc (-radius) radius := by
    simp only [Finset.mem_Icc]
    omega
  have := Finset.single_le_sum
    (f := fun i => rawWeight exp radius i) (s := Finset.Icc (-radius) radius)
    (fun i _ => (rawWeight_pos exp hexp radius i).le) hmem
  have h1 : rawWeight exp radius 0 ≤ ∑ i in Finset.Icc (-radius) radius, rawWeight exp radius i :=
    this
  rw [rawWeight_zero exp hexp0 radius] at h1
  exact h1

/-- Shifting the summation index by the radius. -/
theorem sum_shift {F : Type} [LinearOrderedField F] (radius : Int) (f : Int → F) :
    ∑ p in Finset.Icc 0 (2 * radius), f (p - radius) = ∑ i in Finset.Icc (-radius) radius, f i := by
  refine Finset.sum_bij' (fun p _ => p - radius) (fun i _ => i + radius) ?_ ?_ ?_ ?_ ?_
  · intro p hp
    simp only [Finset.mem_Icc] at hp ⊢
    omega
  · intro i hi
    simp only [Finset.mem_Icc] at hi ⊢
    omega
  · intro p _
    show p - radius + radius = p
    omega
  · intro i _
    show i + radius - radius = i
    omega
  · intro p _
    rfl

/-- For a positive exponential with `exp 0 = 1` the kernel weights are
non-negative, sum to one and are symmetric about the centre. -/
theorem buildKernel_normalised {F : Type} [LinearOrderedField F] (exp : F → F)
    (hexp : ∀ t, 0 < exp t) (hexp0 : exp 0 = 1) (radius : Int) (hr : 0 ≤ radius)
    (kernel0 : Int → F) :
    (∀ i, 0 ≤ i → i ≤ 2 * radius → 0 ≤ buildKernel exp radius kernel0 i) ∧
    ∑ i in Finset.Icc 0 (2 * radius), buildKernel exp radius kernel0 i = 1 ∧
    (∀ i, 0 ≤ i → i ≤ 2 * radius →
      buildKernel exp radius kernel0 i = buildKernel exp radius kernel0 (2 * radius - i)) := by
  have hS := one_le_rawSum exp hexp hexp0 radius hr
  have hSpos : 0 < ∑ i in Finset.Icc (-radius) radius, rawWeight exp radius i := by linarith
  refine ⟨?_, ?_, ?_⟩
  · intro i hi0 hi1
    rw [buildKernel_apply exp radius kernel0 hr, if_pos ⟨hi0, hi1⟩]
    exact div_nonneg (rawWeight_pos exp hexp radius _).le hSpos.le
  · have hcongr : ∀ p ∈ Finset.Icc 0 (2 * radius), buildKernel exp radius kernel0 p
        = rawWeight exp radius (p - radius)
          / ∑ i in Finset.Icc (-radius) radius, rawWeight exp radius i := by
      intro p hp
      rw [Finset.mem_Icc] at hp
      rw [buildKernel_apply exp radius kernel0 hr, if_pos hp]
    rw [Finset.sum_congr rfl hcongr, ← Finset.sum_div,
      sum_shift radius (fun i => rawWeight exp radius i), div_self hSpos.ne']
  · intro i hi0 hi1
    rw [buildKernel_apply exp radius kernel0 hr, if_pos ⟨hi0, hi1⟩,
      buildKernel_apply exp radius kernel0 hr, if_pos ⟨by omega, by omega⟩,
      show 2 * radius - i - radius = -(i - radius) by ring, rawWeight_neg]

/-! ## The kernel construction over the machine's operations -/

/-- A value in the range of `int` is not changed by the reduction to 32 bits. -/
theorem wrap32_eq_self (v : Int) (h0 : -2147483648 ≤ v) (h1 : v ≤ 2147483647) :
    wrap32 v = v := by
  unfold wrap32
  omega

theorem kernelSize32_eq (radius : Int) (h0 : 0 ≤ radius) (h1 : 2 * radius + 1 ≤ 2147483647) :
    kernelSize32 radius = 2 * radius + 1 := by
  unfold kernelSize32
  rw [wrap32_eq_self (2 * radius) (by omega) (by omega),
    wrap32_eq_self (2 * radius + 1) (by omega) h1]

theorem rawKernelM_spec {D : Type} (A : MachineArith D) (radius : Int)
    (kernel0 : Int → D) (hr : 0 ≤ radius) :
    (∀ p, (rawKernelM A radius kernel0).1 p
        = if 0 ≤ p ∧ p ≤ 2 * radius then rawWeightM A radius (p - radius) else kernel0 p) ∧
    (rawKernelM A radius kernel0).2 = rawSumM A radius := by
  have hinv := forLoop_invariant (-radius) radius
    (fun i (st : (Int → D) × D) =>
      let kernel := Function.update st.1 (i + radius)
        (A.exp (kernelExponentM A (A.div (A.ofInt radius) (A.ofInt 3)) i))
      (kernel, A.add st.2 (kernel (i + radius))))
    (kernel0, A.ofInt 0)
    (fun n st =>
      (∀ p, st.1 p = if 0 ≤ p ∧ p ≤ n + radius then rawWeightM A radius (p - radius)
        else kernel0 p) ∧
      st.2 = forLoop (-radius) n (fun i s => A.add s (rawWeightM A radius i)) (A.ofInt 0))
    (by omega)
    (by
      refine ⟨fun p => ?_, ?_⟩
      · rw [if_neg (by omega)]
      · show A.ofInt 0 = _
        rw [forLoop_empty _ _ _ _ (by omega)])
    (by
      rintro i ⟨k, sm⟩ hil _ ⟨ihk, ihs⟩
      change ∀ p, k p = _ at ihk
      change sm = _ at ihs
      refine ⟨fun p => ?_, ?_⟩
      · show Function.update k (i + radius)
            (A.exp (kernelExponentM A (A.div (A.ofInt radius) (A.ofInt 3)) i)) p = _
        by_cases hp : p = i + radius
        · subst hp
          rw [Function.update_same, if_pos (by omega), add_sub_cancel_right]
          rfl
        · rw [Function.update_noteq hp, ihk p]
          by_cases hq : 0 ≤ p ∧ p ≤ i - 1 + radius
          · rw [if_pos hq, if_pos (by omega)]
          · rw [if_neg hq, if_neg (by omega)]
      · show A.add sm (Function.update k (i + radius)
            (A.exp (kernelExponentM A (A.div (A.ofInt radius) (A.ofInt 3)) i)) (i + radius)) = _
        have hsucc := forLoop_succ (-radius) (i - 1)
          (fun i s => A.add s (rawWeightM A radius i)) (A.ofInt 0) (by omega)
        rw [sub_add_cancel] at hsucc
        rw [Function.update_same, hsucc, ← ihs]
        rfl)
  obtain ⟨h1, h2⟩ := hinv
  refine ⟨fun p => ?_, h2⟩
  have := h1 p
  rw [show radius + radius = 2 * radius by ring] at this
  exact this

/-- The normalising loop divides the cells `0 .. hi` by `d` in place. -/
theorem normaliseM_spec {D : Type} (A : MachineArith D) (hi : Int) (d : D) (k : Int → D)
    (p : Int) :
    forLoop 0 hi (fun i kernel => Function.update kernel i (A.div (kernel i) d)) k p
      = if 0 ≤ p ∧ p ≤ hi then A.div (k p) d else k p := by
  by_cases hlt : hi < 0 - 1
  · rw [forLoop_empty 0 hi _ _ (by omega), if_neg (by omega)]
  · refine forLoop_invariant 0 hi
      (fun i kernel => Function.update kernel i (A.div (kernel i) d)) k
      (fun n st => ∀ q, st q = if 0 ≤ q ∧ q ≤ n then A.div (k q) d else k q) (by omega) ?_ ?_ p
    · intro q
      rw [if_neg (by omega)]
    · intro i st hi0 _ ih q
      show Function.update st i (A.div (st i) d) q = _
      by_cases hq : q = i
      · subst hq
        rw [Function.update_same, ih q, if_neg (by omega), if_pos (by omega)]
      · rw [Function.update_noteq hq, ih q]
        by_cases hq2 : 0 ≤ q ∧ q ≤ i - 1
        · rw [if_pos hq2, if_pos (by omega)]
        · rw [if_neg hq2, if_neg (by omega)]

/-- Closed form of the kernel over the machine's operations: the cells
`0 .. kernel_size - 1` hold the raw content divided by `sum`, every other cell
the raw content. -/
theorem buildKernelM_apply {D : Type} (A : MachineArith D) (radius : Int)
    (kernel0 : Int → D) (hr : 0 ≤ radius) (p : Int) :
    buildKernelM A radius kernel0 p
      = if 0 ≤ p ∧ p ≤ kernelSize32 radius - 1 then
          A.div (if 0 ≤ p ∧ p ≤ 2 * radius then rawWeightM A radius (p - radius) else kernel0 p)
            (rawSumM A radius)
        else (if 0 ≤ p ∧ p ≤ 2 * radius then rawWeightM A radius (p - radius) else kernel0 p) := by
  obtain ⟨h1, h2⟩ := rawKernelM_spec A radius kernel0 hr
  unfold buildKernelM
  rw [normaliseM_spec, h1 p, h2]

theorem rawWeightM_neg {D : Type} (A : MachineArith D) (radius i : Int) :
    rawWeightM A radius (-i) = rawWeightM A radius i := by
  rw [rawWeightM, rawWeightM, kernelExponentM, kernelExponentM, neg_mul_neg]

theorem NearestRounding.zero {F : Type} [LinearOrderedField F] {rnd : F → F}
    (h : NearestRounding rnd) : rnd 0 = 0 := by
  have := h.eighths 0 (by norm_num)
  simpa using this

theorem NearestRounding.one {F : Type} [LinearOrderedField F] {rnd : F → F}
    (h : NearestRounding rnd) : rnd 1 = 1 := by
  have := h.eighths 8 (by norm_num)
  norm_num at this
  exact this

/-- In the normal range a positive value is rounded with relative error at most
`2^-53`. -/
theorem NearestRounding.rel_pos {F : Type} [LinearOrderedField F] {rnd : F → F}
    (h : NearestRounding rnd) (x : F) (h0 : 1 / 2 ^ 1022 ≤ x) (h1 : x ≤ 2 ^ 1023) :
    (1 - 1 / 2 ^ 53) * x ≤ rnd x ∧ rnd x ≤ (1 + 1 / 2 ^ 53) * x := by
  have hx : (0 : F) < x := lt_of_lt_of_le (by positivity) h0
  have := h.rel x (by rwa [abs_of_pos hx]) (by rwa [abs_of_pos hx])
  rw [abs_of_pos hx, abs_le] at this
  constructor
  · linarith [this.1]
  · linarith [this.2]

/-- Crude form of `rel_pos`: the rounded value lies between `99/100` and
`101/100` of the exact one. -/
theorem NearestRounding.rel_crude {F : Type} [LinearOrderedField F] {rnd : F → F}
    (h : NearestRounding rnd) (x : F) (h0 : 1 / 2 ^ 1022 ≤ x) (h1 : x ≤ 2 ^ 1023) :
    99 / 100 * x ≤ rnd x ∧ rnd x ≤ 101 / 100 * x := by
  have hx : (0 : F) < x := lt_of_lt_of_le (by positivity) h0
  obtain ⟨a, b⟩ := h.rel_pos x h0 h1
  have hu : (1 : F) / 2 ^ 53 ≤ 1 / 100 := by norm_num
  constructor
  · nlinarith
  · nlinarith

theorem NearestRounding.nonneg {F : Type} [LinearOrderedField F] {rnd : F → F}
    (h : NearestRounding rnd) (x : F) (hx : 0 ≤ x) : 0 ≤ rnd x := by
  have := h.mono 0 x hx
  rwa [h.zero] at this

theorem wrap32_range (v : Int) : -2147483648 ≤ wrap32 v ∧ wrap32 v ≤ 2147483647 := by
  unfold wrap32
  omega

/-- For offsets up to 46340 the `int` numerator of the exponent is `-(i*i)`. -/
theorem wrap32_neg_sq (i : Int) (h0 : -46340 ≤ i) (h1 : i ≤ 46340) :
    wrap32 (-(wrap32 (i * i))) = -(i * i) := by
  have hsq : i * i ≤ 2147395600 := by nlinarith
  have hsq0 : 0 ≤ i * i := mul_self_nonneg i
  unfold wrap32
  omega

theorem tiny_le {F : Type} [LinearOrderedField F] : (1 : F) / 2 ^ 1022 ≤ 1 / 2 ^ 100 := by
  apply one_div_le_one_div_of_le (by positivity)
  exact pow_le_pow_right₀ (by norm_num) (by norm_num)

theorem le_huge {F : Type} [LinearOrderedField F] : (2 : F) ^ 100 ≤ 2 ^ 1023 :=
  pow_le_pow_right₀ (by norm_num) (by norm_num)

/-- The relative error bound on the range `2^-100 <= x <= 2^100`. -/
theorem NearestRounding.rel_mid {F : Type} [LinearOrderedField F] {rnd : F → F}
    (h : NearestRounding rnd) (x : F) (h0 : 1 / 2 ^ 100 ≤ x) (h1 : x ≤ 2 ^ 100) :
    (1 - 1 / 2 ^ 53) * x ≤ rnd x ∧ rnd x ≤ (1 + 1 / 2 ^ 53) * x :=
  h.rel_pos x (tiny_le.trans h0) (h1.trans le_huge)

/-- Crude form of `rel_mid`. -/
theorem NearestRounding.crude_mid {F : Type} [LinearOrderedField F] {rnd : F → F}
    (h : NearestRounding rnd) (x : F) (h0 : 1 / 2 ^ 100 ≤ x) (h1 : x ≤ 2 ^ 100) :
    99 / 100 * x ≤ rnd x ∧ rnd x ≤ 101 / 100 * x :=
  h.rel_crude x (tiny_le.trans h0) (h1.trans le_huge)

theorem exponentDivisor_aux {F : Type} [LinearOrderedField F] (R σ t d : F) (hR1 : 1 ≤ R)
    (s0 : 99 / 100 * (R / 3) ≤ σ) (s1 : σ ≤ 101 / 100 * (R / 3))
    (t0 : 99 / 100 * (2 * σ) ≤ t) (t1 : t ≤ 101 / 100 * (2 * σ))
    (d0 : 99 / 100 * (t * σ) ≤ d) (d1 : d ≤ 101 / 100 * (t * σ)) :
    21 / 100 * (R * R) ≤ d ∧ d ≤ 1 / 4 * (R * R) := by
  have hRR : 0 ≤ R * R := mul_self_nonneg R
  have hs0 : 33 / 100 * R ≤ σ := by linarith
  have hs1 : σ ≤ 101 / 300 * R := by linarith
  have hspos : 0 < σ := by linarith
  have ht0 : 65 / 100 * R ≤ t := by linarith
  have ht1 : t ≤ 69 / 100 * R := by linarith
  have htpos : 0 < t := by linarith
  have hp0 : 2145 / 10000 * (R * R) ≤ t * σ := by
    have := mul_le_mul ht0 hs0 (by linarith) htpos.le
    linarith
  have hp1 : t * σ ≤ 24 / 100 * (R * R) := by
    have := mul_le_mul ht1 hs1 hspos.le (by linarith)
    linarith
  constructor
  · linarith
  · linarith

/-- The divisor `2 * sigma * sigma` of the exponent, computed with rounding,
lies between `0.21 * radius^2` and `0.25 * radius^2`. -/
theorem exponentDivisor_bounds {F : Type} [LinearOrderedField F] (rnd : F → F)
    (hrnd : NearestRounding rnd) (R : F) (hR1 : 1 ≤ R) (hR2 : R ≤ 2 ^ 30) :
    21 / 100 * (R * R) ≤ rnd (rnd (2 * rnd (R / 3)) * rnd (R / 3)) ∧
    rnd (rnd (2 * rnd (R / 3)) * rnd (R / 3)) ≤ 1 / 4 * (R * R) := by
  have hRR : 1 ≤ R * R := by nlinarith
  have hRR2 : R * R ≤ 2 ^ 60 := by nlinarith
  obtain ⟨s0, s1⟩ := hrnd.crude_mid (R / 3) (by norm_num; linarith) (by norm_num; linarith)
  obtain ⟨t0, t1⟩ := hrnd.crude_mid (2 * rnd (R / 3)) (by norm_num; linarith)
    (by norm_num; linarith)
  have hlo : 21 / 100 * (R * R) ≤ rnd (2 * rnd (R / 3)) * rnd (R / 3) ∧
      rnd (2 * rnd (R / 3)) * rnd (R / 3) ≤ 1 / 4 * (R * R) := by
    refine exponentDivisor_aux R (rnd (R / 3)) (rnd (2 * rnd (R / 3))) _ hR1 s0 s1 t0 t1 ?_ ?_
    · have hp : 0 ≤ rnd (2 * rnd (R / 3)) * rnd (R / 3) :=
        mul_nonneg (by linarith) (by linarith)
      linarith
    · have hp : 0 ≤ rnd (2 * rnd (R / 3)) * rnd (R / 3) :=
        mul_nonneg (by linarith) (by linarith)
      linarith
  obtain ⟨d0, d1⟩ := hrnd.crude_mid (rnd (2 * rnd (R / 3)) * rnd (R / 3))
    (by norm_num; linarith) (by norm_num; linarith)
  exact exponentDivisor_aux R (rnd (R / 3)) (rnd (2 * rnd (R / 3))) _ hR1 s0 s1 t0 t1 d0 d1

/-- The `int` numerator of the exponent is at most `1.008 * radius^2` in absolute
value: it is `-(i*i)` up to radius 46340, and a 32-bit value beyond. -/
theorem exponentNumerator_bound {F : Type} [LinearOrderedField F] (radius i : Int)
    (hr : 1 ≤ radius) (hi0 : -radius ≤ i) (hi1 : i ≤ radius) :
    |((wrap32 (-(wrap32 (i * i))) : Int) : F)| ≤ 1008 / 1000 * ((radius : F) * (radius : F)) := by
  have hR : (1 : F) ≤ (radius : F) := by exact_mod_cast hr
  rw [← Int.cast_abs]
  by_cases hsmall : radius ≤ 46340
  · rw [wrap32_neg_sq i (by omega) (by omega), abs_neg, abs_mul_self]
    have h1 : i * i ≤ radius * radius := by nlinarith
    have h2 : ((i * i : Int) : F) ≤ ((radius * radius : Int) : F) := Int.cast_le.mpr h1
    push_cast at h2 ⊢
    nlinarith
  · have hb := wrap32_range (-(wrap32 (i * i)))
    have h1 : |wrap32 (-(wrap32 (i * i)))| ≤ 2147483648 := by
      rw [abs_le]
      omega
    have h3 : (46341 : F) ≤ (radius : F) := by exact_mod_cast (by omega : (46341 : Int) ≤ radius)
    calc ((|wrap32 (-(wrap32 (i * i)))| : Int) : F) ≤ ((2147483648 : Int) : F) :=
          Int.cast_le.mpr h1
      _ = 2147483648 := by norm_num
      _ ≤ 1008 / 1000 * ((radius : F) * (radius : F)) := by nlinarith

/-- Under rounding to nearest every exponent of the kernel construction lies in
`[-5, 5]`. -/
theorem kernelExponent_rounded_bound {F : Type} [LinearOrderedField F] (rnd : F → F)
    (hrnd : NearestRounding rnd) (radius i : Int)
    (hr : 1 ≤ radius) (hr30 : radius < 1073741824) (hi0 : -radius ≤ i) (hi1 : i ≤ radius) :
    |rnd (((wrap32 (-(wrap32 (i * i))) : Int) : F)
        / rnd (rnd (2 * rnd ((radius : F) / 3)) * rnd ((radius : F) / 3)))| ≤ 5 := by
  have hR1 : (1 : F) ≤ (radius : F) := by exact_mod_cast hr
  have hR2 : (radius : F) ≤ 2 ^ 30 := by
    have : (radius : F) ≤ ((1073741824 : Int) : F) := Int.cast_le.mpr (by omega)
    push_cast at this
    linarith
  obtain ⟨d0, d1⟩ := exponentDivisor_bounds rnd hrnd (radius : F) hR1 hR2
  have hN := exponentNumerator_bound (F := F) radius i hr hi0 hi1
  generalize rnd (rnd (2 * rnd ((radius : F) / 3)) * rnd ((radius : F) / 3)) = d at d0 d1
  generalize hn : wrap32 (-(wrap32 (i * i))) = n at hN
  have hRR : 1 ≤ (radius : F) * (radius : F) := by nlinarith
  have hRR2 : (radius : F) * (radius : F) ≤ 2 ^ 60 := by nlinarith
  have hd : 0 < d := by linarith
  by_cases hn0 : n = 0
  · rw [hn0, Int.cast_zero, zero_div, hrnd.zero, abs_zero]
    norm_num
  · have hn1 : (1 : F) ≤ |(n : F)| := by
      rw [← Int.cast_abs]
      exact_mod_cast Int.one_le_abs hn0
    have hq : |(n : F) / d| = |(n : F)| / d := by rw [abs_div, abs_of_pos hd]
    have hq1 : |(n : F) / d| ≤ 48 / 10 := by
      rw [hq, div_le_iff₀ hd]
      linarith
    have hq0 : 1 / 2 ^ 100 ≤ |(n : F) / d| := by
      rw [hq, le_div_iff₀ hd]
      have : (1 : F) / 2 ^ 100 * d ≤ 1 := by
        have : d ≤ 2 ^ 58 := by linarith
        calc (1 : F) / 2 ^ 100 * d ≤ 1 / 2 ^ 100 * 2 ^ 58 :=
              mul_le_mul_of_nonneg_left this (by positivity)
          _ ≤ 1 := by norm_num
      linarith
    have hrel := hrnd.rel ((n : F) / d) (tiny_le.trans hq0)
      ((hq1.trans (by norm_num)).trans le_huge)
    have habs : |rnd ((n : F) / d)| ≤ |(n : F) / d| + |(n : F) / d| / 2 ^ 53 := by
      have := abs_sub_abs_le_abs_sub (rnd ((n : F) / d)) ((n : F) / d)
      linarith
    have : |(n : F) / d| / 2 ^ 53 ≤ 1 / 10 := by
      rw [div_le_iff₀ (by positivity)]
      have : (48 : F) / 10 ≤ 1 / 10 * 2 ^ 53 := by norm_num
      linarith
    linarith

/-- Under rounding to nearest every raw weight lies between `2^-10` and `2^10`,
and the raw weight of the centre is `1`. -/
theorem rawWeightM_rounded_bounds {F : Type} [LinearOrderedField F] [FloorRing F]
    (rnd expf : F → F) (hrnd : NearestRounding rnd) (hexp : BoundedExp expf) (radius i : Int)
    (hr : 1 ≤ radius) (hr30 : radius < 1073741824) (hi0 : -radius ≤ i) (hi1 : i ≤ radius) :
    1 / 1024 ≤ rawWeightM (roundedArith rnd expf) radius i ∧
    rawWeightM (roundedArith rnd expf) radius i ≤ 1024 := by
  have h := kernelExponent_rounded_bound rnd hrnd radius i hr hr30 hi0 hi1
  have := hexp.bounds _ h
  simpa [rawWeightM, kernelExponentM, roundedArith] using this

theorem rawWeightM_rounded_zero {F : Type} [LinearOrderedField F] [FloorRing F]
    (rnd expf : F → F) (hrnd : NearestRounding rnd) (hexp : BoundedExp expf) (radius : Int) :
    rawWeightM (roundedArith rnd expf) radius 0 = 1 := by
  have h : wrap32 (-(wrap32 0)) = 0 := by decide
  simp [rawWeightM, kernelExponentM, roundedArith, h, hrnd.zero, hexp.zero]

/-- One step of the error bound of a rounded sum: `c` terms accumulated so far
with exact sum `T` and rounded sum `st`, a new term `f`, and the new rounded sum
`s` within relative error `u` of `st + f`. -/
theorem roundedSum_step {F : Type} [LinearOrderedField F] (u c T f st s : F)
    (hu : 0 ≤ u) (hu1 : u ≤ 1) (hc : 0 ≤ c) (hcu : 2 * c * u ≤ 1) (hT : 0 ≤ T) (hf : 0 ≤ f)
    (l : (1 - c * u) * T ≤ st) (r : st ≤ (1 + 2 * c * u) * T)
    (a : (1 - u) * (st + f) ≤ s) (b : s ≤ (1 + u) * (st + f)) :
    (1 - (c + 1) * u) * (T + f) ≤ s ∧ s ≤ (1 + 2 * (c + 1) * u) * (T + f) := by
  have h1 : 0 ≤ 1 - u := by linarith
  have h2 : 0 ≤ 1 + u := by linarith
  have l' := mul_le_mul_of_nonneg_left l h1
  have r' := mul_le_mul_of_nonneg_left r h2
  have p1 : 0 ≤ c * u * u * T := by positivity
  have p2 : 0 ≤ c * u * f := by positivity
  have p3 : 0 ≤ u * T * (1 - 2 * c * u) := mul_nonneg (by positivity) (by linarith)
  constructor
  · nlinarith
  · nlinarith

/-- Error bound of an accumulating loop that rounds every partial sum: with
`c` terms, each either `0` or between `2^-90` and `B`, the result lies between
`(1 - c * 2^-53)` and `(1 + 2 * c * 2^-53)` times the exact sum. -/
theorem roundedSum_bounds {F : Type} [LinearOrderedField F] (rnd : F → F)
    (hrnd : NearestRounding rnd) (lo hi : Int) (f : Int → F) (B : F) (hle : lo ≤ hi + 1)
    (hf : ∀ i, lo ≤ i → i ≤ hi → (f i = 0 ∨ 1 / 2 ^ 90 ≤ f i) ∧ f i ≤ B)
    (hc : ((hi - lo + 1 : Int) : F) ≤ 2 ^ 40) (hB0 : 0 ≤ B) (hB : B ≤ 2 ^ 40) :
    (0 ≤ ∑ i in Finset.Icc lo hi, f i ∧
      ∑ i in Finset.Icc lo hi, f i ≤ ((hi - lo + 1 : Int) : F) * B) ∧
    (1 - ((hi - lo + 1 : Int) : F) * (1 / 2 ^ 53)) * (∑ i in Finset.Icc lo hi, f i)
        ≤ forLoop lo hi (fun i s => rnd (s + f i)) 0 ∧
    forLoop lo hi (fun i s => rnd (s + f i)) 0
        ≤ (1 + 2 * ((hi - lo + 1 : Int) : F) * (1 / 2 ^ 53)) * (∑ i in Finset.Icc lo hi, f i) := by
  have key := forLoop_invariant lo hi (fun i s => rnd (s + f i)) 0
    (fun n s =>
      ((0 ≤ ∑ i in Finset.Icc lo n, f i ∧
          ∑ i in Finset.Icc lo n, f i ≤ ((n - lo + 1 : Int) : F) * B) ∧
        (∑ i in Finset.Icc lo n, f i = 0 ∨ 1 / 2 ^ 90 ≤ ∑ i in Finset.Icc lo n, f i)) ∧
      (1 - ((n - lo + 1 : Int) : F) * (1 / 2 ^ 53)) * (∑ i in Finset.Icc lo n, f i) ≤ s ∧
      s ≤ (1 + 2 * ((n - lo + 1 : Int) : F) * (1 / 2 ^ 53)) * (∑ i in Finset.Icc lo n, f i))
    (by omega) ?_ ?_
  · exact ⟨key.1.1, key.2⟩
  · have hcz : ((lo - 1 - lo + 1 : Int) : F) = 0 := by
      rw [show lo - 1 - lo + 1 = 0 by ring, Int.cast_zero]
    show ((0 ≤ ∑ i in Finset.Icc lo (lo - 1), f i ∧
          ∑ i in Finset.Icc lo (lo - 1), f i ≤ ((lo - 1 - lo + 1 : Int) : F) * B) ∧
        (∑ i in Finset.Icc lo (lo - 1), f i = 0 ∨
          1 / 2 ^ 90 ≤ ∑ i in Finset.Icc lo (lo - 1), f i)) ∧
      (1 - ((lo - 1 - lo + 1 : Int) : F) * (1 / 2 ^ 53)) * (∑ i in Finset.Icc lo (lo - 1), f i)
        ≤ 0 ∧
      (0 : F) ≤ (1 + 2 * ((lo - 1 - lo + 1 : Int) : F) * (1 / 2 ^ 53))
        * (∑ i in Finset.Icc lo (lo - 1), f i)
    rw [Finset.Icc_eq_empty (by omega), Finset.sum_empty, hcz]
    norm_num
  · intro i st hil hih ih
    change ((0 ≤ ∑ k in Finset.Icc lo (i - 1), f k ∧
          ∑ k in Finset.Icc lo (i - 1), f k ≤ ((i - 1 - lo + 1 : Int) : F) * B) ∧
        (∑ k in Finset.Icc lo (i - 1), f k = 0 ∨
          1 / 2 ^ 90 ≤ ∑ k in Finset.Icc lo (i - 1), f k)) ∧
      (1 - ((i - 1 - lo + 1 : Int) : F) * (1 / 2 ^ 53)) * (∑ k in Finset.Icc lo (i - 1), f k)
        ≤ st ∧
      st ≤ (1 + 2 * ((i - 1 - lo + 1 : Int) : F) * (1 / 2 ^ 53))
        * (∑ k in Finset.Icc lo (i - 1), f k) at ih
    obtain ⟨⟨⟨hT0, hT1⟩, hTz⟩, hl, hr⟩ := ih
    obtain ⟨hfz, hf1⟩ := hf i hil hih
    have hins : Finset.Icc lo i = insert i (Finset.Icc lo (i - 1)) := by
      ext k
      simp only [Finset.mem_Icc, Finset.mem_insert]
      omega
    have hnot : i ∉ Finset.Icc lo (i - 1) := by
      simp only [Finset.mem_Icc]
      omega
    have hsum : ∑ k in Finset.Icc lo i, f k = ∑ k in Finset.Icc lo (i - 1), f k + f i := by
      rw [hins, Finset.sum_insert hnot, add_comm]
    have hcount : ((i - lo + 1 : Int) : F) = ((i - 1 - lo + 1 : Int) : F) + 1 := by
      push_cast
      ring
    have hc0 : (0 : F) ≤ ((i - 1 - lo + 1 : Int) : F) := by
      exact_mod_cast (by omega : (0 : Int) ≤ i - 1 - lo + 1)
    have hc1 : ((i - 1 - lo + 1 : Int) : F) + 1 ≤ 2 ^ 40 := by
      have : ((i - lo + 1 : Int) : F) ≤ ((hi - lo + 1 : Int) : F) :=
        Int.cast_le.mpr (by omega)
      rw [hcount] at this
      linarith
    show ((0 ≤ ∑ k in Finset.Icc lo i, f k ∧
          ∑ k in Finset.Icc lo i, f k ≤ ((i - lo + 1 : Int) : F) * B) ∧
        (∑ k in Finset.Icc lo i, f k = 0 ∨ 1 / 2 ^ 90 ≤ ∑ k in Finset.Icc lo i, f k)) ∧
      (1 - ((i - lo + 1 : Int) : F) * (1 / 2 ^ 53)) * (∑ k in Finset.Icc lo i, f k)
        ≤ rnd (st + f i) ∧
      rnd (st + f i) ≤ (1 + 2 * ((i - lo + 1 : Int) : F) * (1 / 2 ^ 53))
        * (∑ k in Finset.Icc lo i, f k)
    rw [hsum, hcount]
    generalize (∑ k in Finset.Icc lo (i - 1), f k) = T at hT0 hT1 hTz hl hr ⊢
    generalize ((i - 1 - lo + 1 : Int) : F) = c at hT1 hl hr hc0 hc1 ⊢
    have hfpos : 0 ≤ f i := by
      rcases hfz with h | h
      · rw [h]
      · exact le_trans (by positivity) h
    have hcu : 2 * c * (1 / 2 ^ 53) ≤ 1 / 1024 := by
      have : 2 * c * (1 / 2 ^ 53 : F) ≤ 2 * 2 ^ 40 * (1 / 2 ^ 53) := by
        apply mul_le_mul_of_nonneg_right _ (by positivity)
        linarith
      have h2 : (2 : F) * 2 ^ 40 * (1 / 2 ^ 53) ≤ 1 / 1024 := by norm_num
      linarith
    have hst0 : T / 2 ≤ st := by
      have : (1 / 2) * T ≤ (1 - c * (1 / 2 ^ 53)) * T :=
        mul_le_mul_of_nonneg_right (by linarith) hT0
      linarith
    have hcB : c * B ≤ 2 ^ 40 * 2 ^ 40 := mul_le_mul (by linarith) hB hB0 (by positivity)
    have hst1 : st ≤ 2 * (2 ^ 40 * 2 ^ 40) := by
      have : (1 + 2 * c * (1 / 2 ^ 53)) * T ≤ 2 * T :=
        mul_le_mul_of_nonneg_right (by linarith) hT0
      linarith
    have hTz' : T + f i = 0 ∨ 1 / 2 ^ 90 ≤ T + f i := by
      rcases hfz with h | h
      · rw [h, add_zero]
        exact hTz
      · exact Or.inr (by linarith)
    refine ⟨⟨⟨by linarith, by linarith⟩, hTz'⟩, ?_⟩
    rcases hTz' with hz | hnz
    · have hT00 : T = 0 := by linarith
      have hf00 : f i = 0 := by linarith
      have hst00 : st = 0 := by
        rw [hT00, mul_zero] at hl hr
        exact le_antisymm hr hl
      rw [hz, hst00, hf00, add_zero, hrnd.zero, mul_zero, mul_zero]
      exact ⟨le_rfl, le_rfl⟩
    · obtain ⟨a, b⟩ := hrnd.rel_mid (st + f i) (by
          have h91 : (1 : F) / 2 ^ 100 ≤ 1 / 2 ^ 90 / 2 := by norm_num
          linarith) (by
        have : (2 : F) * (2 ^ 40 * 2 ^ 40) + 2 ^ 40 ≤ 2 ^ 100 := by norm_num
        linarith)
      exact roundedSum_step (1 / 2 ^ 53) c T (f i) st _ (by positivity) (by norm_num) hc0
        (by linarith) hT0 hfpos hl hr a b

theorem rawSumM_rounded {F : Type} [LinearOrderedField F] [FloorRing F] (rnd expf : F → F)
    (radius : Int) :
    rawSumM (roundedArith rnd expf) radius
      = forLoop (-radius) radius
          (fun i s => rnd (s + rawWeightM (roundedArith rnd expf) radius i)) 0 := by
  have h0 : (roundedArith rnd expf).ofInt 0 = 0 := Int.cast_zero
  unfold rawSumM
  rw [h0]
  rfl

/-- Under rounding to nearest the normalising divisor is at least `1`: the
partial sums are non-negative before the centre and at least the raw weight
`1` of the centre from there on. -/
theorem one_le_rawSumM_rounded {F : Type} [LinearOrderedField F] [FloorRing F]
    (rnd expf : F → F) (hrnd : NearestRounding rnd) (hexp : BoundedExp expf) (radius : Int)
    (hr : 1 ≤ radius) (hr30 : radius < 1073741824) :
    1 ≤ rawSumM (roundedArith rnd expf) radius := by
  rw [rawSumM_rounded]
  have hinv := forLoop_invariant (-radius) radius
    (fun i s => rnd (s + rawWeightM (roundedArith rnd expf) radius i)) 0
    (fun n s => 0 ≤ s ∧ (0 ≤ n → 1 ≤ s)) (by omega)
    ⟨le_rfl, fun h => by omega⟩
    (by
      intro i st hil hih ih
      change 0 ≤ st ∧ (0 ≤ i - 1 → 1 ≤ st) at ih
      show 0 ≤ rnd (st + rawWeightM (roundedArith rnd expf) radius i) ∧
        (0 ≤ i → 1 ≤ rnd (st + rawWeightM (roundedArith rnd expf) radius i))
      obtain ⟨hw0, _⟩ := rawWeightM_rounded_bounds rnd expf hrnd hexp radius i hr hr30 hil hih
      have hwpos : 0 ≤ rawWeightM (roundedArith rnd expf) radius i :=
        le_trans (by norm_num) hw0
      refine ⟨hrnd.nonneg _ (by linarith [ih.1]), fun hi0 => ?_⟩
      have h1 : 1 ≤ st + rawWeightM (roundedArith rnd expf) radius i := by
        by_cases hz : i = 0
        · subst hz
          rw [rawWeightM_rounded_zero rnd expf hrnd hexp radius]
          linarith [ih.1]
        · have := ih.2 (by omega)
          linarith
      have := hrnd.mono _ _ h1
      rwa [hrnd.one] at this)
  exact hinv.2 (by omega)

/-- The sum of the normalised weights against `1`: `c` raw weights of exact sum
`T`, rounded sum `S` within the bounds of `roundedSum_bounds`, and the sum `Q`
of the rounded quotients within relative error `u` of `T / S`. -/
theorem normalisedSum_bound {F : Type} [LinearOrderedField F] (u c T S Q : F)
    (hu : 0 ≤ u) (hc : 0 ≤ c) (hcu : 2 * (c + 1) * u ≤ 1) (hT : 0 ≤ T) (hS : 0 < S)
    (l : (1 - c * u) * T ≤ S) (r : S ≤ (1 + 2 * c * u) * T)
    (a : (1 - u) * T ≤ Q * S) (b : Q * S ≤ (1 + u) * T) :
    |Q - 1| ≤ (2 * c + 2) * u := by
  have hcu' : 0 ≤ c * u := mul_nonneg hc hu
  have p1 : 0 ≤ (c + 1) * u * (1 - 2 * c * u) * T :=
    mul_nonneg (mul_nonneg (by positivity) (by nlinarith)) hT
  have p2 : 0 ≤ (u + 2 * c * u * ((2 * c + 2) * u)) * T := by positivity
  have hd : 0 ≤ 1 - (2 * c + 2) * u := by nlinarith
  have l' := mul_le_mul_of_nonneg_left l (by nlinarith : 0 ≤ 1 + (2 * c + 2) * u)
  have r' := mul_le_mul_of_nonneg_left r hd
  rw [abs_le]
  constructor
  · have : (1 - (2 * c + 2) * u) * S ≤ Q * S := by nlinarith
    have := le_of_mul_le_mul_right this hS
    linarith
  · have : Q * S ≤ (1 + (2 * c + 2) * u) * S := by nlinarith
    have := le_of_mul_le_mul_right this hS
    linarith

/-- The kernel built under rounding to nearest, for a radius below `2^30`: the
normalising divisor is at least `1`; the weight at index `p` is the rounded
quotient of the raw weight by the divisor; every weight lies between `2^-60`
and `2^11`; and the weights sum to `1` within `(radius + 1) * 2^-51`. -/
theorem buildKernelM_rounded_facts {F : Type} [LinearOrderedField F] [FloorRing F]
    (rnd expf : F → F) (hrnd : NearestRounding rnd) (hexp : BoundedExp expf)
    (radius : Int) (hr : 1 ≤ radius) (hr30 : radius < 1073741824) (kernel0 : Int → F) :
    1 ≤ rawSumM (roundedArith rnd expf) radius ∧
    (∀ p, 0 ≤ p → p ≤ 2 * radius →
      buildKernelM (roundedArith rnd expf) radius kernel0 p
        = rnd (rawWeightM (roundedArith rnd expf) radius (p - radius)
            / rawSumM (roundedArith rnd expf) radius)) ∧
    (∀ p, 0 ≤ p → p ≤ 2 * radius →
      1 / 2 ^ 60 ≤ buildKernelM (roundedArith rnd expf) radius kernel0 p ∧
      buildKernelM (roundedArith rnd expf) radius kernel0 p ≤ 2048) ∧
    |∑ i in Finset.Icc 0 (2 * radius), buildKernelM (roundedArith rnd expf) radius kernel0 i - 1|
      ≤ ((radius : F) + 1) / 2 ^ 51 := by
  have hr0 : 0 ≤ radius := by omega
  have hks := kernelSize32_eq radius hr0 (by omega)
  have hS1 := one_le_rawSumM_rounded rnd expf hrnd hexp radius hr hr30
  have hSpos : 0 < rawSumM (roundedArith rnd expf) radius := lt_of_lt_of_le one_pos hS1
  have hw := fun i h0 h1 => rawWeightM_rounded_bounds rnd expf hrnd hexp radius i hr hr30 h0 h1
  -- closed form of the weights
  have hK : ∀ p, 0 ≤ p → p ≤ 2 * radius →
      buildKernelM (roundedArith rnd expf) radius kernel0 p
        = rnd (rawWeightM (roundedArith rnd expf) radius (p - radius)
            / rawSumM (roundedArith rnd expf) radius) := by
    intro p hp0 hp1
    rw [buildKernelM_apply _ radius kernel0 hr0, hks, if_pos ⟨hp0, by omega⟩,
      if_pos ⟨hp0, hp1⟩]
    rfl
  -- bounds of the rounded divisor
  have hR1 : (1 : F) ≤ (radius : F) := by exact_mod_cast hr
  have hR2 : (radius : F) ≤ 2 ^ 30 := by
    have : (radius : F) ≤ ((1073741824 : Int) : F) := Int.cast_le.mpr (by omega)
    push_cast at this
    linarith
  have hcount : ((radius - -radius + 1 : Int) : F) = 2 * (radius : F) + 1 := by
    push_cast
    ring
  obtain ⟨⟨hT0, hT1⟩, hSl, hSu⟩ := roundedSum_bounds rnd hrnd (-radius) radius
    (fun i => rawWeightM (roundedArith rnd expf) radius i) 1024 (by omega)
    (fun i h0 h1 => ⟨Or.inr (le_trans (by norm_num) (hw i h0 h1).1), (hw i h0 h1).2⟩)
    (by rw [hcount]; norm_num; linarith) (by norm_num) (by norm_num)
  rw [← rawSumM_rounded, hcount] at hSl hSu
  rw [hcount] at hT1
  -- every quotient is in the normal range
  have hq : ∀ i, -radius ≤ i → i ≤ radius →
      (1 - 1 / 2 ^ 53) * (rawWeightM (roundedArith rnd expf) radius i
          / rawSumM (roundedArith rnd expf) radius)
        ≤ rnd (rawWeightM (roundedArith rnd expf) radius i
          / rawSumM (roundedArith rnd expf) radius) ∧
      rnd (rawWeightM (roundedArith rnd expf) radius i
          / rawSumM (roundedArith rnd expf) radius)
        ≤ (1 + 1 / 2 ^ 53) * (rawWeightM (roundedArith rnd expf) radius i
          / rawSumM (roundedArith rnd expf) radius) := by
    intro i h0 h1
    obtain ⟨w0, w1⟩ := hw i h0 h1
    have hSle : rawSumM (roundedArith rnd expf) radius ≤ 2 ^ 43 := by
      have h2 : (1 + 2 * (2 * (radius : F) + 1) * (1 / 2 ^ 53))
          * (∑ i in Finset.Icc (-radius) radius, rawWeightM (roundedArith rnd expf) radius i)
          ≤ 2 * ((2 * (radius : F) + 1) * 1024) :=
        mul_le_mul (by norm_num; linarith) hT1 hT0 (by norm_num)
      have h3 : 2 * ((2 * (radius : F) + 1) * 1024) ≤ 2 ^ 43 := by norm_num; linarith
      linarith
    refine hrnd.rel_mid _ ?_ ?_
    · rw [le_div_iff₀ hSpos]
      have : (1 : F) / 2 ^ 100 * rawSumM (roundedArith rnd expf) radius
          ≤ 1 / 2 ^ 100 * 2 ^ 43 := mul_le_mul_of_nonneg_left hSle (by positivity)
      have h4 : (1 : F) / 2 ^ 100 * 2 ^ 43 ≤ 1 / 1024 := by norm_num
      linarith
    · rw [div_le_iff₀ hSpos]
      have : (2 : F) ^ 100 * 1 ≤ 2 ^ 100 * rawSumM (roundedArith rnd expf) radius :=
        mul_le_mul_of_nonneg_left hS1 (by positivity)
      have h4 : (1024 : F) ≤ 2 ^ 100 * 1 := by norm_num
      linarith
  -- the sum of the weights
  have hsumK : ∑ p in Finset.Icc 0 (2 * radius),
        buildKernelM (roundedArith rnd expf) radius kernel0 p
      = ∑ i in Finset.Icc (-radius) radius,
          rnd (rawWeightM (roundedArith rnd expf) radius i
            / rawSumM (roundedArith rnd expf) radius) := by
    rw [← sum_shift radius (fun i => rnd (rawWeightM (roundedArith rnd expf) radius i
      / rawSumM (roundedArith rnd expf) radius))]
    refine Finset.sum_congr rfl (fun p hp => ?_)
    rw [Finset.mem_Icc] at hp
    exact hK p hp.1 hp.2
  have hbound : |∑ i in Finset.Icc 0 (2 * radius),
        buildKernelM (roundedArith rnd expf) radius kernel0 i - 1|
      ≤ ((radius : F) + 1) / 2 ^ 51 := by
    rw [hsumK]
    have hlow : (1 - 1 / 2 ^ 53)
        * (∑ i in Finset.Icc (-radius) radius, rawWeightM (roundedArith rnd expf) radius i)
        ≤ (∑ i in Finset.Icc (-radius) radius,
            rnd (rawWeightM (roundedArith rnd expf) radius i
              / rawSumM (roundedArith rnd expf) radius))
          * rawSumM (roundedArith rnd expf) radius := by
      rw [Finset.mul_sum, Finset.sum_mul]
      refine Finset.sum_le_sum (fun i hi => ?_)
      rw [Finset.mem_Icc] at hi
      have := mul_le_mul_of_nonneg_right (hq i hi.1 hi.2).1 hSpos.le
      rwa [mul_assoc, div_mul_cancel₀ _ hSpos.ne'] at this
    have hupp : (∑ i in Finset.Icc (-radius) radius,
            rnd (rawWeightM (roundedArith rnd expf) radius i
              / rawSumM (roundedArith rnd expf) radius))
          * rawSumM (roundedArith rnd expf) radius
        ≤ (1 + 1 / 2 ^ 53)
          * (∑ i in Finset.Icc (-radius) radius, rawWeightM (roundedArith rnd expf) radius i) := by
      rw [Finset.mul_sum, Finset.sum_mul]
      refine Finset.sum_le_sum (fun i hi => ?_)
      rw [Finset.mem_Icc] at hi
      have := mul_le_mul_of_nonneg_right (hq i hi.1 hi.2).2 hSpos.le
      rwa [mul_assoc, div_mul_cancel₀ _ hSpos.ne'] at this
    have := normalisedSum_bound (1 / 2 ^ 53) (2 * (radius : F) + 1) _ _ _ (by positivity)
      (by linarith) (by norm_num; linarith) hT0 hSpos hSl hSu hlow hupp
    have he : (2 * (2 * (radius : F) + 1) + 2) * (1 / 2 ^ 53) = ((radius : F) + 1) / 2 ^ 51 := by
      norm_num
      ring
    rwa [he] at this
  refine ⟨hS1, hK, ?_, hbound⟩
  intro p hp0 hp1
  rw [hK p hp0 hp1]
  obtain ⟨w0, w1⟩ := hw (p - radius) (by omega) (by omega)
  obtain ⟨q0, q1⟩ := hq (p - radius) (by omega) (by omega)
  have hSle : rawSumM (roundedArith rnd expf) radius ≤ 2 ^ 43 := by
    have h2 : (1 + 2 * (2 * (radius : F) + 1) * (1 / 2 ^ 53))
        * (∑ i in Finset.Icc (-radius) radius, rawWeightM (roundedArith rnd expf) radius i)
        ≤ 2 * ((2 * (radius : F) + 1) * 1024) :=
      mul_le_mul (by norm_num; linarith) hT1 hT0 (by norm_num)
    have h3 : 2 * ((2 * (radius : F) + 1) * 1024) ≤ 2 ^ 43 := by norm_num; linarith
    linarith
  have hlo : 1 / 2 ^ 53 ≤ rawWeightM (roundedArith rnd expf) radius (p - radius)
      / rawSumM (roundedArith rnd expf) radius := by
    rw [le_div_iff₀ hSpos]
    have : (1 : F) / 2 ^ 53 * rawSumM (roundedArith rnd expf) radius
        ≤ 1 / 2 ^ 53 * 2 ^ 43 := mul_le_mul_of_nonneg_left hSle (by positivity)
    have h4 : (1 : F) / 2 ^ 53 * 2 ^ 43 ≤ 1 / 1024 := by norm_num
    linarith
  have hhi : rawWeightM (roundedArith rnd expf) radius (p - radius)
      / rawSumM (roundedArith rnd expf) radius ≤ 1024 := by
    rw [div_le_iff₀ hSpos]
    have : (1024 : F) * 1 ≤ 1024 * rawSumM (roundedArith rnd expf) radius :=
      mul_le_mul_of_nonneg_left hS1 (by norm_num)
    linarith
  constructor
  · have h5 : (1 : F) / 2 ^ 60 ≤ (1 - 1 / 2 ^ 53) * (1 / 2 ^ 53) := by norm_num
    have h6 : (1 - 1 / 2 ^ 53) * (1 / 2 ^ 53 : F)
        ≤ (1 - 1 / 2 ^ 53) * (rawWeightM (roundedArith rnd expf) radius (p - radius)
          / rawSumM (roundedArith rnd expf) radius) :=
      mul_le_mul_of_nonneg_left hlo (by norm_num)
    linarith
  · have h6 : (1 + 1 / 2 ^ 53) * (rawWeightM (roundedArith rnd expf) radius (p - radius)
          / rawSumM (roundedArith rnd expf) radius) ≤ (1 + 1 / 2 ^ 53) * 1024 :=
      mul_le_mul_of_nonneg_left hhi (by norm_num)
    have h7 : (1 + 1 / 2 ^ 53 : F) * 1024 ≤ 2048 := by norm_num
    linarith

/-! ## Binary64 rounding of a rational number is a rounding to nearest -/

theorem roundHalfEvenQ_floor_le (t : ℚ) : Int.floor t ≤ roundHalfEvenQ t := by
  unfold roundHalfEvenQ
  split_ifs <;> omega

theorem roundHalfEvenQ_le_floor_succ (t : ℚ) : roundHalfEvenQ t ≤ Int.floor t + 1 := by
  unfold roundHalfEvenQ
  split_ifs <;> omega

theorem roundHalfEvenQ_intCast (n : Int) : roundHalfEvenQ (n : ℚ) = n := by
  unfold roundHalfEvenQ
  rw [Int.floor_intCast, sub_self, if_pos (by norm_num)]

/-- The rounded integer is within one half of the argument. -/
theorem roundHalfEvenQ_near (t : ℚ) : |(roundHalfEvenQ t : ℚ) - t| ≤ 1 / 2 := by
  have h0 := Int.floor_le t
  have h1 := Int.lt_floor_add_one t
  unfold roundHalfEvenQ
  rw [abs_le]
  split_ifs with a b c
  · constructor <;> linarith
  · push_cast
    constructor <;> linarith
  · constructor <;> linarith
  · push_cast
    constructor <;> linarith

theorem roundHalfEvenQ_mono (s t : ℚ) (h : s ≤ t) : roundHalfEvenQ s ≤ roundHalfEvenQ t := by
  have hf : Int.floor s ≤ Int.floor t := Int.floor_mono h
  rcases hf.lt_or_eq with hlt | heq
  · have := roundHalfEvenQ_le_floor_succ s
    have := roundHalfEvenQ_floor_le t
    omega
  · unfold roundHalfEvenQ
    rw [heq]
    have hst : s - (Int.floor t : ℚ) ≤ t - (Int.floor t : ℚ) := by linarith
    split_ifs <;> first | omega | (exfalso; linarith)

theorem two_zpow_pos (e : Int) : (0 : ℚ) < (2 : ℚ) ^ e :=
  zpow_pos (by norm_num) e

theorem roundMagQ_nonneg (x : ℚ) (hx : 0 ≤ x) : 0 ≤ roundMagQ x := by
  unfold roundMagQ
  have hq := two_zpow_pos (max (Int.log 2 x) (-1022) - 52)
  have ht : 0 ≤ x / (2 : ℚ) ^ (max (Int.log 2 x) (-1022) - 52) := div_nonneg hx hq.le
  have h1 : (0 : Int) ≤ Int.floor (x / (2 : ℚ) ^ (max (Int.log 2 x) (-1022) - 52)) :=
    Int.floor_nonneg.mpr ht
  have h2 := roundHalfEvenQ_floor_le (x / (2 : ℚ) ^ (max (Int.log 2 x) (-1022) - 52))
  have h3 : (0 : ℚ) ≤ (roundHalfEvenQ (x / (2 : ℚ) ^ (max (Int.log 2 x) (-1022) - 52)) : ℚ) := by
    exact_mod_cast h1.trans h2
  exact mul_nonneg h3 hq.le

theorem roundMagQ_zero : roundMagQ 0 = 0 := by
  unfold roundMagQ
  rw [zero_div]
  have : roundHalfEvenQ 0 = 0 := by
    have := roundHalfEvenQ_intCast 0
    simpa using this
  rw [this]
  simp

theorem log2_zpow_le (x : ℚ) (hx : 0 < x) : (2 : ℚ) ^ Int.log 2 x ≤ x := by
  have := Int.zpow_log_le_self (b := 2) (r := x) (by norm_num) hx
  simpa using this

theorem lt_log2_zpow_succ (x : ℚ) : x < (2 : ℚ) ^ (Int.log 2 x + 1) := by
  have := Int.lt_zpow_succ_log_self (b := 2) (by norm_num) x
  simpa using this

/-- The scaled argument of a value below the next power of two is below `2^53`,
so the rounded value does not exceed that power. -/
theorem roundMagQ_le_next (x : ℚ) :
    roundMagQ x ≤ (2 : ℚ) ^ (max (Int.log 2 x) (-1022) + 1) := by
  unfold roundMagQ
  generalize he : max (Int.log 2 x) (-1022) = e
  have hq := two_zpow_pos (e - 52)
  have hx : x < (2 : ℚ) ^ (e + 1) :=
    lt_of_lt_of_le (lt_log2_zpow_succ x)
      (zpow_le_zpow_right₀ (by norm_num) (by rw [← he]; have := le_max_left (Int.log 2 x) (-1022); omega))
  have hsplit : (2 : ℚ) ^ (e + 1) = ((2 ^ 53 : Int) : ℚ) * (2 : ℚ) ^ (e - 52) := by
    rw [show e + 1 = 53 + (e - 52) by ring, zpow_add₀ (by norm_num)]
    norm_num
  have ht : x / (2 : ℚ) ^ (e - 52) ≤ ((2 ^ 53 : Int) : ℚ) := by
    rw [div_le_iff₀ hq, ← hsplit]
    exact hx.le
  have := roundHalfEvenQ_mono _ _ ht
  rw [roundHalfEvenQ_intCast] at this
  rw [hsplit]
  exact mul_le_mul_of_nonneg_right (by exact_mod_cast this) hq.le

/-- A value at or above the power of two of its binade rounds to at least that
power. -/
theorem le_roundMagQ_of_normal (x : ℚ) (hx : 0 < x) (hn : -1022 ≤ Int.log 2 x) :
    (2 : ℚ) ^ Int.log 2 x ≤ roundMagQ x := by
  unfold roundMagQ
  rw [max_eq_left hn]
  generalize he : Int.log 2 x = e
  have hq := two_zpow_pos (e - 52)
  have hx2 : (2 : ℚ) ^ e ≤ x := by
    rw [← he]
    exact log2_zpow_le x hx
  have hsplit : (2 : ℚ) ^ e = ((2 ^ 52 : Int) : ℚ) * (2 : ℚ) ^ (e - 52) := by
    rw [show e = 52 + (e - 52) by ring, zpow_add₀ (by norm_num)]
    norm_num
  have ht : ((2 ^ 52 : Int) : ℚ) ≤ x / (2 : ℚ) ^ (e - 52) := by
    rw [le_div_iff₀ hq, ← hsplit]
    exact hx2
  have := roundHalfEvenQ_mono _ _ ht
  rw [roundHalfEvenQ_intCast] at this
  rw [hsplit]
  exact mul_le_mul_of_nonneg_right (by exact_mod_cast this) hq.le

theorem roundMagQ_mono (x y : ℚ) (hx : 0 ≤ x) (hxy : x ≤ y) : roundMagQ x ≤ roundMagQ y := by
  rcases hx.lt_or_eq with hpos | hzero
  · have hlog : Int.log 2 x ≤ Int.log 2 y := Int.log_mono_right hpos hxy
    have hmax : max (Int.log 2 x) (-1022) ≤ max (Int.log 2 y) (-1022) :=
      max_le_max hlog le_rfl
    rcases hmax.lt_or_eq with hlt | heq
    · have hy : -1022 ≤ Int.log 2 y := by
        by_contra hcon
        rw [max_eq_right (by omega : Int.log 2 y ≤ -1022)] at hlt
        have := le_max_right (Int.log 2 x) (-1022)
        omega
      have h1 := roundMagQ_le_next x
      have h2 := le_roundMagQ_of_normal y (lt_of_lt_of_le hpos hxy) hy
      have h3 : (2 : ℚ) ^ (max (Int.log 2 x) (-1022) + 1) ≤ (2 : ℚ) ^ Int.log 2 y := by
        apply zpow_le_zpow_right₀ (by norm_num)
        rw [max_eq_left hy] at hlt
        omega
      linarith
    · unfold roundMagQ
      rw [heq]
      have hq := two_zpow_pos (max (Int.log 2 y) (-1022) - 52)
      have ht : x / (2 : ℚ) ^ (max (Int.log 2 y) (-1022) - 52)
          ≤ y / (2 : ℚ) ^ (max (Int.log 2 y) (-1022) - 52) :=
        div_le_div_of_nonneg_right hxy hq.le
      have := roundHalfEvenQ_mono _ _ ht
      exact mul_le_mul_of_nonneg_right (by exact_mod_cast this) hq.le
  · rw [← hzero, roundMagQ_zero]
    exact roundMagQ_nonneg y (hx.trans hxy)

theorem roundQ_mono (x y : ℚ) (hxy : x ≤ y) : roundQ x ≤ roundQ y := by
  unfold roundQ
  by_cases hx : 0 ≤ x
  · rw [if_pos hx, if_pos (hx.trans hxy)]
    exact roundMagQ_mono x y hx hxy
  · rw [if_neg hx]
    by_cases hy : 0 ≤ y
    · rw [if_pos hy]
      have h1 := roundMagQ_nonneg (-x) (by linarith)
      have h2 := roundMagQ_nonneg y hy
      linarith
    · rw [if_neg hy]
      have := roundMagQ_mono (-y) (-x) (by linarith) (by linarith)
      linarith

/-- A positive value of at least `2^-1022` has binary exponent at least
`-1022`. -/
theorem log2_ge_of_normal {F : Type} [LinearOrderedField F] [FloorRing F] (x : F)
    (hpos : 0 < x) (hx : 1 / 2 ^ 1022 ≤ x) : -1022 ≤ Int.log 2 x := by
  apply (Int.zpow_le_iff_le_log (b := 2) (R := F) (by norm_num) hpos).mp
  have : ((2 : ℕ) : F) ^ (-1022 : Int) = 1 / 2 ^ 1022 := by
    rw [zpow_neg, one_div]
    norm_cast
  rw [this]
  exact hx

/-- In the normal range the error of the magnitude rounding is at most half a
quantum, which is at most `2^-53` of the value. -/
theorem roundMagQ_rel (x : ℚ) (hpos : 0 < x) (hn : -1022 ≤ Int.log 2 x) :
    |roundMagQ x - x| ≤ x / 2 ^ 53 := by
  unfold roundMagQ
  rw [max_eq_left hn]
  generalize he : Int.log 2 x = e
  have hq := two_zpow_pos (e - 52)
  have hx2 : (2 : ℚ) ^ e ≤ x := by
    rw [← he]
    exact log2_zpow_le x hpos
  have hsplit : (2 : ℚ) ^ e = 2 ^ 52 * (2 : ℚ) ^ (e - 52) := by
    rw [show e = 52 + (e - 52) by ring, zpow_add₀ (by norm_num)]
    norm_num
  have hnear := roundHalfEvenQ_near (x / (2 : ℚ) ^ (e - 52))
  have hfac : (roundHalfEvenQ (x / (2 : ℚ) ^ (e - 52)) : ℚ) * (2 : ℚ) ^ (e - 52) - x
      = ((roundHalfEvenQ (x / (2 : ℚ) ^ (e - 52)) : ℚ) - x / (2 : ℚ) ^ (e - 52))
        * (2 : ℚ) ^ (e - 52) := by
    field_simp
  rw [hfac, abs_mul, abs_of_pos hq]
  have h1 : |(roundHalfEvenQ (x / (2 : ℚ) ^ (e - 52)) : ℚ) - x / (2 : ℚ) ^ (e - 52)|
      * (2 : ℚ) ^ (e - 52) ≤ 1 / 2 * (2 : ℚ) ^ (e - 52) :=
    mul_le_mul_of_nonneg_right hnear hq.le
  have h2 : 1 / 2 * (2 : ℚ) ^ (e - 52) ≤ x / 2 ^ 53 := by
    rw [le_div_iff₀ (by positivity)]
    rw [hsplit] at hx2
    linarith
  linarith

theorem roundMagQ_of_scaled_int (x : ℚ) (n : Int)
    (h : x / (2 : ℚ) ^ (max (Int.log 2 x) (-1022) - 52) = (n : ℚ)) : roundMagQ x = x := by
  unfold roundMagQ
  rw [h, roundHalfEvenQ_intCast, ← h]
  exact div_mul_cancel₀ _ (two_zpow_pos _).ne'

/-- The multiples of `1/8` up to `2^17` are fixed by the rounding: their scaled
argument is an integer. -/
theorem roundQ_eighths (k : Nat) (hk : k ≤ 1048576) : roundQ ((k : ℚ) / 8) = (k : ℚ) / 8 := by
  unfold roundQ
  rw [if_pos (by positivity)]
  rcases Nat.eq_zero_or_pos k with h0 | hpos
  · rw [h0, Nat.cast_zero, zero_div, roundMagQ_zero]
  · have hk1 : (1 : ℚ) ≤ (k : ℚ) := by exact_mod_cast hpos
    have hk2 : (k : ℚ) ≤ 1048576 := by exact_mod_cast hk
    have hx : (0 : ℚ) < (k : ℚ) / 8 := by positivity
    have hlo : -3 ≤ Int.log 2 ((k : ℚ) / 8) := by
      apply (Int.zpow_le_iff_le_log (b := 2) (R := ℚ) (by norm_num) hx).mp
      have : ((2 : ℕ) : ℚ) ^ (-3 : Int) = 1 / 8 := by norm_num [zpow_neg]
      rw [this]
      linarith
    have hhi : Int.log 2 ((k : ℚ) / 8) < 18 := by
      apply (Int.lt_zpow_iff_log_lt (b := 2) (R := ℚ) (by norm_num) hx).mp
      have : ((2 : ℕ) : ℚ) ^ (18 : Int) = 262144 := by norm_num
      rw [this]
      linarith
    generalize he : Int.log 2 ((k : ℚ) / 8) = e at hlo hhi
    refine roundMagQ_of_scaled_int _ ((k : Int) * 2 ^ (49 - e).toNat) ?_
    rw [he, max_eq_left (by omega)]
    have h2 : (2 : ℚ) ^ (49 - e).toNat = (2 : ℚ) ^ (49 - e) := by
      rw [← zpow_natCast, Int.toNat_of_nonneg (by omega)]
    have h3 : (2 : ℚ) ^ (e - 52) * (2 : ℚ) ^ (49 - e) = 1 / 8 := by
      rw [← zpow_add₀ (by norm_num), show e - 52 + (49 - e) = -3 by ring]
      norm_num [zpow_neg]
    rw [div_eq_iff (two_zpow_pos _).ne']
    push_cast
    rw [h2]
    have : (k : ℚ) * (2 : ℚ) ^ (49 - e) * (2 : ℚ) ^ (e - 52)
        = (k : ℚ) * ((2 : ℚ) ^ (e - 52) * (2 : ℚ) ^ (49 - e)) := by ring
    rw [this, h3]
    ring

/-- Binary64 rounding of rationals has the properties of `NearestRounding`. -/
theorem roundQ_nearest : NearestRounding roundQ := by
  constructor
  · exact roundQ_mono
  · exact roundQ_eighths
  · intro x h0 _
    unfold roundQ
    by_cases hx : 0 ≤ x
    · rw [if_pos hx]
      rw [abs_of_nonneg hx] at h0 ⊢
      have hpos : 0 < x := lt_of_lt_of_le (by positivity) h0
      exact roundMagQ_rel x hpos (log2_ge_of_normal x hpos h0)
    · rw [if_neg hx]
      have hneg : x < 0 := not_le.mp hx
      rw [abs_of_neg hneg] at h0 ⊢
      have hpos : 0 < -x := by linarith
      have := roundMagQ_rel (-x) hpos (log2_ge_of_normal (-x) hpos h0)
      rw [show -roundMagQ (-x) - x = -(roundMagQ (-x) - -x) by ring, abs_neg]
      exact this

theorem expQ_bounded : BoundedExp expQ := by
  constructor
  · unfold expQ
    norm_num
  · intro t ht
    rw [abs_le] at ht
    unfold expQ
    have h0 : (27 : ℚ) / 32 ≤ 1 + t / 32 := by linarith [ht.1]
    have h1 : 1 + t / 32 ≤ (37 : ℚ) / 32 := by linarith [ht.2]
    constructor
    · calc (1 : ℚ) / 1024 ≤ (27 / 32) ^ 32 := by norm_num
        _ ≤ (1 + t / 32) ^ 32 := pow_le_pow_left₀ (by norm_num) h0 32
    · calc (1 + t / 32) ^ 32 ≤ ((37 : ℚ) / 32) ^ 32 :=
            pow_le_pow_left₀ (by linarith) h1 32
        _ ≤ 1024 := by norm_num

/-! ## The dyadic operations of `binary64` against `roundQ` -/

theorem bitLength_spec (fuel n : Nat) (h : n < 2 ^ fuel) :
    (n = 0 ∧ bitLength fuel n = 0) ∨
    (0 < n ∧ 2 ^ (bitLength fuel n - 1) ≤ n ∧ n < 2 ^ bitLength fuel n ∧
      1 ≤ bitLength fuel n) := by
  induction fuel generalizing n with
  | zero =>
    left
    have : n = 0 := by simpa using h
    exact ⟨this, rfl⟩
  | succ f ih =>
    rcases Nat.eq_zero_or_pos n with h0 | hpos
    · left
      subst h0
      exact ⟨rfl, by simp [bitLength]⟩
    · right
      have hne : n ≠ 0 := by omega
      have hb : bitLength (f + 1) n = bitLength f (n / 2) + 1 := by
        simp [bitLength, hne]
      have hhalf : n / 2 < 2 ^ f := by
        rw [pow_succ] at h
        omega
      rw [hb]
      refine ⟨hpos, ?_, ?_, by omega⟩
      · rcases ih (n / 2) hhalf with ⟨hz, hbz⟩ | ⟨hp, hlo, _, hb1⟩
        · rw [hbz]
          simpa using hpos
        · have : 2 ^ (bitLength f (n / 2) + 1 - 1) = 2 * 2 ^ (bitLength f (n / 2) - 1) := by
            rw [Nat.add_sub_cancel, ← pow_succ']
            congr 1
            omega
          rw [this]
          omega
      · rcases ih (n / 2) hhalf with ⟨hz, hbz⟩ | ⟨hp, _, hhi, _⟩
        · rw [hbz]
          simp
          omega
        · rw [pow_succ]
          omega

theorem natCast_two_pow (p : Nat) : ((2 ^ p : Nat) : ℚ) = (2 : ℚ) ^ (p : Int) := by
  rw [zpow_natCast]
  push_cast
  rfl

/-- The exponent computed from the bit lengths is the binary exponent of the
quotient. -/
theorem floorLog2_spec (a d : Nat) (ha : 0 < a) (hd : 0 < d) (ha' : a < 2 ^ 2200)
    (hd' : d < 2 ^ 2200) :
    (2 : ℚ) ^ floorLog2 a d ≤ (a : ℚ) / d ∧ (a : ℚ) / d < (2 : ℚ) ^ (floorLog2 a d + 1) := by
  have hdq : (0 : ℚ) < (d : ℚ) := by exact_mod_cast hd
  unfold floorLog2
  dsimp only
  rcases bitLength_spec 2200 a ha' with ⟨h, _⟩ | ⟨_, hA0, hA1, hA⟩
  · omega
  rcases bitLength_spec 2200 d hd' with ⟨h, _⟩ | ⟨_, hB0, hB1, hB⟩
  · omega
  generalize bitLength 2200 a = A at hA0 hA1 hA ⊢
  generalize bitLength 2200 d = B at hB0 hB1 hB ⊢
  have qA0 : (2 : ℚ) ^ ((A : Int) - 1) ≤ (a : ℚ) := by
    have : ((2 ^ (A - 1) : Nat) : ℚ) ≤ (a : ℚ) := by exact_mod_cast hA0
    rwa [natCast_two_pow, Nat.cast_sub hA, Nat.cast_one] at this
  have qA1 : (a : ℚ) < (2 : ℚ) ^ (A : Int) := by
    have : (a : ℚ) < ((2 ^ A : Nat) : ℚ) := by exact_mod_cast hA1
    rwa [natCast_two_pow] at this
  have qB0 : (2 : ℚ) ^ ((B : Int) - 1) ≤ (d : ℚ) := by
    have : ((2 ^ (B - 1) : Nat) : ℚ) ≤ (d : ℚ) := by exact_mod_cast hB0
    rwa [natCast_two_pow, Nat.cast_sub hB, Nat.cast_one] at this
  have qB1 : (d : ℚ) < (2 : ℚ) ^ (B : Int) := by
    have : (d : ℚ) < ((2 ^ B : Nat) : ℚ) := by exact_mod_cast hB1
    rwa [natCast_two_pow] at this
  have h2 : (0 : ℚ) < 2 := by norm_num
  -- the quotient lies strictly between the neighbouring powers
  have hU : (a : ℚ) / d < (2 : ℚ) ^ ((A : Int) - (B : Int) + 1) := by
    rw [div_lt_iff₀ hdq]
    have e : (2 : ℚ) ^ ((A : Int) - (B : Int) + 1) * (2 : ℚ) ^ ((B : Int) - 1)
        = (2 : ℚ) ^ (A : Int) := by
      rw [← zpow_add₀ h2.ne']
      congr 1
      ring
    have : (2 : ℚ) ^ ((A : Int) - (B : Int) + 1) * (2 : ℚ) ^ ((B : Int) - 1)
        ≤ (2 : ℚ) ^ ((A : Int) - (B : Int) + 1) * (d : ℚ) :=
      mul_le_mul_of_nonneg_left qB0 (zpow_nonneg h2.le _)
    linarith
  have hL : (2 : ℚ) ^ ((A : Int) - (B : Int) - 1) ≤ (a : ℚ) / d := by
    rw [le_div_iff₀ hdq]
    have e : (2 : ℚ) ^ ((A : Int) - (B : Int) - 1) * (2 : ℚ) ^ (B : Int)
        = (2 : ℚ) ^ ((A : Int) - 1) := by
      rw [← zpow_add₀ h2.ne']
      congr 1
      ring
    have : (2 : ℚ) ^ ((A : Int) - (B : Int) - 1) * (d : ℚ)
        ≤ (2 : ℚ) ^ ((A : Int) - (B : Int) - 1) * (2 : ℚ) ^ (B : Int) :=
      mul_le_mul_of_nonneg_left qB1.le (zpow_nonneg h2.le _)
    linarith
  generalize (A : Int) - (B : Int) = e0 at hU hL ⊢
  by_cases hsign : 0 ≤ e0
  · rw [if_pos hsign]
    have hpow : (2 : ℚ) ^ e0 = ((2 ^ e0.toNat : Nat) : ℚ) := by
      rw [natCast_two_pow, Int.toNat_of_nonneg hsign]
    by_cases htest : d * 2 ^ e0.toNat ≤ a
    · rw [if_pos htest]
      refine ⟨?_, hU⟩
      rw [le_div_iff₀ hdq, hpow]
      have : ((d * 2 ^ e0.toNat : Nat) : ℚ) ≤ (a : ℚ) := by exact_mod_cast htest
      push_cast at this ⊢
      linarith
    · rw [if_neg htest]
      refine ⟨hL, ?_⟩
      rw [sub_add_cancel, div_lt_iff₀ hdq, hpow]
      have : (a : ℚ) < ((d * 2 ^ e0.toNat : Nat) : ℚ) := by exact_mod_cast not_le.mp htest
      push_cast at this ⊢
      linarith
  · rw [if_neg hsign]
    have hneg : 0 ≤ -e0 := by omega
    have hpow : (2 : ℚ) ^ e0 * ((2 ^ (-e0).toNat : Nat) : ℚ) = 1 := by
      rw [natCast_two_pow, Int.toNat_of_nonneg hneg, ← zpow_add₀ h2.ne', add_neg_cancel,
        zpow_zero]
    have hppos : (0 : ℚ) < ((2 ^ (-e0).toNat : Nat) : ℚ) := by positivity
    by_cases htest : d ≤ a * 2 ^ (-e0).toNat
    · rw [if_pos htest]
      refine ⟨?_, hU⟩
      rw [le_div_iff₀ hdq]
      have h1 : ((d : Nat) : ℚ) ≤ ((a * 2 ^ (-e0).toNat : Nat) : ℚ) := by exact_mod_cast htest
      rw [Nat.cast_mul] at h1
      have h3 := mul_le_mul_of_nonneg_left h1 (zpow_nonneg h2.le e0)
      rw [show (2 : ℚ) ^ e0 * ((a : ℚ) * ((2 ^ (-e0).toNat : Nat) : ℚ))
        = (a : ℚ) * ((2 : ℚ) ^ e0 * ((2 ^ (-e0).toNat : Nat) : ℚ)) by ring, hpow, mul_one] at h3
      exact h3
    · rw [if_neg htest]
      refine ⟨hL, ?_⟩
      rw [sub_add_cancel, div_lt_iff₀ hdq]
      have h1 : ((a * 2 ^ (-e0).toNat : Nat) : ℚ) < ((d : Nat) : ℚ) := by
        exact_mod_cast not_le.mp htest
      rw [Nat.cast_mul] at h1
      have h3 := mul_lt_mul_of_pos_left h1 (zpow_pos h2 e0)
      rw [show (2 : ℚ) ^ e0 * ((a : ℚ) * ((2 ^ (-e0).toNat : Nat) : ℚ))
        = (a : ℚ) * ((2 : ℚ) ^ e0 * ((2 ^ (-e0).toNat : Nat) : ℚ)) by ring, hpow, mul_one] at h3
      exact h3

theorem log2_eq_of_bounds (r : ℚ) (z : Int) (hr : 0 < r) (h0 : (2 : ℚ) ^ z ≤ r)
    (h1 : r < (2 : ℚ) ^ (z + 1)) : Int.log 2 r = z := by
  apply le_antisymm
  · have := (Int.lt_zpow_iff_log_lt (b := 2) (R := ℚ) (by norm_num) (x := z + 1) hr).mp (by
      simpa using h1)
    omega
  · exact (Int.zpow_le_iff_le_log (b := 2) (R := ℚ) (by norm_num) (x := z) hr).mp (by
      simpa using h0)

/-- The integer rounding of the dyadic model is the rounding `roundHalfEvenQ` of
the quotient. -/
theorem roundHalfEven_eq (N D : Nat) (hD : 0 < D) :
    ((roundHalfEven N D : Nat) : Int) = roundHalfEvenQ ((N : ℚ) / (D : ℚ)) := by
  have hDq : (0 : ℚ) < (D : ℚ) := by exact_mod_cast hD
  have hfloor : Int.floor ((N : ℚ) / (D : ℚ)) = ((N / D : Nat) : Int) := by
    rw [Rat.floor_natCast_div_natCast]
    norm_cast
  have hsplit : (N : ℚ) / (D : ℚ) - ((N / D : Nat) : ℚ) = ((N % D : Nat) : ℚ) / (D : ℚ) := by
    have h := Nat.div_add_mod N D
    have hq : (N : ℚ) = (D : ℚ) * ((N / D : Nat) : ℚ) + ((N % D : Nat) : ℚ) := by
      exact_mod_cast h.symm
    field_simp
    linarith
  unfold roundHalfEven roundHalfEvenQ
  rw [hfloor]
  have hcast : (((N / D : Nat) : Int) : ℚ) = ((N / D : Nat) : ℚ) := by norm_cast
  rw [hcast, hsplit]
  have hlt : ((N % D : Nat) : ℚ) / (D : ℚ) < 1 / 2 ↔ 2 * (N % D) < D := by
    rw [div_lt_iff₀ hDq]
    constructor
    · intro h
      have : 2 * ((N % D : Nat) : ℚ) < (D : ℚ) := by linarith
      exact_mod_cast this
    · intro h
      have : ((2 * (N % D) : Nat) : ℚ) < (D : ℚ) := by exact_mod_cast h
      push_cast at this
      linarith
  have hgt : 1 / 2 < ((N % D : Nat) : ℚ) / (D : ℚ) ↔ D < 2 * (N % D) := by
    rw [lt_div_iff₀ hDq]
    constructor
    · intro h
      have : (D : ℚ) < 2 * ((N % D : Nat) : ℚ) := by linarith
      exact_mod_cast this
    · intro h
      have : (D : ℚ) < ((2 * (N % D) : Nat) : ℚ) := by exact_mod_cast h
      push_cast at this
      linarith
  simp only [hlt, hgt]
  split_ifs <;> first | rfl | omega

theorem stripZeros_toRat (fuel : Nat) (m e : Int) :
    (stripZeros fuel m e).toRat = (m : ℚ) * (2 : ℚ) ^ e := by
  induction fuel generalizing m e with
  | zero => rfl
  | succ f ih =>
    unfold stripZeros
    split_ifs with h0 h2
    · subst h0
      simp [Double.toRat]
    · rw [ih]
      have hm : m = 2 * (m / 2) := by omega
      have : (m : ℚ) = 2 * ((m / 2 : Int) : ℚ) := by exact_mod_cast hm
      rw [zpow_add₀ (by norm_num : (2 : ℚ) ≠ 0), zpow_one]
      conv_rhs => rw [this]
      ring
    · rfl

theorem roundMag_eq (a d : Nat) (k s : Int) (hd : 0 < d) :
    (((if 0 ≤ k - s then roundHalfEven (a * 2 ^ (k - s).toNat) d
      else roundHalfEven a (d * 2 ^ (-(k - s)).toNat) : Nat)) : Int)
      = roundHalfEvenQ ((a : ℚ) / (d : ℚ) * (2 : ℚ) ^ k / (2 : ℚ) ^ s) := by
  have hdq : (d : ℚ) ≠ 0 := by exact_mod_cast hd.ne'
  have h2 : (2 : ℚ) ≠ 0 := by norm_num
  have hs : (2 : ℚ) ^ s ≠ 0 := zpow_ne_zero _ h2
  have hk : (2 : ℚ) ^ k ≠ 0 := zpow_ne_zero _ h2
  by_cases ht : 0 ≤ k - s
  · rw [if_pos ht, roundHalfEven_eq _ _ hd]
    congr 1
    rw [Nat.cast_mul, natCast_two_pow, Int.toNat_of_nonneg ht, zpow_sub₀ h2]
    field_simp
    exact Or.inl (mul_comm _ _)
  · rw [if_neg ht, roundHalfEven_eq _ _ (by positivity)]
    congr 1
    rw [Nat.cast_mul, natCast_two_pow, Int.toNat_of_nonneg (by omega), neg_sub, zpow_sub₀ h2]
    field_simp

theorem log2_dyadic (a d : Nat) (k : Int) (ha : 0 < a) (hd : 0 < d) (ha' : a < 2 ^ 2200)
    (hd' : d < 2 ^ 2200) :
    Int.log 2 ((a : ℚ) / (d : ℚ) * (2 : ℚ) ^ k) = floorLog2 a d + k := by
  obtain ⟨h0, h1⟩ := floorLog2_spec a d ha hd ha' hd'
  have h2 : (2 : ℚ) ≠ 0 := by norm_num
  have hk : (0 : ℚ) < (2 : ℚ) ^ k := two_zpow_pos k
  have hq : (0 : ℚ) < (a : ℚ) / (d : ℚ) := by positivity
  apply log2_eq_of_bounds _ _ (mul_pos hq hk)
  · rw [zpow_add₀ h2]
    exact mul_le_mul_of_nonneg_right h0 hk.le
  · rw [show floorLog2 a d + k + 1 = (floorLog2 a d + 1) + k by ring, zpow_add₀ h2]
    exact mul_lt_mul_of_pos_right h1 hk

/-- The dyadic rounding `roundRat` computes the binary64 rounding `roundQ` of the
rational it is given. -/
theorem roundRat_toRat (n : Int) (d : Nat) (k : Int) (hd : 0 < d)
    (hn : n.natAbs < 2 ^ 2200) (hd' : d < 2 ^ 2200) :
    (roundRat n d k).toRat = roundQ ((n : ℚ) / (d : ℚ) * (2 : ℚ) ^ k) := by
  unfold roundRat
  by_cases h0 : n = 0
  · subst h0
    simp [Double.toRat, roundQ, roundMagQ_zero]
  rw [if_neg h0]
  dsimp only
  rw [stripZeros_toRat]
  have ha : 0 < n.natAbs := Int.natAbs_pos.mpr h0
  have hlog := log2_dyadic n.natAbs d k ha hd hn hd'
  generalize floorLog2 n.natAbs d + k = lg at hlog ⊢
  have hex : (if lg < -1022 then -1022 else lg) = max lg (-1022) := by
    rw [max_def]
    split_ifs <;> omega
  rw [hex]
  have hmag := roundMag_eq n.natAbs d k (max lg (-1022) - 52) hd
  have hx : (0 : ℚ) < (n.natAbs : ℚ) / (d : ℚ) * (2 : ℚ) ^ k := by
    have : (0 : ℚ) < (n.natAbs : ℚ) := by exact_mod_cast ha
    have : (0 : ℚ) < (d : ℚ) := by exact_mod_cast hd
    have := two_zpow_pos k
    positivity
  have hR : roundMagQ ((n.natAbs : ℚ) / (d : ℚ) * (2 : ℚ) ^ k)
      = (((if 0 ≤ k - (max lg (-1022) - 52)
            then roundHalfEven (n.natAbs * 2 ^ (k - (max lg (-1022) - 52)).toNat) d
            else roundHalfEven n.natAbs (d * 2 ^ (-(k - (max lg (-1022) - 52))).toNat) : Nat) : Int) : ℚ)
        * (2 : ℚ) ^ (max lg (-1022) - 52) := by
    rw [hmag]
    unfold roundMagQ
    rw [hlog]
  by_cases hneg : n < 0
  · have hnq : (n : ℚ) = -(n.natAbs : ℚ) := by
      have : n = -(n.natAbs : Int) := by omega
      exact_mod_cast this
    have hxneg : ¬ (0 : ℚ) ≤ (n : ℚ) / (d : ℚ) * (2 : ℚ) ^ k := by
      rw [hnq, neg_div, neg_mul]
      linarith
    unfold roundQ
    rw [if_neg hxneg, if_pos hneg]
    rw [show -((n : ℚ) / (d : ℚ) * (2 : ℚ) ^ k) = (n.natAbs : ℚ) / (d : ℚ) * (2 : ℚ) ^ k by
      rw [hnq]; ring]
    rw [hR]
    push_cast
    ring
  · have hnq : (n : ℚ) = (n.natAbs : ℚ) := by
      have h : n = (n.natAbs : Int) := by omega
      have h3 : (n : ℚ) = ((n.natAbs : Int) : ℚ) := by rw [← h]
      rwa [Int.cast_natCast] at h3
    unfold roundQ
    rw [if_neg hneg, hnq, if_pos hx.le, hR]

theorem roundMagQ_natCast (k : Nat) (hk : k < 2 ^ 53) : roundMagQ (k : ℚ) = (k : ℚ) := by
  rcases Nat.eq_zero_or_pos k with h0 | hpos
  · rw [h0, Nat.cast_zero, roundMagQ_zero]
  · have hk1 : (1 : ℚ) ≤ (k : ℚ) := by exact_mod_cast hpos
    have hk2 : (k : ℚ) < 2 ^ 53 := by exact_mod_cast hk
    have hx : (0 : ℚ) < (k : ℚ) := by positivity
    have hlo : 0 ≤ Int.log 2 (k : ℚ) := by
      apply (Int.zpow_le_iff_le_log (b := 2) (R := ℚ) (by norm_num) hx).mp
      simpa using hk1
    have hhi : Int.log 2 (k : ℚ) < 53 := by
      apply (Int.lt_zpow_iff_log_lt (b := 2) (R := ℚ) (by norm_num) hx).mp
      have : ((2 : ℕ) : ℚ) ^ (53 : Int) = 2 ^ 53 := by norm_num
      rw [this]
      exact hk2
    generalize he : Int.log 2 (k : ℚ) = e at hlo hhi
    refine roundMagQ_of_scaled_int _ ((k : Int) * 2 ^ (52 - e).toNat) ?_
    rw [he, max_eq_left (by omega)]
    have h2 : (2 : ℚ) ^ (52 - e).toNat = (2 : ℚ) ^ (52 - e) := by
      rw [← zpow_natCast, Int.toNat_of_nonneg (by omega)]
    have h3 : (2 : ℚ) ^ (e - 52) * (2 : ℚ) ^ (52 - e) = 1 := by
      rw [← zpow_add₀ (by norm_num), show e - 52 + (52 - e) = 0 by ring, zpow_zero]
    rw [div_eq_iff (two_zpow_pos _).ne']
    push_cast
    rw [h2]
    have : (k : ℚ) * (2 : ℚ) ^ (52 - e) * (2 : ℚ) ^ (e - 52)
        = (k : ℚ) * ((2 : ℚ) ^ (e - 52) * (2 : ℚ) ^ (52 - e)) := by ring
    rw [this, h3, mul_one]

/-- An integer below `2^53` in magnitude is a double: rounding leaves it
unchanged. -/
theorem roundQ_intCast (n : Int) (hn : n.natAbs < 2 ^ 53) : roundQ (n : ℚ) = (n : ℚ) := by
  unfold roundQ
  by_cases h : 0 ≤ n
  · have hq : (0 : ℚ) ≤ (n : ℚ) := by exact_mod_cast h
    have e : (n : ℚ) = ((n.natAbs : Nat) : ℚ) := by
      have h1 : n = (n.natAbs : Int) := by omega
      have h3 : (n : ℚ) = ((n.natAbs : Int) : ℚ) := by rw [← h1]
      rwa [Int.cast_natCast] at h3
    rw [if_pos hq, e]
    exact roundMagQ_natCast _ hn
  · have hq : ¬ (0 : ℚ) ≤ (n : ℚ) := by
      intro hq
      exact h (by exact_mod_cast hq)
    have e : -(n : ℚ) = ((n.natAbs : Nat) : ℚ) := by
      have h1 : -n = (n.natAbs : Int) := by omega
      have h3 : ((-n : Int) : ℚ) = ((n.natAbs : Int) : ℚ) := by rw [← h1]
      rwa [Int.cast_natCast, Int.cast_neg] at h3
    rw [if_neg hq, e, roundMagQ_natCast _ hn, ← e, neg_neg]

theorem lt_two_pow_of_le (n a b : Nat) (h : n < 2 ^ a) (hab : a ≤ b) : n < 2 ^ b :=
  lt_of_lt_of_le h (Nat.pow_le_pow_right (by norm_num) hab)

theorem two_pow_le_of_le (a b : Nat) (hab : a ≤ b) : (2 : Nat) ^ a ≤ 2 ^ b :=
  Nat.pow_le_pow_right (by norm_num) hab

theorem one_lt_two_pow_of_ne (b : Nat) (hb : b ≠ 0) : 1 < 2 ^ b :=
  Nat.one_lt_two_pow hb

/-- The conversion of an `int` is exact. -/
theorem Double.ofInt_toRat (n : Int) (hn : n.natAbs < 2 ^ 53) :
    (Double.ofInt n).toRat = (n : ℚ) := by
  unfold Double.ofInt
  rw [roundRat_toRat n 1 0 (by norm_num) (lt_two_pow_of_le _ 53 2200 hn (by norm_num))
    (one_lt_two_pow_of_ne 2200 (by norm_num))]
  rw [Nat.cast_one, div_one, zpow_zero, mul_one]
  exact roundQ_intCast n hn

/-- The sum of two doubles is the rounding of the exact sum. -/
theorem Double.add_toRat (x y : Double) (hx : x.m.natAbs < 2 ^ 1000)
    (hy : y.m.natAbs < 2 ^ 1000) (hxy : x.e - y.e ≤ 1000) (hyx : y.e - x.e ≤ 1000) :
    (Double.add x y).toRat = roundQ (x.toRat + y.toRat) := by
  unfold Double.add
  dsimp only
  generalize he : (if x.e ≤ y.e then x.e else y.e) = e
  have hex : 0 ≤ x.e - e ∧ x.e - e ≤ 1000 := by
    rw [← he]
    split_ifs <;> constructor <;> omega
  have hey : 0 ≤ y.e - e ∧ y.e - e ≤ 1000 := by
    rw [← he]
    split_ifs <;> constructor <;> omega
  have hpx : (2 : Nat) ^ (x.e - e).toNat ≤ 2 ^ 1000 :=
    two_pow_le_of_le _ 1000 (by omega)
  have hpy : (2 : Nat) ^ (y.e - e).toNat ≤ 2 ^ 1000 :=
    two_pow_le_of_le _ 1000 (by omega)
  have hbound : (x.m * ((2 ^ (x.e - e).toNat : Nat) : Int)
      + y.m * ((2 ^ (y.e - e).toNat : Nat) : Int)).natAbs < 2 ^ 2200 := by
    have h1 : (x.m * ((2 ^ (x.e - e).toNat : Nat) : Int)).natAbs ≤ 2 ^ 1000 * 2 ^ 1000 := by
      rw [Int.natAbs_mul, Int.natAbs_ofNat]
      exact Nat.mul_le_mul hx.le hpx
    have h2 : (y.m * ((2 ^ (y.e - e).toNat : Nat) : Int)).natAbs ≤ 2 ^ 1000 * 2 ^ 1000 := by
      rw [Int.natAbs_mul, Int.natAbs_ofNat]
      exact Nat.mul_le_mul hy.le hpy
    have h3 := Int.natAbs_add_le (x.m * ((2 ^ (x.e - e).toNat : Nat) : Int))
      (y.m * ((2 ^ (y.e - e).toNat : Nat) : Int))
    have h4 : (2 : Nat) ^ 1000 * 2 ^ 1000 + 2 ^ 1000 * 2 ^ 1000 < 2 ^ 2200 := by norm_num
    omega
  rw [roundRat_toRat _ 1 e (by norm_num) hbound (one_lt_two_pow_of_ne 2200 (by norm_num))]
  congr 1
  have h2 : (2 : ℚ) ≠ 0 := by norm_num
  have ex : (2 : ℚ) ^ x.e = (2 : ℚ) ^ (x.e - e) * (2 : ℚ) ^ e := by
    rw [← zpow_add₀ h2, sub_add_cancel]
  have ey : (2 : ℚ) ^ y.e = (2 : ℚ) ^ (y.e - e) * (2 : ℚ) ^ e := by
    rw [← zpow_add₀ h2, sub_add_cancel]
  unfold Double.toRat
  rw [ex, ey]
  push_cast
  rw [← zpow_natCast, ← zpow_natCast, Int.toNat_of_nonneg hex.1, Int.toNat_of_nonneg hey.1]
  ring

/-- The product of two doubles is the rounding of the exact product. -/
theorem Double.mul_toRat (x y : Double) (hx : x.m.natAbs < 2 ^ 1000)
    (hy : y.m.natAbs < 2 ^ 1000) :
    (Double.mul x y).toRat = roundQ (x.toRat * y.toRat) := by
  unfold Double.mul
  have hbound : (x.m * y.m).natAbs < 2 ^ 2200 := by
    rw [Int.natAbs_mul]
    have h1 := Nat.mul_le_mul hx.le hy.le
    have h4 : (2 : Nat) ^ 1000 * 2 ^ 1000 < 2 ^ 2200 := by norm_num
    omega
  rw [roundRat_toRat _ 1 _ (by norm_num) hbound (one_lt_two_pow_of_ne 2200 (by norm_num))]
  congr 1
  unfold Double.toRat
  rw [zpow_add₀ (by norm_num : (2 : ℚ) ≠ 0)]
  push_cast
  ring

/-- The quotient of two doubles is the rounding of the exact quotient. -/
theorem Double.div_toRat (x y : Double) (hx : x.m.natAbs < 2 ^ 1000)
    (hy : y.m.natAbs < 2 ^ 1000) (hy0 : y.m ≠ 0) :
    (Double.div x y).toRat = roundQ (x.toRat / y.toRat) := by
  unfold Double.div
  have hpos : 0 < y.m.natAbs := Int.natAbs_pos.mpr hy0
  have hbx : (if y.m < 0 then -x.m else x.m).natAbs < 2 ^ 2200 := by
    have : (if y.m < 0 then -x.m else x.m).natAbs = x.m.natAbs := by
      split_ifs
      · exact Int.natAbs_neg _
      · rfl
    rw [this]
    exact lt_two_pow_of_le _ 1000 2200 hx (by norm_num)
  rw [roundRat_toRat _ _ _ hpos hbx
    (lt_two_pow_of_le _ 1000 2200 hy (by norm_num))]
  congr 1
  unfold Double.toRat
  have h2 : (2 : ℚ) ≠ 0 := by norm_num
  have hye : (2 : ℚ) ^ y.e ≠ 0 := zpow_ne_zero _ h2
  have hym : (y.m : ℚ) ≠ 0 := by exact_mod_cast hy0
  rw [zpow_sub₀ h2]
  by_cases hneg : y.m < 0
  · have e : ((y.m.natAbs : Nat) : ℚ) = -(y.m : ℚ) := by
      have h1 : ((y.m.natAbs : Nat) : Int) = -y.m := by omega
      have h3 : (((y.m.natAbs : Nat) : Int) : ℚ) = ((-y.m : Int) : ℚ) := by rw [h1]
      rwa [Int.cast_natCast, Int.cast_neg] at h3
    rw [if_pos hneg, e]
    push_cast
    field_simp
  · have e : ((y.m.natAbs : Nat) : ℚ) = (y.m : ℚ) := by
      have h1 : ((y.m.natAbs : Nat) : Int) = y.m := by omega
      have h3 : (((y.m.natAbs : Nat) : Int) : ℚ) = ((y.m : Int) : ℚ) := by rw [h1]
      rwa [Int.cast_natCast] at h3
    rw [if_neg hneg, e]
    field_simp

/-- The comparison of two doubles is the order of their values. -/
theorem Double.lt_iff (x y : Double) : Double.lt x y = true ↔ x.toRat < y.toRat := by
  unfold Double.lt
  dsimp only
  generalize he : (if x.e ≤ y.e then x.e else y.e) = e
  have hex : 0 ≤ x.e - e := by
    rw [← he]
    split_ifs <;> omega
  have hey : 0 ≤ y.e - e := by
    rw [← he]
    split_ifs <;> omega
  have h2 : (2 : ℚ) ≠ 0 := by norm_num
  have ex : (2 : ℚ) ^ x.e = (2 : ℚ) ^ (x.e - e) * (2 : ℚ) ^ e := by
    rw [← zpow_add₀ h2, sub_add_cancel]
  have ey : (2 : ℚ) ^ y.e = (2 : ℚ) ^ (y.e - e) * (2 : ℚ) ^ e := by
    rw [← zpow_add₀ h2, sub_add_cancel]
  have cx : ((x.m * ((2 ^ (x.e - e).toNat : Nat) : Int) : Int) : ℚ)
      = (x.m : ℚ) * (2 : ℚ) ^ (x.e - e) := by
    push_cast
    rw [← zpow_natCast, Int.toNat_of_nonneg hex]
  have cy : ((y.m * ((2 ^ (y.e - e).toNat : Nat) : Int) : Int) : ℚ)
      = (y.m : ℚ) * (2 : ℚ) ^ (y.e - e) := by
    push_cast
    rw [← zpow_natCast, Int.toNat_of_nonneg hey]
  unfold Double.toRat
  rw [decide_eq_true_iff, ex, ey, ← mul_assoc, ← mul_assoc,
    mul_lt_mul_right (two_zpow_pos e), ← cx, ← cy, Int.cast_lt]

/-- The conversion `(uint16_t)v` of a double is the conversion of its value. -/
theorem Double.truncate_eq (x : Double) :
    x.truncate = GaussianBlur.truncate x.toRat := by
  unfold Double.truncate GaussianBlur.truncate Double.toRat
  by_cases he : 0 ≤ x.e
  · rw [if_pos he]
    have e : (x.m : ℚ) * (2 : ℚ) ^ x.e = ((x.m * ((2 ^ x.e.toNat : Nat) : Int) : Int) : ℚ) := by
      push_cast
      rw [← zpow_natCast, Int.toNat_of_nonneg he]
    rw [e, Int.floor_intCast, Int.ceil_intCast, ite_self]
  · rw [if_neg he]
    have hn : 0 ≤ -x.e := by omega
    have hp : (0 : ℚ) < (2 : ℚ) ^ x.e := two_zpow_pos _
    have e2 : (2 : ℚ) ^ x.e = 1 / ((2 ^ (-x.e).toNat : Nat) : ℚ) := by
      rw [natCast_two_pow, Int.toNat_of_nonneg hn, zpow_neg, one_div, inv_inv]
    by_cases hm : 0 ≤ x.m
    · have hq : (0 : ℚ) ≤ (x.m : ℚ) * (2 : ℚ) ^ x.e :=
        mul_nonneg (by exact_mod_cast hm) hp.le
      have e : (x.m : ℚ) = ((x.m.natAbs : Nat) : ℚ) := by
        have h1 : x.m = (x.m.natAbs : Int) := by omega
        have h3 : (x.m : ℚ) = ((x.m.natAbs : Int) : ℚ) := by rw [← h1]
        rwa [Int.cast_natCast] at h3
      rw [if_pos hm, if_pos hq, e2, e, mul_one_div, Rat.floor_natCast_div_natCast]
      norm_cast
    · have hq : ¬ (0 : ℚ) ≤ (x.m : ℚ) * (2 : ℚ) ^ x.e := by
        have : (x.m : ℚ) < 0 := by exact_mod_cast not_le.mp hm
        have := mul_neg_of_neg_of_pos this hp
        linarith
      have e : (x.m : ℚ) = -((x.m.natAbs : Nat) : ℚ) := by
        have h1 : x.m = -(x.m.natAbs : Int) := by omega
        have h3 : (x.m : ℚ) = ((-(x.m.natAbs : Int) : Int) : ℚ) := by rw [← h1]
        rwa [Int.cast_neg, Int.cast_natCast] at h3
      rw [if_neg hm, if_neg hq, e2, e, neg_mul, Int.ceil_neg, mul_one_div,
        Rat.floor_natCast_div_natCast]
      norm_cast

theorem Double.toUInt16_eq (x : Double) :
    x.toUInt16 = GaussianBlur.toUInt16 x.toRat := by
  unfold Double.toUInt16 GaussianBlur.toUInt16
  rw [Double.truncate_eq]

theorem stripZeros_natAbs_le (fuel : Nat) (m e : Int) :
    (stripZeros fuel m e).m.natAbs ≤ m.natAbs := by
  induction fuel generalizing m e with
  | zero => exact le_refl _
  | succ f ih =>
    unfold stripZeros
    split_ifs with h0 h2
    · exact Nat.zero_le _
    · refine le_trans (ih (m / 2) (e + 1)) ?_
      omega
    · exact le_refl _

/-- The significand of a rounded value has at most 53 bits (a value that rounds
up to the next power of two is stored with significand 1 after the removal of
its trailing zeros). -/
theorem roundRat_significand_le (n : Int) (d : Nat) (k : Int) (hd : 0 < d)
    (hn : n.natAbs < 2 ^ 2200) (hd' : d < 2 ^ 2200) :
    (roundRat n d k).m.natAbs ≤ 2 ^ 53 := by
  unfold roundRat
  by_cases h0 : n = 0
  · rw [if_pos h0]
    exact Nat.zero_le _
  rw [if_neg h0]
  dsimp only
  refine le_trans (stripZeros_natAbs_le _ _ _) ?_
  have ha : 0 < n.natAbs := Int.natAbs_pos.mpr h0
  obtain ⟨_, hup⟩ := floorLog2_spec n.natAbs d ha hd hn hd'
  generalize hlg : floorLog2 n.natAbs d = fl at hup
  have hex : (if fl + k < -1022 then -1022 else fl + k) = max (fl + k) (-1022) := by
    rw [max_def]
    split_ifs <;> omega
  rw [hex]
  have hmag := roundMag_eq n.natAbs d k (max (fl + k) (-1022) - 52) hd
  generalize hM : (if 0 ≤ k - (max (fl + k) (-1022) - 52)
      then roundHalfEven (n.natAbs * 2 ^ (k - (max (fl + k) (-1022) - 52)).toNat) d
      else roundHalfEven n.natAbs (d * 2 ^ (-(k - (max (fl + k) (-1022) - 52))).toNat)) = mag
    at hmag ⊢
  have hle : (mag : Int) ≤ 2 ^ 53 := by
    rw [hmag]
    have h2 : (2 : ℚ) ≠ 0 := by norm_num
    have hs := two_zpow_pos (max (fl + k) (-1022) - 52)
    have hk := two_zpow_pos k
    have hlt : (n.natAbs : ℚ) / (d : ℚ) * (2 : ℚ) ^ k / (2 : ℚ) ^ (max (fl + k) (-1022) - 52)
        ≤ (((2 : Int) ^ 53 : Int) : ℚ) := by
      rw [div_le_iff₀ hs]
      have e1 : (((2 : Int) ^ 53 : Int) : ℚ) * (2 : ℚ) ^ (max (fl + k) (-1022) - 52)
          = (2 : ℚ) ^ (max (fl + k) (-1022) + 1) := by
        rw [show max (fl + k) (-1022) + 1 = 53 + (max (fl + k) (-1022) - 52) by ring,
          zpow_add₀ h2]
        norm_num
      rw [e1]
      have e2 : (n.natAbs : ℚ) / (d : ℚ) * (2 : ℚ) ^ k ≤ (2 : ℚ) ^ (fl + 1) * (2 : ℚ) ^ k :=
        mul_le_mul_of_nonneg_right hup.le hk.le
      have e3 : (2 : ℚ) ^ (fl + 1) * (2 : ℚ) ^ k ≤ (2 : ℚ) ^ (max (fl + k) (-1022) + 1) := by
        rw [← zpow_add₀ h2]
        apply zpow_le_zpow_right₀ (by norm_num)
        have := le_max_left (fl + k) (-1022)
        omega
      exact e2.trans e3
    have := roundHalfEvenQ_mono _ _ hlt
    rwa [roundHalfEvenQ_intCast] at this
  have hnat : mag ≤ 2 ^ 53 := by exact_mod_cast hle
  split_ifs
  · rw [Int.natAbs_neg, Int.natAbs_ofNat]
    exact hnat
  · rw [Int.natAbs_ofNat]
    exact hnat

/-- Every operation of `binary64` is the operation of `roundedArith roundQ` on
the values: on doubles whose significands and exponent distance are in the range
of the format, `toRat` carries sums, products, quotients, the comparison, the
constant `0.5` and the conversion to `uint16_t` of the evaluable dyadic
arithmetic to the exact result rounded by `roundQ`. -/
theorem binary64_refines_roundQ (expf : ℚ → ℚ) (x y : Double)
    (hx : x.m.natAbs < 2 ^ 1000) (hy : y.m.natAbs < 2 ^ 1000)
    (hxy : x.e - y.e ≤ 1000) (hyx : y.e - x.e ≤ 1000) :
    (binary64.add x y).toRat = (roundedArith roundQ expf).add x.toRat y.toRat ∧
    (binary64.mul x y).toRat = (roundedArith roundQ expf).mul x.toRat y.toRat ∧
    (y.m ≠ 0 → (binary64.div x y).toRat = (roundedArith roundQ expf).div x.toRat y.toRat) ∧
    binary64.lt x y = (roundedArith roundQ expf).lt x.toRat y.toRat ∧
    binary64.toUInt16 x = (roundedArith roundQ expf).toUInt16 x.toRat ∧
    binary64.half.toRat = (roundedArith roundQ expf).half ∧
    (∀ n : Int, n.natAbs < 2 ^ 53 →
      (binary64.ofInt n).toRat = (roundedArith roundQ expf).ofInt n) := by
  refine ⟨Double.add_toRat x y hx hy hxy hyx, Double.mul_toRat x y hx hy,
    fun hy0 => Double.div_toRat x y hx hy hy0, ?_, Double.toUInt16_eq x, ?_,
    fun n hn => Double.ofInt_toRat n hn⟩
  · show Double.lt x y = decide (x.toRat < y.toRat)
    by_cases h : x.toRat < y.toRat
    · rw [decide_eq_true h]
      exact (Double.lt_iff x y).mpr h
    · rw [decide_eq_false h]
      exact Bool.eq_false_iff.mpr (fun hc => h ((Double.lt_iff x y).mp hc))
  · show ((1 : Int) : ℚ) * (2 : ℚ) ^ (-1 : Int) = 1 / 2
    norm_num

/-! ## The table `libmExp` against the real exponential -/

theorem exp_neg_eighth_bounds :
    (882496902584595402864892142880 / 10 ^ 30 : ℝ) < Real.exp (-1 / 8) ∧
      Real.exp (-1 / 8) < 882496902584595402864892143241 / 10 ^ 30 := by
  have h := Real.exp_bound (x := -1 / 8) (by rw [abs_le]; constructor <;> norm_num)
    (n := 16) (by norm_num)
  rw [abs_le] at h
  norm_num [Finset.sum_range_succ, Nat.factorial] at h
  have habs : |(1 / 8 : ℝ)| = 1 / 8 := abs_of_pos (by norm_num)
  have hx : (-1 / 8 : ℝ) = -(1 / 8) := by norm_num
  rw [habs] at h
  rw [hx]
  norm_num at h ⊢
  constructor <;> linarith [h.1, h.2]

theorem exp_neg_eighth_pow (p : Nat) (hp : p ≠ 0) :
    (882496902584595402864892142880 / 10 ^ 30 : ℝ) ^ p < Real.exp (-(p : ℝ) / 8) ∧
      Real.exp (-(p : ℝ) / 8) < (882496902584595402864892143241 / 10 ^ 30 : ℝ) ^ p := by
  have e : Real.exp (-(p : ℝ) / 8) = Real.exp (-1 / 8) ^ p := by
    rw [← Real.exp_nat_mul]
    congr 1
    ring
  rw [e]
  exact ⟨pow_lt_pow_left₀ exp_neg_eighth_bounds.1 (by norm_num) hp,
    pow_lt_pow_left₀ exp_neg_eighth_bounds.2 (Real.exp_pos _).le hp⟩

/-- The entries of `libmExp` are the doubles nearest to the real exponential:
each lies within half the spacing of the doubles around it (`2^-54` in
`[1/2, 1)`, `2^-55` in `[1/4, 1/2)`, `2^-56` in `[1/8, 1/4)`, `2^-60` in
`[2^-7, 2^-6)`), and `exp 0 = 1` exactly. -/
theorem libmExp_nearest :
    ((libmExp ⟨0, 0⟩).toRat : ℝ) = Real.exp 0 ∧
    |Real.exp (-1 / 2) - ((libmExp ⟨-1, -1⟩).toRat : ℝ)| < 1 / 2 ^ 54 ∧
    |Real.exp (-9 / 8) - ((libmExp ⟨-9, -3⟩).toRat : ℝ)| < 1 / 2 ^ 55 ∧
    |Real.exp (-2) - ((libmExp ⟨-1, 1⟩).toRat : ℝ)| < 1 / 2 ^ 56 ∧
    |Real.exp (-9 / 2) - ((libmExp ⟨-9, -1⟩).toRat : ℝ)| < 1 / 2 ^ 60 := by
  have h4 := exp_neg_eighth_pow 4 (by norm_num)
  have h9 := exp_neg_eighth_pow 9 (by norm_num)
  have h16 := exp_neg_eighth_pow 16 (by norm_num)
  have h36 := exp_neg_eighth_pow 36 (by norm_num)
  have a4 : (-((4 : Nat) : ℝ) / 8) = -1 / 2 := by norm_num
  have a9 : (-((9 : Nat) : ℝ) / 8) = -9 / 8 := by norm_num
  have a16 : (-((16 : Nat) : ℝ) / 8) = -2 := by norm_num
  have a36 : (-((36 : Nat) : ℝ) / 8) = -9 / 2 := by norm_num
  rw [a4] at h4
  rw [a9] at h9
  rw [a16] at h16
  rw [a36] at h36
  have v0 : ((libmExp ⟨0, 0⟩).toRat : ℝ) = 1 := by
    rw [show libmExp ⟨0, 0⟩ = ⟨1, 0⟩ by decide]
    norm_num [Double.toRat]
  have v4 : ((libmExp ⟨-1, -1⟩).toRat : ℝ) = 2731571253070597 / 2 ^ 52 := by
    rw [show libmExp ⟨-1, -1⟩ = ⟨2731571253070597, -52⟩ by decide]
    norm_num [Double.toRat, zpow_neg]
  have v9 : ((libmExp ⟨-9, -3⟩).toRat : ℝ) = 182763091377497 / 2 ^ 49 := by
    rw [show libmExp ⟨-9, -3⟩ = ⟨182763091377497, -49⟩ by decide]
    norm_num [Double.toRat, zpow_neg]
  have v16 : ((libmExp ⟨-1, 1⟩).toRat : ℝ) = 1218991862308979 / 2 ^ 53 := by
    rw [show libmExp ⟨-1, 1⟩ = ⟨1218991862308979, -53⟩ by decide]
    norm_num [Double.toRat, zpow_neg]
  have v36 : ((libmExp ⟨-9, -1⟩).toRat : ℝ) = 6403900501771287 / 2 ^ 59 := by
    rw [show libmExp ⟨-9, -1⟩ = ⟨6403900501771287, -59⟩ by decide]
    norm_num [Double.toRat, zpow_neg]
  rw [v0, v4, v9, v16, v36, Real.exp_zero]
  refine ⟨rfl, ?_, ?_, ?_, ?_⟩
  · rw [abs_lt]
    have l : (2731571253070597 / 2 ^ 52 - 1 / 2 ^ 54 : ℝ)
        < (882496902584595402864892142880 / 10 ^ 30 : ℝ) ^ 4 := by norm_num
    have u : (882496902584595402864892143241 / 10 ^ 30 : ℝ) ^ 4
        < 2731571253070597 / 2 ^ 52 + 1 / 2 ^ 54 := by norm_num
    constructor <;> linarith [h4.1, h4.2]
  · rw [abs_lt]
    have l : (182763091377497 / 2 ^ 49 - 1 / 2 ^ 55 : ℝ)
        < (882496902584595402864892142880 / 10 ^ 30 : ℝ) ^ 9 := by norm_num
    have u : (882496902584595402864892143241 / 10 ^ 30 : ℝ) ^ 9
        < 182763091377497 / 2 ^ 49 + 1 / 2 ^ 55 := by norm_num
    constructor <;> linarith [h9.1, h9.2]
  · rw [abs_lt]
    have l : (1218991862308979 / 2 ^ 53 - 1 / 2 ^ 56 : ℝ)
        < (882496902584595402864892142880 / 10 ^ 30 : ℝ) ^ 16 := by norm_num
    have u : (882496902584595402864892143241 / 10 ^ 30 : ℝ) ^ 16
        < 1218991862308979 / 2 ^ 53 + 1 / 2 ^ 56 := by norm_num
    constructor <;> linarith [h16.1, h16.2]
  · rw [abs_lt]
    have l : (6403900501771287 / 2 ^ 59 - 1 / 2 ^ 60 : ℝ)
        < (882496902584595402864892142880 / 10 ^ 30 : ℝ) ^ 36 := by norm_num
    have u : (882496902584595402864892143241 / 10 ^ 30 : ℝ) ^ 36
        < 6403900501771287 / 2 ^ 59 + 1 / 2 ^ 60 := by norm_num
    constructor <;> linarith [h36.1, h36.2]

/-! ## C2: the kernel is a normalised, symmetric, non-negative weight vector -/

set_option maxRecDepth 100000 in
/-- C2 (as stated, refuted): at radius `2^30` the `int` value `kernel_size` is
`-2147483647`, not `2*radius+1`, and the normalising loop does not run; and at
radius 2 the five weights that the construction stores over binary64 are
`957794295742325 * 2^-57`, `6997713075705443 * 2^-55`, `5388618429920481 * 2^-53`
and their mirror images, whose sum is `1 + 9 * 2^-56`, not `1`. -/
theorem C2_exact_normalisation_refuted :
    kernelSize32 1073741824 = -2147483647 ∧
    buildKernelM binary64 1073741824 (fun _ => ⟨0, 0⟩)
      = (rawKernelM binary64 1073741824 (fun _ => ⟨0, 0⟩)).1 ∧
    buildKernelM binary64 2 (fun _ => ⟨0, 0⟩) 0 = ⟨957794295742325, -57⟩ ∧
    buildKernelM binary64 2 (fun _ => ⟨0, 0⟩) 1 = ⟨6997713075705443, -55⟩ ∧
    buildKernelM binary64 2 (fun _ => ⟨0, 0⟩) 2 = ⟨5388618429920481, -53⟩ ∧
    buildKernelM binary64 2 (fun _ => ⟨0, 0⟩) 3 = ⟨6997713075705443, -55⟩ ∧
    buildKernelM binary64 2 (fun _ => ⟨0, 0⟩) 4 = ⟨957794295742325, -57⟩ ∧
    ∑ i in Finset.Icc (0 : Int) (2 * 2), (buildKernelM binary64 2 (fun _ => ⟨0, 0⟩) i).toRat
      = 1 + 9 / 2 ^ 56 := by
  have h0 : buildKernelM binary64 2 (fun _ => ⟨0, 0⟩) 0 = ⟨957794295742325, -57⟩ := by decide
  have h1 : buildKernelM binary64 2 (fun _ => ⟨0, 0⟩) 1 = ⟨6997713075705443, -55⟩ := by decide
  have h2 : buildKernelM binary64 2 (fun _ => ⟨0, 0⟩) 2 = ⟨5388618429920481, -53⟩ := by decide
  have h3 : buildKernelM binary64 2 (fun _ => ⟨0, 0⟩) 3 = ⟨6997713075705443, -55⟩ := by decide
  have h4 : buildKernelM binary64 2 (fun _ => ⟨0, 0⟩) 4 = ⟨957794295742325, -57⟩ := by decide
  have hks : kernelSize32 1073741824 = -2147483647 := by decide
  refine ⟨hks, ?_, h0, h1, h2, h3, h4, ?_⟩
  · unfold buildKernelM
    rw [hks]
    exact forLoop_empty 0 _ _ _ (by decide)
  · have hI : Finset.Icc (0 : Int) (2 * 2) = {0, 1, 2, 3, 4} := by decide
    rw [hI, Finset.sum_insert (by decide), Finset.sum_insert (by decide),
      Finset.sum_insert (by decide), Finset.sum_insert (by decide), Finset.sum_singleton,
      h0, h1, h2, h3, h4]
    norm_num [Double.toRat]

/-- C2 (amended): for every radius >= 1 for which `2*radius+1` is representable
in `int` (radius below `2^30`), over double arithmetic that rounds to nearest and
a C library `exp` with `exp(0) = 1` and values in `[2^-10, 2^10]` on `[-5, 5]`:
`kernel_size` is `2*radius+1` and the construction writes exactly the cells
`0 .. 2*radius`; every weight is non-negative; the normalising divisor is at
least 1 (hence never zero); the weights sum to 1 within `(radius+1) * 2^-51`,
which is below `1e-9` up to radius 2000000; and `kernel[i] = kernel[2*radius - i]`
for every index `i` in `[0, 2*radius]`. -/
theorem C2_kernel_normalised_within_rounding {F : Type} [LinearOrderedField F] [FloorRing F]
    (rnd expf : F → F) (hrnd : NearestRounding rnd) (hexp : BoundedExp expf)
    (radius : Int) (hr : 1 ≤ radius) (hr30 : radius < 1073741824) (kernel0 : Int → F) :
    kernelSize32 radius = 2 * radius + 1 ∧
    (∀ p, ¬ (0 ≤ p ∧ p < kernelSize32 radius) →
      buildKernelM (roundedArith rnd expf) radius kernel0 p = kernel0 p) ∧
    (∀ i, 0 ≤ i → i ≤ 2 * radius → 0 ≤ buildKernelM (roundedArith rnd expf) radius kernel0 i) ∧
    1 ≤ (rawKernelM (roundedArith rnd expf) radius kernel0).2 ∧
    |∑ i in Finset.Icc 0 (2 * radius), buildKernelM (roundedArith rnd expf) radius kernel0 i - 1|
      ≤ ((radius : F) + 1) / 2 ^ 51 ∧
    (radius ≤ 2000000 →
      |∑ i in Finset.Icc 0 (2 * radius), buildKernelM (roundedArith rnd expf) radius kernel0 i - 1|
        ≤ 1 / 1000000000) ∧
    (∀ i, 0 ≤ i → i ≤ 2 * radius →
      buildKernelM (roundedArith rnd expf) radius kernel0 i
        = buildKernelM (roundedArith rnd expf) radius kernel0 (2 * radius - i)) := by
  have hr0 : 0 ≤ radius := by omega
  have hks := kernelSize32_eq radius hr0 (by omega)
  obtain ⟨hS1, hK, hKb, hbound⟩ :=
    buildKernelM_rounded_facts rnd expf hrnd hexp radius hr hr30 kernel0
  refine ⟨hks, ?_, ?_, ?_, hbound, ?_, ?_⟩
  · intro p hp
    rw [buildKernelM_apply _ radius kernel0 hr0, hks, if_neg (by omega), if_neg (by omega)]
  · intro i hi0 hi1
    exact le_trans (by norm_num) (hKb i hi0 hi1).1
  · rw [(rawKernelM_spec _ radius kernel0 hr0).2]
    exact hS1
  · intro hsmall
    refine hbound.trans ?_
    have : (radius : F) ≤ 2000000 := by exact_mod_cast hsmall
    rw [div_le_iff₀ (by positivity)]
    norm_num
    linarith
  · intro i hi0 hi1
    rw [hK i hi0 hi1, hK (2 * radius - i) (by omega) (by omega),
      show 2 * radius - i - radius = -(i - radius) by ring, rawWeightM_neg]

/-- Instance of C2 at radius 2 over the rationals, with binary64 rounding
`roundQ` and the stand-in `expQ` for the exponential. -/
theorem C2_kernel_normalised_within_rounding_witness :
    kernelSize32 2 = 2 * 2 + 1 ∧
    0 ≤ buildKernelM (roundedArith roundQ expQ) 2 (fun _ => 0) 0 ∧
    1 ≤ (rawKernelM (roundedArith roundQ expQ) 2 (fun _ => 0)).2 ∧
    |∑ i in Finset.Icc (0 : Int) (2 * 2),
        buildKernelM (roundedArith roundQ expQ) 2 (fun _ => 0) i - 1|
      ≤ (((2 : Int) : ℚ) + 1) / 2 ^ 51 ∧
    |∑ i in Finset.Icc (0 : Int) (2 * 2),
        buildKernelM (roundedArith roundQ expQ) 2 (fun _ => 0) i - 1|
      ≤ 1 / 1000000000 ∧
    buildKernelM (roundedArith roundQ expQ) 2 (fun _ => 0) 1
      = buildKernelM (roundedArith roundQ expQ) 2 (fun _ => 0) (2 * 2 - 1) :=
  ⟨(C2_kernel_normalised_within_rounding roundQ expQ roundQ_nearest expQ_bounded 2 (by decide)
      (by decide) (fun _ => 0)).1,
    (C2_kernel_normalised_within_rounding roundQ expQ roundQ_nearest expQ_bounded 2 (by decide)
      (by decide) (fun _ => 0)).2.2.1 0 (by decide) (by decide),
    (C2_kernel_normalised_within_rounding roundQ expQ roundQ_nearest expQ_bounded 2 (by decide)
      (by decide) (fun _ => 0)).2.2.2.1,
    (C2_kernel_normalised_within_rounding roundQ expQ roundQ_nearest expQ_bounded 2 (by decide)
      (by decide) (fun _ => 0)).2.2.2.2.1,
    (C2_kernel_normalised_within_rounding roundQ expQ roundQ_nearest expQ_bounded 2 (by decide)
      (by decide) (fun _ => 0)).2.2.2.2.2.1 (by decide),
    (C2_kernel_normalised_within_rounding roundQ expQ roundQ_nearest expQ_bounded 2 (by decide)
      (by decide) (fun _ => 0)).2.2.2.2.2.2 1 (by decide) (by decide)⟩

/-! ## C3: the closed form of the weights and the `int` product in the exponent -/

/-- While `i * i` fits an `int` (that is for `|i| <= 46340`) the exponent is
`-(i*i) / (2*sigma*sigma)`. -/
theorem kernelExponent_small {F : Type} [LinearOrderedField F] (sigma : F) (i : Int)
    (hlo : -46340 ≤ i) (hhi : i ≤ 46340) :
    kernelExponent sigma i = -((i : F) * i) / (2 * sigma * sigma) := by
  have hsq : i * i ≤ 46340 * 46340 := by nlinarith
  have hsq0 : 0 ≤ i * i := mul_self_nonneg i
  have hw : wrap32 (-(wrap32 (i * i))) = -(i * i) := by
    unfold wrap32
    omega
  rw [kernelExponent, hw]
  push_cast
  ring

/-- For radius at most 46340 the weight at index `i + radius` is
`exp(-(i*i)/(2*sigma*sigma))` over the sum of these terms, `sigma = radius/3`. -/
theorem buildKernel_closed_form {F : Type} [LinearOrderedField F] (exp : F → F) (radius : Int)
    (hr : 0 ≤ radius) (hmax : radius ≤ 46340) (kernel0 : Int → F) (i : Int)
    (hlo : -radius ≤ i) (hhi : i ≤ radius) :
    buildKernel exp radius kernel0 (i + radius)
      = exp (-((i : F) * i) / (2 * ((radius : F) / 3) * ((radius : F) / 3)))
        / ∑ j in Finset.Icc (-radius) radius,
            exp (-((j : F) * j) / (2 * ((radius : F) / 3) * ((radius : F) / 3))) := by
  rw [buildKernel_apply exp radius kernel0 hr, if_pos ⟨by omega, by omega⟩, add_sub_cancel_right,
    rawWeight, kernelExponent_small _ i (by omega) (by omega)]
  congr 1
  refine Finset.sum_congr rfl (fun j hj => ?_)
  rw [Finset.mem_Icc] at hj
  rw [rawWeight, kernelExponent_small _ j (by omega) (by omega)]

/-- C3 (evaluation at radius 46341): the product `i * i` leaves the range of
`int` at `i = 46341`, the stored raw weight for that offset is
`exp(+2147479015 / (2*sigma*sigma))`, the edge weight `kernel[92682]` exceeds the
central weight `kernel[46341]`, and the weights are not
`exp(-(i*i)/(2*sigma*sigma))` over the sum of these terms. -/
theorem C3_kernel_exponent_overflow :
    rawWeight Real.exp 46341 46341
      = Real.exp (2147479015 / (2 * ((46341 : ℝ) / 3) * ((46341 : ℝ) / 3))) ∧
    buildKernel Real.exp 46341 (fun _ => 0) 46341 < buildKernel Real.exp 46341 (fun _ => 0) 92682 ∧
    ¬ (∀ i : Int, -46341 ≤ i → i ≤ 46341 →
        buildKernel Real.exp 46341 (fun _ => 0) (i + 46341)
          = Real.exp (-((i : ℝ) * i) / (2 * ((46341 : ℝ) / 3) * ((46341 : ℝ) / 3)))
            / ∑ j in Finset.Icc (-46341 : Int) 46341,
                Real.exp (-((j : ℝ) * j) / (2 * ((46341 : ℝ) / 3) * ((46341 : ℝ) / 3)))) := by
  have hw : wrap32 (-(wrap32 (46341 * 46341))) = 2147479015 := by decide
  have hraw : rawWeight Real.exp 46341 46341
      = Real.exp (2147479015 / (2 * ((46341 : ℝ) / 3) * ((46341 : ℝ) / 3))) := by
    rw [rawWeight, kernelExponent, hw]
    norm_num
  have hS := one_le_rawSum Real.exp Real.exp_pos Real.exp_zero 46341 (by decide)
  have hSpos : 0 < ∑ i in Finset.Icc (-46341 : Int) 46341, rawWeight Real.exp 46341 i := by
    linarith
  have hedge : (1 : ℝ) < rawWeight Real.exp 46341 46341 := by
    rw [hraw, Real.one_lt_exp_iff]
    positivity
  have hlt : buildKernel Real.exp 46341 (fun _ => 0) 46341
      < buildKernel Real.exp 46341 (fun _ => 0) 92682 := by
    rw [buildKernel_apply Real.exp 46341 _ (by decide), if_pos (by decide),
      buildKernel_apply Real.exp 46341 _ (by decide), if_pos (by decide)]
    have e1 : (46341 : Int) - 46341 = 0 := by decide
    have e2 : (92682 : Int) - 46341 = 46341 := by decide
    rw [e1, e2, rawWeight_zero Real.exp Real.exp_zero]
    exact div_lt_div_of_pos_right hedge hSpos
  refine ⟨hraw, hlt, fun H => ?_⟩
  have h0 := H 0 (by decide) (by decide)
  have h1 := H 46341 (by decide) (by decide)
  have e3 : (0 : Int) + 46341 = 46341 := by decide
  have e4 : (46341 : Int) + 46341 = 92682 := by decide
  rw [e3] at h0
  rw [e4] at h1
  rw [h0, h1] at hlt
  have hT : 0 < ∑ j in Finset.Icc (-46341 : Int) 46341,
      Real.exp (-((j : ℝ) * j) / (2 * ((46341 : ℝ) / 3) * ((46341 : ℝ) / 3))) :=
    Finset.sum_pos (fun j _ => Real.exp_pos _) ⟨0, by simp⟩
  have hle : Real.exp (-(((46341 : Int) : ℝ) * ((46341 : Int) : ℝ))
        / (2 * ((46341 : ℝ) / 3) * ((46341 : ℝ) / 3)))
      ≤ Real.exp (-(((0 : Int) : ℝ) * ((0 : Int) : ℝ))
        / (2 * ((46341 : ℝ) / 3) * ((46341 : ℝ) / 3))) := by
    apply Real.exp_le_exp.mpr
    norm_num
  exact absurd hlt (not_lt.mpr (div_le_div_of_nonneg_right hle hT.le))

/-! ## C4: constant planes -/

theorem clampTap_range (a extent : Int) (he : 1 ≤ extent) :
    0 ≤ clampTap a extent ∧ clampTap a extent < extent := by
  unfold clampTap
  split_ifs with h1 h2 <;> omega

/-- C5: for every plane and every radius >= 1, in both passes the value that is
converted to a 16-bit unsigned sample (the saturated accumulator plus 0.5,
truncated) is an integer in `[0, 65535]`; the conversion therefore stores that
integer unchanged, and every intermediate and every output sample lies in
`[0, 65535]`. -/
theorem C5_samples_in_range {F : Type} [LinearOrderedField F] [FloorRing F] (exp : F → F)
    (srcp tmp0 dstp : Int → Nat) (src_stride dst_stride width height radius : Int)
    (kernel0 : Int → F) (_hr : 1 ≤ radius) (hds : width ≤ dst_stride)
    (x y : Int) (hx0 : 0 ≤ x) (hx : x < width) (hy0 : 0 ≤ y) (hy : y < height) :
    (0 ≤ truncate (saturate (hAccum srcp src_stride width radius
        (buildKernel exp radius kernel0) x y) + 1 / 2) ∧
      truncate (saturate (hAccum srcp src_stride width radius
        (buildKernel exp radius kernel0) x y) + 1 / 2) ≤ 65535) ∧
    ((horizontalPass srcp src_stride width height radius (buildKernel exp radius kernel0) tmp0
        (y * width + x) : Nat) : Int)
      = truncate (saturate (hAccum srcp src_stride width radius
          (buildKernel exp radius kernel0) x y) + 1 / 2) ∧
    horizontalPass srcp src_stride width height radius (buildKernel exp radius kernel0) tmp0
        (y * width + x) ≤ 65535 ∧
    (0 ≤ truncate (saturate (vAccum
        (horizontalPass srcp src_stride width height radius (buildKernel exp radius kernel0) tmp0)
        width height radius (buildKernel exp radius kernel0) x y) + 1 / 2) ∧
      truncate (saturate (vAccum
        (horizontalPass srcp src_stride width height radius (buildKernel exp radius kernel0) tmp0)
        width height radius (buildKernel exp radius kernel0) x y) + 1 / 2) ≤ 65535) ∧
    ((processPlane exp srcp src_stride dst_stride width height radius kernel0 tmp0 dstp
        (y * dst_stride + x) : Nat) : Int)
      = truncate (saturate (vAccum
          (horizontalPass srcp src_stride width height radius (buildKernel exp radius kernel0) tmp0)
          width height radius (buildKernel exp radius kernel0) x y) + 1 / 2) ∧
    processPlane exp srcp src_stride dst_stride width height radius kernel0 tmp0 dstp
        (y * dst_stride + x) ≤ 65535 := by
  have key : ∀ S : F, (0 ≤ truncate (saturate S + 1 / 2) ∧ truncate (saturate S + 1 / 2) ≤ 65535) ∧
      ((toUInt16 (saturate S + 1 / 2) : Nat) : Int) = truncate (saturate S + 1 / 2) ∧
      toUInt16 (saturate S + 1 / 2) ≤ 65535 := by
    intro S
    obtain ⟨_, hlo, hhi⟩ := truncate_round (saturate S) (saturate_nonneg S) (saturate_le S)
    have hcast : ((toUInt16 (saturate S + 1 / 2) : Nat) : Int) = truncate (saturate S + 1 / 2) := by
      unfold toUInt16
      omega
    refine ⟨⟨hlo, hhi⟩, hcast, ?_⟩
    omega
  have hH := key (hAccum srcp src_stride width radius (buildKernel exp radius kernel0) x y)
  have hV := key (vAccum
    (horizontalPass srcp src_stride width height radius (buildKernel exp radius kernel0) tmp0)
    width height radius (buildKernel exp radius kernel0) x y)
  rw [← horizontalPass_apply srcp src_stride width height radius (buildKernel exp radius kernel0)
    tmp0 x y hx0 hx hy0 hy] at hH
  rw [← verticalPass_apply _ dst_stride width height radius (buildKernel exp radius kernel0)
    dstp hds x y hx0 hx hy0 hy] at hV
  exact ⟨hH.1, hH.2.1, hH.2.2, hV.1, hV.2.1, hV.2.2⟩

/-- Instance of C5: a saturated white 2x2 plane blurred with radius 1. -/
theorem C5_samples_in_range_witness :
    horizontalPass srcp_white 2 2 2 1 (buildKernel Real.exp 1 (fun _ => 0)) (fun _ => 0)
        (1 * 2 + 1) ≤ 65535 ∧
    processPlane Real.exp srcp_white 2 2 2 2 1 (fun _ => 0) (fun _ => 0) (fun _ => 0)
        (1 * 2 + 1) ≤ 65535 :=
  ⟨(C5_samples_in_range Real.exp srcp_white (fun _ => 0) (fun _ => 0) 2 2 2 2 1 (fun _ => 0)
      (by decide) (by decide) 1 1 (by decide) (by decide) (by decide) (by decide)).2.2.1,
    (C5_samples_in_range Real.exp srcp_white (fun _ => 0) (fun _ => 0) 2 2 2 2 1 (fun _ => 0)
      (by decide) (by decide) 1 1 (by decide) (by decide) (by decide) (by decide)).2.2.2.2.2⟩

/-! ## C7 and C8: argument validation -/

/-- Inside the range of `int` the radius check accepts exactly the values that
are at least 1 and keeps the supplied value. -/
theorem gaussianBlurCreate_int_range (vi : VideoInfo) (v : Int)
    (hfmt : vi.constantFormat = true ∧ vi.sampleType = VSSampleType.stInteger ∧
      vi.bitsPerSample = 16)
    (hlo : -2147483648 ≤ v) (hhi : v ≤ 2147483647) :
    gaussianBlurCreate vi (some v)
      = if v < 1 then CreateOutcome.error "GaussianBlur: 'radius' must be greater than 0."
        else CreateOutcome.created v := by
  obtain ⟨h1, h2, h3⟩ := hfmt
  have hw : wrap32 v = v := by
    unfold wrap32
    omega
  simp [gaussianBlurCreate, mapGetInt, h1, h2, h3, hw]

/-- C7 (evaluation outside the range of `int`): for a clip of supported format,
the supplied 64-bit radius `4294967296` is rejected with "'radius' must be
greater than 0." although it is not less than 1; the supplied radius
`-4294967295`, which is less than 1, creates an instance (of radius 1); and the
supplied radius `4294967297` creates an instance whose radius is 1, not the
supplied value. -/
theorem C7_radius_narrowing :
    gaussianBlurCreate supportedInfo (some 4294967296)
      = CreateOutcome.error "GaussianBlur: 'radius' must be greater than 0." ∧
    gaussianBlurCreate supportedInfo (some (-4294967295)) = CreateOutcome.created 1 ∧
    gaussianBlurCreate supportedInfo (some 4294967297) = CreateOutcome.created 1 := by
  refine ⟨by decide, by decide, by decide⟩

/-- C8: filter creation ends with the error "GaussianBlur: Only constant format
16-bit integer input supported." exactly when the clip is not constant-format,
or its sample type is not integer, or its bits per sample is not 16, whatever
the radius argument is (missing, invalid or valid); in that case no instance is
created, and a clip that is constant-format, integer and 16-bit never gets this
error. -/
theorem C8_format_validation (vi : VideoInfo) (radiusArg : Option Int) :
    gaussianBlurCreate vi radiusArg
        = CreateOutcome.error "GaussianBlur: Only constant format 16-bit integer input supported."
      ↔ (vi.constantFormat = false ∨ vi.sampleType ≠ VSSampleType.stInteger ∨
          vi.bitsPerSample ≠ 16) := by
  unfold gaussianBlurCreate
  by_cases hbad : (!vi.constantFormat || vi.sampleType != VSSampleType.stInteger
      || vi.bitsPerSample != 16) = true
  · rw [if_pos hbad]
    simp only [true_iff]
    simp only [Bool.or_eq_true, Bool.not_eq_true', bne_iff_ne, ne_eq] at hbad
    tauto
  · rw [if_neg hbad]
    simp only [Bool.or_eq_true, Bool.not_eq_true', bne_iff_ne, ne_eq] at hbad
    have hne1 : ("GaussianBlur: 'radius' parameter is required." : String)
        ≠ "GaussianBlur: Only constant format 16-bit integer input supported." := by decide
    have hne2 : ("GaussianBlur: 'radius' must be greater than 0." : String)
        ≠ "GaussianBlur: Only constant format 16-bit integer input supported." := by decide
    constructor
    · intro h
      exfalso
      simp only [] at h
      split_ifs at h with h1 h2
      · exact hne1 (CreateOutcome.error.inj h)
      · exact hne2 (CreateOutcome.error.inj h)
    · intro h
      exact absurd (by tauto) hbad

/-! ## C9: pass composability -/

/-- The vertical accumulator reads the intermediate buffer only at cells
`y' * width + x'` of the tightly packed plane. -/
theorem vAccum_congr {F : Type} [LinearOrderedField F] (tmp tmp' : Int → Nat)
    (width height radius : Int) (kernel : Int → F) (hh : 1 ≤ height)
    (hagree : ∀ x y : Int, 0 ≤ x → x < width → 0 ≤ y → y < height →
      tmp' (y * width + x) = tmp (y * width + x))
    (x y : Int) (hx0 : 0 ≤ x) (hx : x < width) :
    vAccum tmp' width height radius kernel x y = vAccum tmp width height radius kernel x y := by
  rw [vAccum_eq_sum, vAccum_eq_sum]
  refine Finset.sum_congr rfl (fun k _ => ?_)
  rw [hagree x _ hx0 hx (clampTap_range _ height hh).1 (clampTap_range _ height hh).2]

/-- Two intermediate buffers that agree on the packed plane give the same
destination buffer. -/
theorem verticalPass_congr {F : Type} [LinearOrderedField F] [FloorRing F] (tmp tmp' : Int → Nat)
    (dst_stride width height radius : Int) (kernel : Int → F) (dstp : Int → Nat)
    (hh : 1 ≤ height) (hds : width ≤ dst_stride)
    (hagree : ∀ x y : Int, 0 ≤ x → x < width → 0 ≤ y → y < height →
      tmp' (y * width + x) = tmp (y * width + x)) :
    verticalPass tmp' dst_stride width height radius kernel dstp
      = verticalPass tmp dst_stride width height radius kernel dstp := by
  funext p
  by_cases hp : ∃ x y : Int, 0 ≤ x ∧ x < width ∧ 0 ≤ y ∧ y < height ∧ p = y * dst_stride + x
  · obtain ⟨x, y, hx0, hx, hy0, hy, rfl⟩ := hp
    rw [verticalPass_apply tmp' dst_stride width height radius kernel dstp hds x y hx0 hx hy0 hy,
      verticalPass_apply tmp dst_stride width height radius kernel dstp hds x y hx0 hx hy0 hy,
      vAccum_congr tmp tmp' width height radius kernel hh hagree x y hx0 hx]
  · have hmiss : ∀ x y : Int, 0 ≤ x → x < width → 0 ≤ y → y < height →
        p ≠ y * dst_stride + x :=
      fun x y hx0 hx hy0 hy he => hp ⟨x, y, hx0, hx, hy0, hy, he⟩
    rw [verticalPass_frame tmp' dst_stride width height radius kernel dstp p hmiss,
      verticalPass_frame tmp dst_stride width height radius kernel dstp p hmiss]

/-- C9: for every plane and every radius >= 1 the full blur result is the
vertical pass applied to the output of the horizontal pass alone; that output
is a tightly packed (stride = width) buffer of saturated and rounded 16-bit
samples; and the vertical pass depends on nothing but these `width*height`
samples: any buffer that holds the horizontal output on the packed plane,
however it was produced, gives the full result when fed to the vertical pass. -/
theorem C9_pass_composability {F : Type} [LinearOrderedField F] [FloorRing F] (exp : F → F)
    (srcp tmp0 dstp : Int → Nat) (src_stride dst_stride width height radius : Int)
    (kernel0 : Int → F) (_hr : 1 ≤ radius) (_hw : 1 ≤ width) (hh : 1 ≤ height)
    (hds : width ≤ dst_stride) :
    processPlane exp srcp src_stride dst_stride width height radius kernel0 tmp0 dstp
      = verticalPass
          (horizontalPass srcp src_stride width height radius (buildKernel exp radius kernel0) tmp0)
          dst_stride width height radius (buildKernel exp radius kernel0) dstp ∧
    (∀ x y : Int, 0 ≤ x → x < width → 0 ≤ y → y < height →
      horizontalPass srcp src_stride width height radius (buildKernel exp radius kernel0) tmp0
          (y * width + x)
        = toUInt16 (saturate (hAccum srcp src_stride width radius
            (buildKernel exp radius kernel0) x y) + 1 / 2) ∧
      horizontalPass srcp src_stride width height radius (buildKernel exp radius kernel0) tmp0
          (y * width + x) ≤ 65535) ∧
    (∀ tmp' : Int → Nat,
      (∀ x y : Int, 0 ≤ x → x < width → 0 ≤ y → y < height →
        tmp' (y * width + x)
          = horizontalPass srcp src_stride width height radius (buildKernel exp radius kernel0)
              tmp0 (y * width + x)) →
      verticalPass tmp' dst_stride width height radius (buildKernel exp radius kernel0) dstp
        = processPlane exp srcp src_stride dst_stride width height radius kernel0 tmp0 dstp) := by
  refine ⟨rfl, ?_, ?_⟩
  · intro x y hx0 hx hy0 hy
    have happ := horizontalPass_apply srcp src_stride width height radius
      (buildKernel exp radius kernel0) tmp0 x y hx0 hx hy0 hy
    refine ⟨happ, ?_⟩
    rw [happ]
    have hcast := toUInt16_round
      (saturate (hAccum srcp src_stride width radius (buildKernel exp radius kernel0) x y))
      (saturate_nonneg _) (saturate_le _)
    obtain ⟨ht, _, hhi⟩ := truncate_round
      (saturate (hAccum srcp src_stride width radius (buildKernel exp radius kernel0) x y))
      (saturate_nonneg _) (saturate_le _)
    omega
  · intro tmp' hagree
    exact verticalPass_congr _ tmp' dst_stride width height radius (buildKernel exp radius kernel0)
      dstp hh hds hagree

/-- Instance of C9: the horizontal output of a 2x2 plane, copied into a buffer
that is zero elsewhere, is fed to the vertical pass. -/
theorem C9_pass_composability_witness :
    verticalPass
        (fun i => if 0 ≤ i ∧ i < 4 then
          horizontalPass srcp_white 3 2 2 1 (buildKernel Real.exp 1 (fun _ => 0)) (fun _ => 7) i
          else 0)
        2 2 2 1 (buildKernel Real.exp 1 (fun _ => 0)) (fun _ => 0)
      = processPlane Real.exp srcp_white 3 2 2 2 1 (fun _ => 0) (fun _ => 7) (fun _ => 0) :=
  (C9_pass_composability Real.exp srcp_white (fun _ => 7) (fun _ => 0) 3 2 2 2 1 (fun _ => 0)
    (by decide) (by decide) (by decide) (by decide)).2.2 _
    (fun x y hx0 hx hy0 hy => if_pos ⟨by nlinarith, by nlinarith⟩)

/-! ## Numerical facts for radius 1 -/

theorem exp_neg_nine_half_bounds :
    (0.011108996 : ℝ) < Real.exp (-9 / 2) ∧ Real.exp (-9 / 2) < 0.011108997 := by
  have hpos : 0 < Real.exp (-9 / 2) := Real.exp_pos _
  have key : Real.exp (-9 / 2) * Real.exp (-9 / 2) * Real.exp 1 ^ 9 = 1 := by
    rw [← Real.exp_add, ← Real.exp_nat_mul, ← Real.exp_add]
    norm_num
  have hhi9 : Real.exp 1 ^ 9 < (2.7182818286 : ℝ) ^ 9 :=
    pow_lt_pow_left₀ Real.exp_one_lt_d9 (Real.exp_pos 1).le (by norm_num)
  have hlo9 : (2.7182818283 : ℝ) ^ 9 < Real.exp 1 ^ 9 :=
    pow_lt_pow_left₀ Real.exp_one_gt_d9 (by norm_num) (by norm_num)
  have hE9 : 0 < Real.exp 1 ^ 9 := pow_pos (Real.exp_pos 1) 9
  constructor
  · by_contra hcon
    have hle : Real.exp (-9 / 2) ≤ 0.011108996 := not_lt.mp hcon
    have hsq : Real.exp (-9 / 2) * Real.exp (-9 / 2) ≤ 0.011108996 * 0.011108996 :=
      mul_self_le_mul_self hpos.le hle
    have h1 : Real.exp (-9 / 2) * Real.exp (-9 / 2) * Real.exp 1 ^ 9
        ≤ 0.011108996 * 0.011108996 * Real.exp 1 ^ 9 :=
      mul_le_mul_of_nonneg_right hsq hE9.le
    have h2 : (0.011108996 * 0.011108996 : ℝ) * Real.exp 1 ^ 9
        < 0.011108996 * 0.011108996 * (2.7182818286 : ℝ) ^ 9 :=
      mul_lt_mul_of_pos_left hhi9 (by norm_num)
    have h3 : (0.011108996 * 0.011108996 : ℝ) * (2.7182818286 : ℝ) ^ 9 < 1 := by norm_num
    linarith
  · by_contra hcon
    have hle : (0.011108997 : ℝ) ≤ Real.exp (-9 / 2) := not_lt.mp hcon
    have hsq : (0.011108997 * 0.011108997 : ℝ) ≤ Real.exp (-9 / 2) * Real.exp (-9 / 2) :=
      mul_self_le_mul_self (by norm_num) hle
    have h1 : (0.011108997 * 0.011108997 : ℝ) * Real.exp 1 ^ 9
        ≤ Real.exp (-9 / 2) * Real.exp (-9 / 2) * Real.exp 1 ^ 9 :=
      mul_le_mul_of_nonneg_right hsq hE9.le
    have h2 : (0.011108997 * 0.011108997 : ℝ) * (2.7182818283 : ℝ) ^ 9
        < 0.011108997 * 0.011108997 * Real.exp 1 ^ 9 :=
      mul_lt_mul_of_pos_left hlo9 (by norm_num)
    have h3 : (1 : ℝ) < 0.011108997 * 0.011108997 * (2.7182818283 : ℝ) ^ 9 := by norm_num
    linarith

theorem sum_Icc_neg_one_one {F : Type} [LinearOrderedField F] (f : Int → F) :
    ∑ k in Finset.Icc (-1 : Int) 1, f k = f (-1) + f 0 + f 1 := by
  have h : Finset.Icc (-1 : Int) 1 = {-1, 0, 1} := by decide
  rw [h, Finset.sum_insert (by decide), Finset.sum_insert (by decide), Finset.sum_singleton]
  ring

theorem kernel_radius_one (kernel0 : Int → ℝ) :
    buildKernel Real.exp 1 kernel0 0 = sideWeight (Real.exp (-9 / 2)) ∧
    buildKernel Real.exp 1 kernel0 1 = 1 - 2 * sideWeight (Real.exp (-9 / 2)) ∧
    buildKernel Real.exp 1 kernel0 2 = sideWeight (Real.exp (-9 / 2)) := by
  have hpos : 0 < Real.exp (-9 / 2) := Real.exp_pos _
  have hform := fun i h1 h2 =>
    buildKernel_closed_form Real.exp 1 (by decide) (by decide) kernel0 i h1 h2
  have hsum : ∑ j in Finset.Icc (-1 : Int) 1,
      Real.exp (-((j : ℝ) * j) / (2 * (((1 : Int) : ℝ) / 3) * (((1 : Int) : ℝ) / 3)))
        = 1 + 2 * Real.exp (-9 / 2) := by
    rw [sum_Icc_neg_one_one]
    norm_num
    ring
  have e0 := hform (-1) (by decide) (by decide)
  have e1 := hform 0 (by decide) (by decide)
  have e2 := hform 1 (by decide) (by decide)
  rw [hsum] at e0 e1 e2
  norm_num at e0 e1 e2
  have hneg : (-(9 / 2) : ℝ) = -9 / 2 := by norm_num
  rw [hneg] at e0 e1 e2
  refine ⟨?_, ?_, ?_⟩
  · rw [e0, sideWeight]
  · rw [e1, sideWeight]
    field_simp
  · rw [e2, sideWeight]

theorem sideWeight_bounds :
    (0.0108675 : ℝ) < sideWeight (Real.exp (-9 / 2)) ∧
      sideWeight (Real.exp (-9 / 2)) < 0.0108676 := by
  obtain ⟨hlo, hhi⟩ := exp_neg_nine_half_bounds
  have hpos : 0 < Real.exp (-9 / 2) := Real.exp_pos _
  have hden : (0 : ℝ) < 1 + 2 * Real.exp (-9 / 2) := by positivity
  unfold sideWeight
  constructor
  · rw [lt_div_iff₀ hden]
    linarith
  · rw [div_lt_iff₀ hden]
    linarith

/-- A stored sample is `n` as soon as the accumulator plus one half lies in `[n, n+1)`. -/
theorem store_eq_of_bounds {F : Type} [LinearOrderedField F] [FloorRing F] (v : F) (n : Nat)
    (hn : n ≤ 65535) (h1 : (n : F) ≤ v + 1 / 2) (h2 : v + 1 / 2 < n + 1) :
    toUInt16 (saturate v + 1 / 2) = n := by
  have hn' : (n : F) ≤ 65535 := by exact_mod_cast hn
  have hn0 : (0 : F) ≤ n := Nat.cast_nonneg n
  have hfl : specRound v = (n : Int) := by
    rw [specRound, Int.floor_eq_iff]
    push_cast
    rcases le_total v 0 with hv0 | hv0
    · rw [max_eq_right hv0, min_eq_left (by norm_num)]
      constructor <;> linarith
    · rw [max_eq_left hv0]
      rcases le_total v 65535 with hv1 | hv1
      · rw [min_eq_left hv1]
        exact ⟨h1, h2⟩
      · rw [min_eq_right hv1]
        constructor <;> linarith
  have := store_eq_specRound v
  rw [hfl] at this
  exact_mod_cast this

/-- Rounding of a three-tap sum under the radius-1 kernel `[s, 1 - 2s, s]`, from
rational bounds on `s`. -/
theorem round_radius_one (s : ℝ) (hs : (0.0108675 : ℝ) < s ∧ s < 0.0108676) (a b c n : Nat)
    (v : ℝ) (hv : v = (a : ℝ) * s + (b : ℝ) * (1 - 2 * s) + (c : ℝ) * s) (hn : n ≤ 65535)
    (h1 : (n : ℝ) ≤ (a : ℝ) * 0.0108675 + (b : ℝ) * (1 - 2 * 0.0108676) + (c : ℝ) * 0.0108675
      + 1 / 2)
    (h2 : (a : ℝ) * 0.0108676 + (b : ℝ) * (1 - 2 * 0.0108675) + (c : ℝ) * 0.0108676 + 1 / 2
      < (n : ℝ) + 1) :
    toUInt16 (saturate v + 1 / 2) = n := by
  obtain ⟨hlo, hhi⟩ := hs
  have ha : (0 : ℝ) ≤ a := Nat.cast_nonneg a
  have hb : (0 : ℝ) ≤ b := Nat.cast_nonneg b
  have hc : (0 : ℝ) ≤ c := Nat.cast_nonneg c
  have a1 : (a : ℝ) * 0.0108675 ≤ a * s := mul_le_mul_of_nonneg_left hlo.le ha
  have a2 : (a : ℝ) * s ≤ a * 0.0108676 := mul_le_mul_of_nonneg_left hhi.le ha
  have c1 : (c : ℝ) * 0.0108675 ≤ c * s := mul_le_mul_of_nonneg_left hlo.le hc
  have c2 : (c : ℝ) * s ≤ c * 0.0108676 := mul_le_mul_of_nonneg_left hhi.le hc
  have b1 : (b : ℝ) * (1 - 2 * 0.0108676) ≤ b * (1 - 2 * s) :=
    mul_le_mul_of_nonneg_left (by linarith) hb
  have b2 : (b : ℝ) * (1 - 2 * s) ≤ b * (1 - 2 * 0.0108675) :=
    mul_le_mul_of_nonneg_left (by linarith) hb
  apply store_eq_of_bounds v n hn
  · rw [hv]
    linarith
  · rw [hv]
    linarith

theorem hAccum_radius_one {F : Type} [LinearOrderedField F] (srcp : Int → Nat)
    (src_stride plane_width : Int) (kernel : Int → F) (x y : Int) :
    hAccum srcp src_stride plane_width 1 kernel x y
      = (srcp (y * src_stride + clampTap (x + -1) plane_width) : F) * kernel 0
        + (srcp (y * src_stride + clampTap (x + 0) plane_width) : F) * kernel 1
        + (srcp (y * src_stride + clampTap (x + 1) plane_width) : F) * kernel 2 := by
  rw [hAccum_eq_sum, sum_Icc_neg_one_one]
  rfl

theorem vAccum_radius_one {F : Type} [LinearOrderedField F] (tmp : Int → Nat)
    (plane_width plane_height : Int) (kernel : Int → F) (x y : Int) :
    vAccum tmp plane_width plane_height 1 kernel x y
      = (tmp (clampTap (y + -1) plane_height * plane_width + x) : F) * kernel 0
        + (tmp (clampTap (y + 0) plane_height * plane_width + x) : F) * kernel 1
        + (tmp (clampTap (y + 1) plane_height * plane_width + x) : F) * kernel 2 := by
  rw [vAccum_eq_sum, sum_Icc_neg_one_one]
  rfl

/-- Evaluation of one sample of the scalar horizontal pass at radius 1. -/
theorem horizontalPass_radius_one (srcp tmp0 : Int → Nat) (src_stride width height : Int)
    (kernel0 : Int → ℝ) (x y : Int) (hx0 : 0 ≤ x) (hx : x < width) (hy0 : 0 ≤ y) (hy : y < height)
    (a b c n : Nat)
    (ha : srcp (y * src_stride + clampTap (x + -1) width) = a)
    (hb : srcp (y * src_stride + clampTap (x + 0) width) = b)
    (hc : srcp (y * src_stride + clampTap (x + 1) width) = c)
    (hn : n ≤ 65535)
    (h1 : (n : ℝ) ≤ (a : ℝ) * 0.0108675 + (b : ℝ) * (1 - 2 * 0.0108676) + (c : ℝ) * 0.0108675
      + 1 / 2)
    (h2 : (a : ℝ) * 0.0108676 + (b : ℝ) * (1 - 2 * 0.0108675) + (c : ℝ) * 0.0108676 + 1 / 2
      < (n : ℝ) + 1)
    (p : Int) (hp : p = y * width + x) :
    horizontalPass srcp src_stride width height 1 (buildKernel Real.exp 1 kernel0) tmp0 p = n := by
  obtain ⟨k0, k1, k2⟩ := kernel_radius_one kernel0
  rw [hp, horizontalPass_apply srcp src_stride width height 1 _ tmp0 x y hx0 hx hy0 hy]
  refine round_radius_one _ sideWeight_bounds a b c n _ ?_ hn h1 h2
  rw [hAccum_radius_one, ha, hb, hc, k0, k1, k2]

/-- Evaluation of one sample of the scalar vertical pass at radius 1. -/
theorem verticalPass_radius_one (tmp dstp : Int → Nat) (dst_stride width height : Int)
    (kernel0 : Int → ℝ) (hds : width ≤ dst_stride)
    (x y : Int) (hx0 : 0 ≤ x) (hx : x < width) (hy0 : 0 ≤ y) (hy : y < height)
    (a b c n : Nat)
    (ha : tmp (clampTap (y + -1) height * width + x) = a)
    (hb : tmp (clampTap (y + 0) height * width + x) = b)
    (hc : tmp (clampTap (y + 1) height * width + x) = c)
    (hn : n ≤ 65535)
    (h1 : (n : ℝ) ≤ (a : ℝ) * 0.0108675 + (b : ℝ) * (1 - 2 * 0.0108676) + (c : ℝ) * 0.0108675
      + 1 / 2)
    (h2 : (a : ℝ) * 0.0108676 + (b : ℝ) * (1 - 2 * 0.0108675) + (c : ℝ) * 0.0108676 + 1 / 2
      < (n : ℝ) + 1)
    (p : Int) (hp : p = y * dst_stride + x) :
    verticalPass tmp dst_stride width height 1 (buildKernel Real.exp 1 kernel0) dstp p = n := by
  obtain ⟨k0, k1, k2⟩ := kernel_radius_one kernel0
  rw [hp, verticalPass_apply tmp dst_stride width height 1 _ dstp hds x y hx0 hx hy0 hy]
  refine round_radius_one _ sideWeight_bounds a b c n _ ?_ hn h1 h2
  rw [vAccum_radius_one, ha, hb, hc, k0, k1, k2]


/-! ## C10: clamp-to-edge against zero padding -/

theorem zeroPadHorizontalPass_apply {F : Type} [LinearOrderedField F] [FloorRing F]
    (srcp : Int → Nat) (src_stride plane_width plane_height radius : Int) (kernel : Int → F)
    (tmp : Int → Nat) (x y : Int) (hx0 : 0 ≤ x) (hx : x < plane_width) (hy0 : 0 ≤ y)
    (hy : y < plane_height) :
    zeroPadHorizontalPass srcp src_stride plane_width plane_height radius kernel tmp
        (y * plane_width + x)
      = toUInt16 (saturate (zeroPadHAccum srcp src_stride plane_width radius kernel x y) + 1 / 2) :=
  planeWrite_hit plane_width plane_width plane_height
    (fun x y =>
      toUInt16 (saturate (zeroPadHAccum srcp src_stride plane_width radius kernel x y) + 1 / 2))
    tmp le_rfl x y hx0 hx hy0 hy

theorem zeroPadVerticalPass_apply {F : Type} [LinearOrderedField F] [FloorRing F]
    (tmp : Int → Nat) (dst_stride plane_width plane_height radius : Int) (kernel : Int → F)
    (dstp : Int → Nat) (hs : plane_width ≤ dst_stride)
    (x y : Int) (hx0 : 0 ≤ x) (hx : x < plane_width) (hy0 : 0 ≤ y) (hy : y < plane_height) :
    zeroPadVerticalPass tmp dst_stride plane_width plane_height radius kernel dstp
        (y * dst_stride + x)
      = toUInt16 (saturate (zeroPadVAccum tmp plane_width plane_height radius kernel x y) + 1 / 2) :=
  planeWrite_hit dst_stride plane_width plane_height
    (fun x y =>
      toUInt16 (saturate (zeroPadVAccum tmp plane_width plane_height radius kernel x y) + 1 / 2))
    dstp hs x y hx0 hx hy0 hy

/-- A tap of the zero-padded reference as a sample times a weight. -/
theorem zeroPad_tap {F : Type} [LinearOrderedField F] (c : Prop) [Decidable c] (m : Nat) (w : F) :
    (if c then (0 : F) else (m : F) * w) = (((if c then 0 else m : Nat) : Nat) : F) * w := by
  split_ifs
  · rw [Nat.cast_zero, zero_mul]
  · rfl

theorem zeroPadHAccum_radius_one {F : Type} [LinearOrderedField F] (srcp : Int → Nat)
    (src_stride plane_width : Int) (kernel : Int → F) (x y : Int) :
    zeroPadHAccum srcp src_stride plane_width 1 kernel x y
      = (((if x + -1 < 0 ∨ x + -1 ≥ plane_width then 0
            else srcp (y * src_stride + (x + -1)) : Nat) : Nat) : F) * kernel 0
        + (((if x + 0 < 0 ∨ x + 0 ≥ plane_width then 0
            else srcp (y * src_stride + (x + 0)) : Nat) : Nat) : F) * kernel 1
        + (((if x + 1 < 0 ∨ x + 1 ≥ plane_width then 0
            else srcp (y * src_stride + (x + 1)) : Nat) : Nat) : F) * kernel 2 := by
  rw [← zeroPad_tap, ← zeroPad_tap, ← zeroPad_tap]
  exact (forLoop_sum (-1) 1 (fun k =>
    if x + k < 0 ∨ x + k ≥ plane_width then 0
    else (srcp (y * src_stride + (x + k)) : F) * kernel (k + 1))).trans
    (sum_Icc_neg_one_one _)

theorem zeroPadVAccum_radius_one {F : Type} [LinearOrderedField F] (tmp : Int → Nat)
    (plane_width plane_height : Int) (kernel : Int → F) (x y : Int) :
    zeroPadVAccum tmp plane_width plane_height 1 kernel x y
      = (((if y + -1 < 0 ∨ y + -1 ≥ plane_height then 0
            else tmp ((y + -1) * plane_width + x) : Nat) : Nat) : F) * kernel 0
        + (((if y + 0 < 0 ∨ y + 0 ≥ plane_height then 0
            else tmp ((y + 0) * plane_width + x) : Nat) : Nat) : F) * kernel 1
        + (((if y + 1 < 0 ∨ y + 1 ≥ plane_height then 0
            else tmp ((y + 1) * plane_width + x) : Nat) : Nat) : F) * kernel 2 := by
  rw [← zeroPad_tap, ← zeroPad_tap, ← zeroPad_tap]
  exact (forLoop_sum (-1) 1 (fun k =>
    if y + k < 0 ∨ y + k ≥ plane_height then 0
    else (tmp ((y + k) * plane_width + x) : F) * kernel (k + 1))).trans
    (sum_Icc_neg_one_one _)

/-- Evaluation of one sample of the zero-padded horizontal pass at radius 1. -/
theorem zeroPadHorizontalPass_radius_one (srcp tmp0 : Int → Nat) (src_stride width height : Int)
    (kernel0 : Int → ℝ) (x y : Int) (hx0 : 0 ≤ x) (hx : x < width) (hy0 : 0 ≤ y) (hy : y < height)
    (a b c n : Nat)
    (ha : (if x + -1 < 0 ∨ x + -1 ≥ width then 0 else srcp (y * src_stride + (x + -1))) = a)
    (hb : (if x + 0 < 0 ∨ x + 0 ≥ width then 0 else srcp (y * src_stride + (x + 0))) = b)
    (hc : (if x + 1 < 0 ∨ x + 1 ≥ width then 0 else srcp (y * src_stride + (x + 1))) = c)
    (hn : n ≤ 65535)
    (h1 : (n : ℝ) ≤ (a : ℝ) * 0.0108675 + (b : ℝ) * (1 - 2 * 0.0108676) + (c : ℝ) * 0.0108675
      + 1 / 2)
    (h2 : (a : ℝ) * 0.0108676 + (b : ℝ) * (1 - 2 * 0.0108675) + (c : ℝ) * 0.0108676 + 1 / 2
      < (n : ℝ) + 1)
    (p : Int) (hp : p = y * width + x) :
    zeroPadHorizontalPass srcp src_stride width height 1 (buildKernel Real.exp 1 kernel0) tmp0 p
      = n := by
  obtain ⟨k0, k1, k2⟩ := kernel_radius_one kernel0
  rw [hp, zeroPadHorizontalPass_apply srcp src_stride width height 1 _ tmp0 x y hx0 hx hy0 hy]
  refine round_radius_one _ sideWeight_bounds a b c n _ ?_ hn h1 h2
  rw [zeroPadHAccum_radius_one, ha, hb, hc, k0, k1, k2]

/-- Evaluation of one sample of the zero-padded vertical pass at radius 1. -/
theorem zeroPadVerticalPass_radius_one (tmp dstp : Int → Nat) (dst_stride width height : Int)
    (kernel0 : Int → ℝ) (hds : width ≤ dst_stride)
    (x y : Int) (hx0 : 0 ≤ x) (hx : x < width) (hy0 : 0 ≤ y) (hy : y < height)
    (a b c n : Nat)
    (ha : (if y + -1 < 0 ∨ y + -1 ≥ height then 0 else tmp ((y + -1) * width + x)) = a)
    (hb : (if y + 0 < 0 ∨ y + 0 ≥ height then 0 else tmp ((y + 0) * width + x)) = b)
    (hc : (if y + 1 < 0 ∨ y + 1 ≥ height then 0 else tmp ((y + 1) * width + x)) = c)
    (hn : n ≤ 65535)
    (h1 : (n : ℝ) ≤ (a : ℝ) * 0.0108675 + (b : ℝ) * (1 - 2 * 0.0108676) + (c : ℝ) * 0.0108675
      + 1 / 2)
    (h2 : (a : ℝ) * 0.0108676 + (b : ℝ) * (1 - 2 * 0.0108675) + (c : ℝ) * 0.0108676 + 1 / 2
      < (n : ℝ) + 1)
    (p : Int) (hp : p = y * dst_stride + x) :
    zeroPadVerticalPass tmp dst_stride width height 1 (buildKernel Real.exp 1 kernel0) dstp p
      = n := by
  obtain ⟨k0, k1, k2⟩ := kernel_radius_one kernel0
  rw [hp, zeroPadVerticalPass_apply tmp dst_stride width height 1 _ dstp hds x y hx0 hx hy0 hy]
  refine round_radius_one _ sideWeight_bounds a b c n _ ?_ hn h1 h2
  rw [zeroPadVAccum_radius_one, ha, hb, hc, k0, k1, k2]

/-- The intermediate buffer of the engine for the corner plane: the cells the
three compared outputs read. -/
theorem cornerPlane_engine_tmp :
    horizontalPass cornerPlane 4 4 4 1 (buildKernel Real.exp 1 (fun _ => 0)) (fun _ => 0) 0
      = 64823 ∧
    horizontalPass cornerPlane 4 4 4 1 (buildKernel Real.exp 1 (fun _ => 0)) (fun _ => 0) 1
      = 712 ∧
    horizontalPass cornerPlane 4 4 4 1 (buildKernel Real.exp 1 (fun _ => 0)) (fun _ => 0) 4
      = 0 ∧
    horizontalPass cornerPlane 4 4 4 1 (buildKernel Real.exp 1 (fun _ => 0)) (fun _ => 0) 5
      = 0 ∧
    horizontalPass cornerPlane 4 4 4 1 (buildKernel Real.exp 1 (fun _ => 0)) (fun _ => 0) 8
      = 0 := by
  refine ⟨?_, ?_, ?_, ?_, ?_⟩
  · exact horizontalPass_radius_one cornerPlane (fun _ => 0) 4 4 4 (fun _ => 0) 0 0
      (by decide) (by decide) (by decide) (by decide) 65535 65535 0 64823
      (by decide) (by decide) (by decide) (by decide) (by norm_num) (by norm_num) 0 (by decide)
  · exact horizontalPass_radius_one cornerPlane (fun _ => 0) 4 4 4 (fun _ => 0) 1 0
      (by decide) (by decide) (by decide) (by decide) 65535 0 0 712
      (by decide) (by decide) (by decide) (by decide) (by norm_num) (by norm_num) 1 (by decide)
  · exact horizontalPass_radius_one cornerPlane (fun _ => 0) 4 4 4 (fun _ => 0) 0 1
      (by decide) (by decide) (by decide) (by decide) 0 0 0 0
      (by decide) (by decide) (by decide) (by decide) (by norm_num) (by norm_num) 4 (by decide)
  · exact horizontalPass_radius_one cornerPlane (fun _ => 0) 4 4 4 (fun _ => 0) 1 1
      (by decide) (by decide) (by decide) (by decide) 0 0 0 0
      (by decide) (by decide) (by decide) (by decide) (by norm_num) (by norm_num) 5 (by decide)
  · exact horizontalPass_radius_one cornerPlane (fun _ => 0) 4 4 4 (fun _ => 0) 0 2
      (by decide) (by decide) (by decide) (by decide) 0 0 0 0
      (by decide) (by decide) (by decide) (by decide) (by norm_num) (by norm_num) 8 (by decide)

/-- The intermediate buffer of the zero-padded reference for the corner plane. -/
theorem cornerPlane_zeroPad_tmp :
    zeroPadHorizontalPass cornerPlane 4 4 4 1 (buildKernel Real.exp 1 (fun _ => 0)) (fun _ => 0) 0
      = 64111 ∧
    zeroPadHorizontalPass cornerPlane 4 4 4 1 (buildKernel Real.exp 1 (fun _ => 0)) (fun _ => 0) 1
      = 712 ∧
    zeroPadHorizontalPass cornerPlane 4 4 4 1 (buildKernel Real.exp 1 (fun _ => 0)) (fun _ => 0) 4
      = 0 ∧
    zeroPadHorizontalPass cornerPlane 4 4 4 1 (buildKernel Real.exp 1 (fun _ => 0)) (fun _ => 0) 5
      = 0 ∧
    zeroPadHorizontalPass cornerPlane 4 4 4 1 (buildKernel Real.exp 1 (fun _ => 0)) (fun _ => 0) 8
      = 0 := by
  refine ⟨?_, ?_, ?_, ?_, ?_⟩
  · exact zeroPadHorizontalPass_radius_one cornerPlane (fun _ => 0) 4 4 4 (fun _ => 0) 0 0
      (by decide) (by decide) (by decide) (by decide) 0 65535 0 64111
      (by decide) (by decide) (by decide) (by decide) (by norm_num) (by norm_num) 0 (by decide)
  · exact zeroPadHorizontalPass_radius_one cornerPlane (fun _ => 0) 4 4 4 (fun _ => 0) 1 0
      (by decide) (by decide) (by decide) (by decide) 65535 0 0 712
      (by decide) (by decide) (by decide) (by decide) (by norm_num) (by norm_num) 1 (by decide)
  · exact zeroPadHorizontalPass_radius_one cornerPlane (fun _ => 0) 4 4 4 (fun _ => 0) 0 1
      (by decide) (by decide) (by decide) (by decide) 0 0 0 0
      (by decide) (by decide) (by decide) (by decide) (by norm_num) (by norm_num) 4 (by decide)
  · exact zeroPadHorizontalPass_radius_one cornerPlane (fun _ => 0) 4 4 4 (fun _ => 0) 1 1
      (by decide) (by decide) (by decide) (by decide) 0 0 0 0
      (by decide) (by decide) (by decide) (by decide) (by norm_num) (by norm_num) 5 (by decide)
  · exact zeroPadHorizontalPass_radius_one cornerPlane (fun _ => 0) 4 4 4 (fun _ => 0) 0 2
      (by decide) (by decide) (by decide) (by decide) 0 0 0 0
      (by decide) (by decide) (by decide) (by decide) (by norm_num) (by norm_num) 8 (by decide)

/-- C10: on the 4x4 plane whose only non-zero sample is 65535 at the corner
(0, 0), blurred with radius 1, the engine writes 64119 at (0, 0) and 704 at
(1, 0) and at (0, 1), while the reference implementation that is identical
except that out-of-range taps contribute zero writes 62718, 697 and 697 there:
the two outputs differ at the corner and at both corner-adjacent samples, and
the engine's value is strictly larger at each of them. -/
theorem C10_clamp_differs_from_zero_padding :
    (processPlane Real.exp cornerPlane 4 4 4 4 1 (fun _ => 0) (fun _ => 0) (fun _ => 0)
        (0 * 4 + 0) = 64119 ∧
      zeroPadProcessPlane Real.exp cornerPlane 4 4 4 4 1 (fun _ => 0) (fun _ => 0) (fun _ => 0)
        (0 * 4 + 0) = 62718) ∧
    (processPlane Real.exp cornerPlane 4 4 4 4 1 (fun _ => 0) (fun _ => 0) (fun _ => 0)
        (0 * 4 + 1) = 704 ∧
      zeroPadProcessPlane Real.exp cornerPlane 4 4 4 4 1 (fun _ => 0) (fun _ => 0) (fun _ => 0)
        (0 * 4 + 1) = 697) ∧
    (processPlane Real.exp cornerPlane 4 4 4 4 1 (fun _ => 0) (fun _ => 0) (fun _ => 0)
        (1 * 4 + 0) = 704 ∧
      zeroPadProcessPlane Real.exp cornerPlane 4 4 4 4 1 (fun _ => 0) (fun _ => 0) (fun _ => 0)
        (1 * 4 + 0) = 697) ∧
    zeroPadProcessPlane Real.exp cornerPlane 4 4 4 4 1 (fun _ => 0) (fun _ => 0) (fun _ => 0)
        (0 * 4 + 0)
      < processPlane Real.exp cornerPlane 4 4 4 4 1 (fun _ => 0) (fun _ => 0) (fun _ => 0)
        (0 * 4 + 0) ∧
    zeroPadProcessPlane Real.exp cornerPlane 4 4 4 4 1 (fun _ => 0) (fun _ => 0) (fun _ => 0)
        (0 * 4 + 1)
      < processPlane Real.exp cornerPlane 4 4 4 4 1 (fun _ => 0) (fun _ => 0) (fun _ => 0)
        (0 * 4 + 1) ∧
    zeroPadProcessPlane Real.exp cornerPlane 4 4 4 4 1 (fun _ => 0) (fun _ => 0) (fun _ => 0)
        (1 * 4 + 0)
      < processPlane Real.exp cornerPlane 4 4 4 4 1 (fun _ => 0) (fun _ => 0) (fun _ => 0)
        (1 * 4 + 0) := by
  obtain ⟨e0, e1, e4, e5, e8⟩ := cornerPlane_engine_tmp
  obtain ⟨z0, z1, z4, z5, z8⟩ := cornerPlane_zeroPad_tmp
  have E00 : processPlane Real.exp cornerPlane 4 4 4 4 1 (fun _ => 0) (fun _ => 0) (fun _ => 0)
      (0 * 4 + 0) = 64119 :=
    verticalPass_radius_one _ (fun _ => 0) 4 4 4 (fun _ => 0) (by decide) 0 0
      (by decide) (by decide) (by decide) (by decide) 64823 64823 0 64119
      e0 e0 e4 (by decide) (by norm_num) (by norm_num) _ rfl
  have E10 : processPlane Real.exp cornerPlane 4 4 4 4 1 (fun _ => 0) (fun _ => 0) (fun _ => 0)
      (0 * 4 + 1) = 704 :=
    verticalPass_radius_one _ (fun _ => 0) 4 4 4 (fun _ => 0) (by decide) 1 0
      (by decide) (by decide) (by decide) (by decide) 712 712 0 704
      e1 e1 e5 (by decide) (by norm_num) (by norm_num) _ rfl
  have E01 : processPlane Real.exp cornerPlane 4 4 4 4 1 (fun _ => 0) (fun _ => 0) (fun _ => 0)
      (1 * 4 + 0) = 704 :=
    verticalPass_radius_one _ (fun _ => 0) 4 4 4 (fun _ => 0) (by decide) 0 1
      (by decide) (by decide) (by decide) (by decide) 64823 0 0 704
      e0 e4 e8 (by decide) (by norm_num) (by norm_num) _ rfl
  have Z00 : zeroPadProcessPlane Real.exp cornerPlane 4 4 4 4 1 (fun _ => 0) (fun _ => 0)
      (fun _ => 0) (0 * 4 + 0) = 62718 :=
    zeroPadVerticalPass_radius_one _ (fun _ => 0) 4 4 4 (fun _ => 0) (by decide) 0 0
      (by decide) (by decide) (by decide) (by decide) 0 64111 0 62718
      (if_pos (by decide)) ((if_neg (by decide)).trans z0) ((if_neg (by decide)).trans z4)
      (by decide) (by norm_num) (by norm_num) _ rfl
  have Z10 : zeroPadProcessPlane Real.exp cornerPlane 4 4 4 4 1 (fun _ => 0) (fun _ => 0)
      (fun _ => 0) (0 * 4 + 1) = 697 :=
    zeroPadVerticalPass_radius_one _ (fun _ => 0) 4 4 4 (fun _ => 0) (by decide) 1 0
      (by decide) (by decide) (by decide) (by decide) 0 712 0 697
      (if_pos (by decide)) ((if_neg (by decide)).trans z1) ((if_neg (by decide)).trans z5)
      (by decide) (by norm_num) (by norm_num) _ rfl
  have Z01 : zeroPadProcessPlane Real.exp cornerPlane 4 4 4 4 1 (fun _ => 0) (fun _ => 0)
      (fun _ => 0) (1 * 4 + 0) = 697 :=
    zeroPadVerticalPass_radius_one _ (fun _ => 0) 4 4 4 (fun _ => 0) (by decide) 0 1
      (by decide) (by decide) (by decide) (by decide) 64111 0 0 697
      ((if_neg (by decide)).trans z0) ((if_neg (by decide)).trans z4)
      ((if_neg (by decide)).trans z8)
      (by decide) (by norm_num) (by norm_num) _ rfl
  refine ⟨⟨E00, Z00⟩, ⟨E10, Z10⟩, ⟨E01, Z01⟩, ?_, ?_, ?_⟩
  · rw [E00, Z00]
    decide
  · rw [E10, Z10]
    decide
  · rw [E01, Z01]
    decide

/-! ## Pointwise description of the NEON passes -/

/-- A loop that stores `r i` at `base + i`. -/
theorem forLoop_update_range (lo hi base : Int) (r : Int → Nat) (m : Int → Nat) (q : Int) :
    forLoop lo hi (fun i b => Function.update b (base + i) (r i)) m q
      = if base + lo ≤ q ∧ q ≤ base + hi then r (q - base) else m q := by
  by_cases hq : base + lo ≤ q ∧ q ≤ base + hi
  · rw [if_pos hq]
    refine forLoop_write_hit lo hi _ (fun i p => p = base + i) (fun p => r (p - base)) ?_ ?_ m q
      ⟨q - base, by omega, by omega, by omega⟩
    · intro i m' p _ _ hp
      rw [hp, Function.update_same]
      show r i = r (base + i - base)
      rw [add_sub_cancel_left]
    · intro i m' p _ _ hp
      exact Function.update_noteq hp _ _
  · rw [if_neg hq]
    refine forLoop_write_miss lo hi _ (fun i p => p = base + i) ?_ m q ?_
    · intro i m' p _ _ hp
      exact Function.update_noteq hp _ _
    · rintro ⟨i, h1, h2, h3⟩
      exact hq ⟨by omega, by omega⟩

/-- The row loops of a NEON pass: the block loop stores `vec (8*b) j` at
`base + 8*b + j`, the scalar loop stores `sc x` at `base + x` for the remaining
columns. -/
theorem neonRow_apply (w base : Int) (vec : Int → Int → Nat) (sc : Int → Nat) (m : Int → Nat)
    (q : Int) :
    forLoop (8 * neonBlocks w) (w - 1) (fun x b => Function.update b (base + x) (sc x))
        (forLoop 0 (neonBlocks w - 1)
          (fun bl b => forLoop 0 7 (fun j b => Function.update b (base + 8 * bl + j) (vec (8 * bl) j)) b)
          m) q
      = if base ≤ q ∧ q < base + w then
          (if q - base < 8 * neonBlocks w then vec (8 * ((q - base) / 8)) ((q - base) % 8)
            else sc (q - base))
        else m q := by
  have hnb0 : 0 ≤ neonBlocks w := le_max_left _ _
  have hnbw : 8 * neonBlocks w ≤ max 0 w := by
    unfold neonBlocks
    omega
  have hblocks : ∀ p : Int,
      forLoop 0 (neonBlocks w - 1)
        (fun bl b => forLoop 0 7 (fun j b => Function.update b (base + 8 * bl + j) (vec (8 * bl) j)) b)
        m p
      = if base ≤ p ∧ p < base + 8 * neonBlocks w then
          vec (8 * ((p - base) / 8)) ((p - base) % 8)
        else m p := by
    intro p
    by_cases hp : base ≤ p ∧ p < base + 8 * neonBlocks w
    · rw [if_pos hp]
      refine forLoop_write_hit 0 (neonBlocks w - 1) _
        (fun bl t => base + 8 * bl ≤ t ∧ t ≤ base + 8 * bl + 7)
        (fun t => vec (8 * ((t - base) / 8)) ((t - base) % 8)) ?_ ?_ m p
        ⟨(p - base) / 8, by omega, by omega, by omega, by omega⟩
      · intro bl m' t _ _ ht
        rw [forLoop_update_range 0 7 (base + 8 * bl) (vec (8 * bl)) m' t, if_pos (by omega)]
        have e1 : (t - base) / 8 = bl := by omega
        have e2 : (t - base) % 8 = t - (base + 8 * bl) := by omega
        show vec (8 * bl) (t - (base + 8 * bl)) = vec (8 * ((t - base) / 8)) ((t - base) % 8)
        rw [e1, e2]
      · intro bl m' t _ _ ht
        rw [forLoop_update_range 0 7 (base + 8 * bl) (vec (8 * bl)) m' t, if_neg (by omega)]
    · rw [if_neg hp]
      refine forLoop_write_miss 0 (neonBlocks w - 1) _
        (fun bl t => base + 8 * bl ≤ t ∧ t ≤ base + 8 * bl + 7) ?_ m p ?_
      · intro bl m' t _ _ ht
        rw [forLoop_update_range 0 7 (base + 8 * bl) (vec (8 * bl)) m' t, if_neg (by omega)]
      · rintro ⟨bl, h1, h2, h3, h4⟩
        exact hp ⟨by omega, by omega⟩
  rw [forLoop_update_range (8 * neonBlocks w) (w - 1) base sc _ q, hblocks q]
  by_cases h1 : base ≤ q ∧ q < base + w
  · rw [if_pos h1]
    by_cases h2 : q - base < 8 * neonBlocks w
    · rw [if_pos h2, if_neg (by omega), if_pos (by omega)]
    · rw [if_neg h2, if_pos (by omega)]
  · rw [if_neg h1, if_neg (by omega), if_neg (by omega)]

/-- Rows that each overwrite exactly their own `w` cells: the cell `(c, y)`
ends up with the value its row stored. -/
theorem rowsWrite_hit (stride w h : Int) (rowBody : Int → (Int → Nat) → (Int → Nat))
    (val : Int → Int → Nat) (hs : w ≤ stride)
    (hrow : ∀ (y : Int) (m : Int → Nat) (q : Int), 0 ≤ y → y < h →
      rowBody y m q
        = if y * stride ≤ q ∧ q < y * stride + w then val (q - y * stride) y else m q)
    (buf : Int → Nat) (c y : Int) (hc0 : 0 ≤ c) (hc : c < w) (hy0 : 0 ≤ y) (hy : y < h) :
    forLoop 0 (h - 1) rowBody buf (y * stride + c) = val c y := by
  have hdiv : ∀ a b : Int, 0 ≤ a → a < w → (b * stride + a) / stride = b := by
    intro a b ha0 ha
    rw [add_comm, mul_comm, Int.add_mul_ediv_left _ _ (by omega), Int.ediv_eq_zero_of_lt ha0 (by omega)]
    simp
  have hmod : ∀ a b : Int, 0 ≤ a → a < w → (b * stride + a) % stride = a := by
    intro a b ha0 ha
    rw [add_comm, Int.add_mul_emod_self, Int.emod_eq_of_lt ha0 (by omega)]
  have hout := forLoop_write_hit 0 (h - 1) rowBody
    (fun y' q => y' * stride ≤ q ∧ q < y' * stride + w)
    (fun q => val (q % stride) (q / stride))
    (by
      intro y' m q hy0' hy1' hq
      rw [hrow y' m q hy0' (by omega), if_pos hq]
      have hq' : q = y' * stride + (q - y' * stride) := by ring
      show val (q - y' * stride) y' = val (q % stride) (q / stride)
      rw [hq', hdiv _ y' (by omega) (by omega), hmod _ y' (by omega) (by omega)]
      rw [add_sub_cancel_left])
    (by
      intro y' m q hy0' hy1' hq
      rw [hrow y' m q hy0' (by omega), if_neg hq])
    buf (y * stride + c) ⟨y, hy0, by omega, by omega, by omega⟩
  rw [hout]
  show val ((y * stride + c) % stride) ((y * stride + c) / stride) = val c y
  rw [hdiv c y hc0 hc, hmod c y hc0 hc]

theorem neonHorizontalPass_apply {F : Type} [LinearOrderedField F] [FloorRing F] (srcp : Int → Nat)
    (src_stride plane_width plane_height radius : Int) (kernel : Int → F) (tmp : Int → Nat)
    (c y : Int) (hc0 : 0 ≤ c) (hc : c < plane_width) (hy0 : 0 ≤ y) (hy : y < plane_height) :
    neonHorizontalPass srcp src_stride plane_width plane_height radius kernel tmp
        (y * plane_width + c)
      = if c < 8 * neonBlocks plane_width then
          neonLaneStore (neonHAccum srcp src_stride plane_width radius kernel (8 * (c / 8)) y (c % 8))
        else toUInt16 (saturate (hAccum srcp src_stride plane_width radius kernel c y) + 1 / 2) := by
  refine rowsWrite_hit plane_width plane_width plane_height _
    (fun c y => if c < 8 * neonBlocks plane_width then
        neonLaneStore (neonHAccum srcp src_stride plane_width radius kernel (8 * (c / 8)) y (c % 8))
      else toUInt16 (saturate (hAccum srcp src_stride plane_width radius kernel c y) + 1 / 2))
    le_rfl ?_ tmp c y hc0 hc hy0 hy
  intro y' m q _ _
  exact neonRow_apply plane_width (y' * plane_width)
    (fun x j => neonLaneStore (neonHAccum srcp src_stride plane_width radius kernel x y' j))
    (fun x => toUInt16 (saturate (hAccum srcp src_stride plane_width radius kernel x y') + 1 / 2))
    m q

theorem neonVerticalPass_apply {F : Type} [LinearOrderedField F] [FloorRing F] (tmp : Int → Nat)
    (dst_stride plane_width plane_height radius : Int) (kernel : Int → F) (dstp : Int → Nat)
    (hs : plane_width ≤ dst_stride)
    (c y : Int) (hc0 : 0 ≤ c) (hc : c < plane_width) (hy0 : 0 ≤ y) (hy : y < plane_height) :
    neonVerticalPass tmp dst_stride plane_width plane_height radius kernel dstp
        (y * dst_stride + c)
      = if c < 8 * neonBlocks plane_width then
          neonLaneStore (neonVAccum tmp plane_width plane_height radius kernel (8 * (c / 8)) y (c % 8))
        else toUInt16 (saturate (vAccum tmp plane_width plane_height radius kernel c y) + 1 / 2) := by
  refine rowsWrite_hit dst_stride plane_width plane_height _
    (fun c y => if c < 8 * neonBlocks plane_width then
        neonLaneStore (neonVAccum tmp plane_width plane_height radius kernel (8 * (c / 8)) y (c % 8))
      else toUInt16 (saturate (vAccum tmp plane_width plane_height radius kernel c y) + 1 / 2))
    hs ?_ dstp c y hc0 hc hy0 hy
  intro y' m q _ _
  exact neonRow_apply plane_width (y' * dst_stride)
    (fun x j => neonLaneStore (neonVAccum tmp plane_width plane_height radius kernel x y' j))
    (fun x => toUInt16 (saturate (vAccum tmp plane_width plane_height radius kernel x y') + 1 / 2))
    m q

/-! ## C6: the NEON path against the scalar path -/

theorem neonLaneStore_eq_of_bounds {F : Type} [LinearOrderedField F] [FloorRing F] (v : F)
    (n : Nat) (hn : n ≤ 65535) (h1 : (n : F) ≤ v) (h2 : v < n + 1) : neonLaneStore v = n := by
  have hv0 : ¬ v < 0 := not_lt.mpr (le_trans (Nat.cast_nonneg n) h1)
  have hfl : Int.floor v = (n : Int) := by
    rw [Int.floor_eq_iff]
    push_cast
    exact ⟨h1, h2⟩
  unfold neonLaneStore qmovnU16 cvtU32
  rw [if_neg hv0, hfl, Int.toNat_natCast]
  omega

theorem neonHAccum_radius_one {F : Type} [LinearOrderedField F] (srcp : Int → Nat)
    (src_stride plane_width : Int) (kernel : Int → F) (x y j : Int) :
    neonHAccum srcp src_stride plane_width 1 kernel x y j
      = (srcp (y * src_stride + clampTap (x + -1) plane_width + j) : F) * kernel 0
        + (srcp (y * src_stride + clampTap (x + 0) plane_width + j) : F) * kernel 1
        + (srcp (y * src_stride + clampTap (x + 1) plane_width + j) : F) * kernel 2 :=
  (forLoop_sum (-1) 1 (fun k =>
    (srcp (y * src_stride + clampTap (x + k) plane_width + j) : F) * kernel (k + 1))).trans
    (sum_Icc_neg_one_one _)

theorem neonVAccum_radius_one {F : Type} [LinearOrderedField F] (tmp : Int → Nat)
    (plane_width plane_height : Int) (kernel : Int → F) (x y j : Int) :
    neonVAccum tmp plane_width plane_height 1 kernel x y j
      = (tmp (clampTap (y + -1) plane_height * plane_width + x + j) : F) * kernel 0
        + (tmp (clampTap (y + 0) plane_height * plane_width + x + j) : F) * kernel 1
        + (tmp (clampTap (y + 1) plane_height * plane_width + x + j) : F) * kernel 2 :=
  (forLoop_sum (-1) 1 (fun k =>
    (tmp (clampTap (y + k) plane_height * plane_width + x + j) : F) * kernel (k + 1))).trans
    (sum_Icc_neg_one_one _)

/-- The intermediate sample at column 1 of the bright row on both paths: the
NEON block stores 64822, the scalar loop stores 64111. -/
theorem brightRow_tmp :
    neonHorizontalPass brightRow 32 8 1 1 (buildKernel Real.exp 1 (fun _ => 0)) (fun _ => 0) 1
      = 64822 ∧
    horizontalPass brightRow 32 8 1 1 (buildKernel Real.exp 1 (fun _ => 0)) (fun _ => 0) 1
      = 64111 := by
  obtain ⟨k0, k1, k2⟩ := kernel_radius_one (fun _ => 0)
  obtain ⟨hlo, hhi⟩ := sideWeight_bounds
  constructor
  · have h := neonHorizontalPass_apply brightRow 32 8 1 1 (buildKernel Real.exp 1 (fun _ => 0))
      (fun _ => 0) 1 0 (by decide) (by decide) (by decide) (by decide)
    rw [if_pos (by decide), neonHAccum_radius_one, k0, k1, k2] at h
    have a1 : brightRow (0 * 32 + clampTap (8 * (1 / 8) + -1) 8 + 1 % 8) = 65535 := by decide
    have a2 : brightRow (0 * 32 + clampTap (8 * (1 / 8) + 0) 8 + 1 % 8) = 65535 := by decide
    have a3 : brightRow (0 * 32 + clampTap (8 * (1 / 8) + 1) 8 + 1 % 8) = 0 := by decide
    rw [a1, a2, a3] at h
    have e : ((0 : Int) * 8 + 1) = 1 := by decide
    rw [e] at h
    rw [h]
    apply neonLaneStore_eq_of_bounds _ 64822 (by decide)
    · push_cast
      linarith
    · push_cast
      linarith
  · exact horizontalPass_radius_one brightRow (fun _ => 0) 32 8 1 (fun _ => 0) 1 0
      (by decide) (by decide) (by decide) (by decide) 0 65535 0 64111
      (by decide) (by decide) (by decide) (by decide) (by norm_num) (by norm_num) 1 (by decide)

/-- C6 (evaluation on a one-row plane): width 8, height 1, radius 1, source row
`[0, 65535, 0, 0, 0, 0, 0, 0]`.  At output column 1 the NEON passes produce
64822 and the scalar passes produce 64111, so the two code paths differ by 711
there, which is more than 1. -/
theorem C6_neon_differs_from_scalar :
    neonProcessPlane Real.exp brightRow 32 32 8 1 1 (fun _ => 0) (fun _ => 0) (fun _ => 0)
        (0 * 32 + 1) = 64822 ∧
    processPlane Real.exp brightRow 32 32 8 1 1 (fun _ => 0) (fun _ => 0) (fun _ => 0)
        (0 * 32 + 1) = 64111 ∧
    processPlane Real.exp brightRow 32 32 8 1 1 (fun _ => 0) (fun _ => 0) (fun _ => 0)
        (0 * 32 + 1) + 1
      < neonProcessPlane Real.exp brightRow 32 32 8 1 1 (fun _ => 0) (fun _ => 0) (fun _ => 0)
        (0 * 32 + 1) := by
  obtain ⟨k0, k1, k2⟩ := kernel_radius_one (fun _ => 0)
  obtain ⟨hn, hsc⟩ := brightRow_tmp
  have N : neonProcessPlane Real.exp brightRow 32 32 8 1 1 (fun _ => 0) (fun _ => 0) (fun _ => 0)
      (0 * 32 + 1) = 64822 := by
    unfold neonProcessPlane
    rw [neonVerticalPass_apply _ 32 8 1 1 (buildKernel Real.exp 1 (fun _ => 0)) (fun _ => 0)
      (by decide) 1 0 (by decide) (by decide) (by decide) (by decide),
      if_pos (by decide), neonVAccum_radius_one, k0, k1, k2]
    have e1 : clampTap (0 + -1) 1 * 8 + 8 * (1 / 8) + 1 % 8 = 1 := by decide
    have e2 : clampTap (0 + 0) 1 * 8 + 8 * (1 / 8) + 1 % 8 = 1 := by decide
    have e3 : clampTap (0 + 1) 1 * 8 + 8 * (1 / 8) + 1 % 8 = 1 := by decide
    rw [e1, e2, e3, hn]
    apply neonLaneStore_eq_of_bounds _ 64822 (by decide)
    · push_cast
      linarith
    · push_cast
      linarith
  have S : processPlane Real.exp brightRow 32 32 8 1 1 (fun _ => 0) (fun _ => 0) (fun _ => 0)
      (0 * 32 + 1) = 64111 := by
    unfold processPlane
    rw [verticalPass_apply _ 32 8 1 1 (buildKernel Real.exp 1 (fun _ => 0)) (fun _ => 0)
      (by decide) 1 0 (by decide) (by decide) (by decide) (by decide),
      vAccum_radius_one, k0, k1, k2]
    have e1 : clampTap (0 + -1) 1 * 8 + 1 = 1 := by decide
    have e2 : clampTap (0 + 0) 1 * 8 + 1 = 1 := by decide
    have e3 : clampTap (0 + 1) 1 * 8 + 1 = 1 := by decide
    rw [e1, e2, e3, hsc]
    apply store_eq_of_bounds _ 64111 (by decide)
    · push_cast
      linarith
    · push_cast
      linarith
  refine ⟨N, S, ?_⟩
  rw [N, S]
  decide

/-! ## C11: radius 1 is close to a pass-through -/

/-- With a single row and radius 1 all three vertical taps read the same
intermediate sample, and the kernel weights sum to one: the vertical pass
stores the intermediate sample again. -/
theorem verticalPass_single_row (tmp dstp : Int → Nat) (dst_stride width : Int)
    (kernel0 : Int → ℝ) (hds : width ≤ dst_stride) (x : Int) (hx0 : 0 ≤ x) (hx : x < width)
    (n : Nat) (hn : n ≤ 65535) (ht : tmp (0 * width + x) = n) :
    verticalPass tmp dst_stride width 1 1 (buildKernel Real.exp 1 kernel0) dstp
      (0 * dst_stride + x) = n := by
  obtain ⟨k0, k1, k2⟩ := kernel_radius_one kernel0
  rw [verticalPass_apply tmp dst_stride width 1 1 _ dstp hds x 0 hx0 hx (by decide) (by decide),
    vAccum_radius_one, k0, k1, k2]
  have e1 : clampTap (0 + -1) 1 = 0 := by decide
  have e2 : clampTap (0 + 0) 1 = 0 := by decide
  have e3 : clampTap (0 + 1) 1 = 0 := by decide
  rw [e1, e2, e3, ht]
  apply store_eq_of_bounds _ n hn
  · linarith
  · linarith

/-- C11: for radius 1 the kernel is `[s, c, s]` with `c = 1/(1 + 2*exp(-9/2))`
greater than 0.97 and `s = exp(-9/2)/(1 + 2*exp(-9/2))` less than 0.011, and
blurring the 5x1 row `[0, 0, 65535, 0, 0]` yields `[0, 712, 64111, 712, 0]`:
equal to the input at the two end samples and differing from it by at most
1424 at the other three. -/
theorem C11_radius_one_near_passthrough :
    (buildKernel Real.exp 1 (fun _ => 0) 0 = Real.exp (-9 / 2) / (1 + 2 * Real.exp (-9 / 2)) ∧
      buildKernel Real.exp 1 (fun _ => 0) 1 = 1 / (1 + 2 * Real.exp (-9 / 2)) ∧
      buildKernel Real.exp 1 (fun _ => 0) 2 = Real.exp (-9 / 2) / (1 + 2 * Real.exp (-9 / 2))) ∧
    ((0.97 : ℝ) < 1 / (1 + 2 * Real.exp (-9 / 2)) ∧
      Real.exp (-9 / 2) / (1 + 2 * Real.exp (-9 / 2)) < 0.011) ∧
    (processPlane Real.exp fiveRow 5 5 5 1 1 (fun _ => 0) (fun _ => 0) (fun _ => 0) (0 * 5 + 0)
        = 0 ∧
      processPlane Real.exp fiveRow 5 5 5 1 1 (fun _ => 0) (fun _ => 0) (fun _ => 0) (0 * 5 + 1)
        = 712 ∧
      processPlane Real.exp fiveRow 5 5 5 1 1 (fun _ => 0) (fun _ => 0) (fun _ => 0) (0 * 5 + 2)
        = 64111 ∧
      processPlane Real.exp fiveRow 5 5 5 1 1 (fun _ => 0) (fun _ => 0) (fun _ => 0) (0 * 5 + 3)
        = 712 ∧
      processPlane Real.exp fiveRow 5 5 5 1 1 (fun _ => 0) (fun _ => 0) (fun _ => 0) (0 * 5 + 4)
        = 0) ∧
    (processPlane Real.exp fiveRow 5 5 5 1 1 (fun _ => 0) (fun _ => 0) (fun _ => 0) (0 * 5 + 0)
        = fiveRow (0 * 5 + 0) ∧
      processPlane Real.exp fiveRow 5 5 5 1 1 (fun _ => 0) (fun _ => 0) (fun _ => 0) (0 * 5 + 4)
        = fiveRow (0 * 5 + 4) ∧
      processPlane Real.exp fiveRow 5 5 5 1 1 (fun _ => 0) (fun _ => 0) (fun _ => 0) (0 * 5 + 1)
        ≤ fiveRow (0 * 5 + 1) + 1424 ∧
      fiveRow (0 * 5 + 2)
        ≤ processPlane Real.exp fiveRow 5 5 5 1 1 (fun _ => 0) (fun _ => 0) (fun _ => 0)
            (0 * 5 + 2) + 1424 ∧
      processPlane Real.exp fiveRow 5 5 5 1 1 (fun _ => 0) (fun _ => 0) (fun _ => 0) (0 * 5 + 3)
        ≤ fiveRow (0 * 5 + 3) + 1424) := by
  obtain ⟨k0, k1, k2⟩ := kernel_radius_one (fun _ => 0)
  obtain ⟨hlo, hhi⟩ := sideWeight_bounds
  have hpos : 0 < Real.exp (-9 / 2) := Real.exp_pos _
  have hden : (0 : ℝ) < 1 + 2 * Real.exp (-9 / 2) := by positivity
  have hc : 1 - 2 * sideWeight (Real.exp (-9 / 2)) = 1 / (1 + 2 * Real.exp (-9 / 2)) := by
    unfold sideWeight
    field_simp
  have H : ∀ (x : Int) (a b c n : Nat), 0 ≤ x → x < 5 →
      fiveRow (0 * 5 + clampTap (x + -1) 5) = a → fiveRow (0 * 5 + clampTap (x + 0) 5) = b →
      fiveRow (0 * 5 + clampTap (x + 1) 5) = c → n ≤ 65535 →
      (n : ℝ) ≤ (a : ℝ) * 0.0108675 + (b : ℝ) * (1 - 2 * 0.0108676) + (c : ℝ) * 0.0108675
        + 1 / 2 →
      (a : ℝ) * 0.0108676 + (b : ℝ) * (1 - 2 * 0.0108675) + (c : ℝ) * 0.0108676 + 1 / 2
        < (n : ℝ) + 1 →
      processPlane Real.exp fiveRow 5 5 5 1 1 (fun _ => 0) (fun _ => 0) (fun _ => 0) (0 * 5 + x)
        = n := by
    intro x a b c n hx0 hx ha hb hc' hn h1 h2
    exact verticalPass_single_row _ (fun _ => 0) 5 5 (fun _ => 0) (by decide) x hx0 hx n hn
      (horizontalPass_radius_one fiveRow (fun _ => 0) 5 5 1 (fun _ => 0) x 0 hx0 hx
        (by decide) (by decide) a b c n ha hb hc' hn h1 h2 _ rfl)
  have o0 := H 0 0 0 0 0 (by decide) (by decide) (by decide) (by decide) (by decide) (by decide)
    (by norm_num) (by norm_num)
  have o1 := H 1 0 0 65535 712 (by decide) (by decide) (by decide) (by decide) (by decide)
    (by decide) (by norm_num) (by norm_num)
  have o2 := H 2 0 65535 0 64111 (by decide) (by decide) (by decide) (by decide) (by decide)
    (by decide) (by norm_num) (by norm_num)
  have o3 := H 3 65535 0 0 712 (by decide) (by decide) (by decide) (by decide) (by decide)
    (by decide) (by norm_num) (by norm_num)
  have o4 := H 4 0 0 0 0 (by decide) (by decide) (by decide) (by decide) (by decide) (by decide)
    (by norm_num) (by norm_num)
  refine ⟨⟨?_, ?_, ?_⟩, ⟨?_, ?_⟩, ⟨o0, o1, o2, o3, o4⟩, ?_⟩
  · rw [k0, sideWeight]
  · rw [k1, hc]
  · rw [k2, sideWeight]
  · rw [← hc]
    linarith
  · have := hhi
    unfold sideWeight at this
    linarith
  · rw [o0, o1, o2, o3, o4]
    decide

/-! ## C12: index safety of the scalar path -/

theorem neonHAccum_eq_sum {F : Type} [LinearOrderedField F] (srcp : Int → Nat)
    (src_stride plane_width radius : Int) (kernel : Int → F) (x y j : Int) :
    neonHAccum srcp src_stride plane_width radius kernel x y j
      = ∑ k in Finset.Icc (-radius) radius,
          (srcp (y * src_stride + clampTap (x + k) plane_width + j) : F) * kernel (k + radius) :=
  forLoop_sum (-radius) radius
    (fun k => (srcp (y * src_stride + clampTap (x + k) plane_width + j) : F) * kernel (k + radius))

/-- C13 (evaluation on one-row planes of width 8, radius 1): in the block
starting at `x = 0`, lane 1 accumulates for tap `k = -1` the sample of column 1
(`clamp(x+k) + j`), not the sample of column `clamp(x+j+k) = 0`: on the row
`[0, 65535, 0, ...]` its accumulator is `65535*kernel[0] + 65535*kernel[1]`,
which differs from the clamped tap sum of output position 1; and lane 7 loads
column 8 for tap `k = +1`: two planes whose columns 0 to 7 are equal and that
differ only in the padding sample at column 8 give different lane-7
accumulators. -/
theorem C13_neon_lane_clamp :
    neonHAccum brightRow 32 8 1 (buildKernel Real.exp 1 (fun _ => 0)) 0 0 1
      = 65535 * buildKernel Real.exp 1 (fun _ => 0) 0
        + 65535 * buildKernel Real.exp 1 (fun _ => 0) 1 ∧
    neonHAccum brightRow 32 8 1 (buildKernel Real.exp 1 (fun _ => 0)) 0 0 1
      ≠ ∑ k in Finset.Icc (-1 : Int) 1,
          (brightRow (0 * 32 + specClamp (0 + 1 + k) 0 (8 - 1)) : ℝ)
            * buildKernel Real.exp 1 (fun _ => 0) (k + 1) ∧
    neonHAccum padProbe 32 8 1 (buildKernel Real.exp 1 (fun _ => 0)) 0 0 7
      ≠ neonHAccum (fun _ => 0) 32 8 1 (buildKernel Real.exp 1 (fun _ => 0)) 0 0 7 := by
  obtain ⟨k0, k1, k2⟩ := kernel_radius_one (fun _ => 0)
  obtain ⟨hlo, hhi⟩ := sideWeight_bounds
  have a1 : brightRow (0 * 32 + clampTap (0 + -1) 8 + 1) = 65535 := by decide
  have a2 : brightRow (0 * 32 + clampTap (0 + 0) 8 + 1) = 65535 := by decide
  have a3 : brightRow (0 * 32 + clampTap (0 + 1) 8 + 1) = 0 := by decide
  have hlane : neonHAccum brightRow 32 8 1 (buildKernel Real.exp 1 (fun _ => 0)) 0 0 1
      = 65535 * buildKernel Real.exp 1 (fun _ => 0) 0
        + 65535 * buildKernel Real.exp 1 (fun _ => 0) 1 := by
    rw [neonHAccum_radius_one, a1, a2, a3]
    push_cast
    ring
  have b1 : brightRow (0 * 32 + specClamp (0 + 1 + -1) 0 (8 - 1)) = 0 := by decide
  have b2 : brightRow (0 * 32 + specClamp (0 + 1 + 0) 0 (8 - 1)) = 65535 := by decide
  have b3 : brightRow (0 * 32 + specClamp (0 + 1 + 1) 0 (8 - 1)) = 0 := by decide
  have p1 : padProbe (0 * 32 + clampTap (0 + -1) 8 + 7) = 0 := by decide
  have p2 : padProbe (0 * 32 + clampTap (0 + 0) 8 + 7) = 0 := by decide
  have p3 : padProbe (0 * 32 + clampTap (0 + 1) 8 + 7) = 65535 := by decide
  refine ⟨hlane, ?_, ?_⟩
  · rw [hlane, sum_Icc_neg_one_one, b1, b2, b3, k0, k1]
    intro h
    norm_num at h
    linarith
  · rw [neonHAccum_radius_one, neonHAccum_radius_one, p1, p2, p3, k0, k1, k2]
    intro h
    norm_num at h
    linarith

/-! ## C14: stride independence -/

/-- The kernel cells read by the taps do not depend on the previous content of
the kernel array. -/
theorem buildKernel_tap_indep {F : Type} [LinearOrderedField F] (exp : F → F) (radius : Int)
    (hr : 0 ≤ radius) (kernel0 kernel0' : Int → F) (k : Int) (hk0 : -radius ≤ k)
    (hk1 : k ≤ radius) :
    buildKernel exp radius kernel0 (k + radius) = buildKernel exp radius kernel0' (k + radius) := by
  rw [buildKernel_apply exp radius kernel0 hr, buildKernel_apply exp radius kernel0' hr,
    if_pos ⟨by omega, by omega⟩, if_pos ⟨by omega, by omega⟩]

/-- Two tap sums agree when they read equal samples and equal weights. -/
theorem tapSum_congr {F : Type} [LinearOrderedField F] (radius : Int) (a b : Int → Nat)
    (K K' : Int → F) (hs : ∀ k, -radius ≤ k → k ≤ radius → a k = b k)
    (hK : ∀ k, -radius ≤ k → k ≤ radius → K (k + radius) = K' (k + radius)) :
    ∑ k in Finset.Icc (-radius) radius, (a k : F) * K (k + radius)
      = ∑ k in Finset.Icc (-radius) radius, (b k : F) * K' (k + radius) := by
  refine Finset.sum_congr rfl (fun k hk => ?_)
  rw [Finset.mem_Icc] at hk
  rw [hs k hk.1 hk.2, hK k hk.1 hk.2]

/-- C14: for two source buffers with strides `s1 >= width` and `s2 >= width`
that hold the same logical `width x height` plane (whatever their padding
holds), and two destination strides `d1 >= width` and `d2 >= width`, the
blurred samples written to the two destinations are equal at every `(x, y)`
with `x < width` and `y < height`; the previous contents of the kernel array,
of the intermediate buffer and of the destinations do not matter either. -/
theorem C14_stride_independence {F : Type} [LinearOrderedField F] [FloorRing F] (exp : F → F)
    (src1 src2 tmp1 tmp2 dst1 dst2 : Int → Nat) (kernel1 kernel2 : Int → F)
    (s1 s2 d1 d2 width height radius : Int) (hr : 1 ≤ radius)
    (_hs1 : width ≤ s1) (_hs2 : width ≤ s2) (hd1 : width ≤ d1) (hd2 : width ≤ d2)
    (hsame : ∀ x y : Int, 0 ≤ x → x < width → 0 ≤ y → y < height →
      src1 (y * s1 + x) = src2 (y * s2 + x))
    (x y : Int) (hx0 : 0 ≤ x) (hx : x < width) (hy0 : 0 ≤ y) (hy : y < height) :
    processPlane exp src1 s1 d1 width height radius kernel1 tmp1 dst1 (y * d1 + x)
      = processPlane exp src2 s2 d2 width height radius kernel2 tmp2 dst2 (y * d2 + x) := by
  have hw : 1 ≤ width := by omega
  have hh : 1 ≤ height := by omega
  have hK := buildKernel_tap_indep exp radius (by omega) kernel1 kernel2
  have htmp : ∀ x' y' : Int, 0 ≤ x' → x' < width → 0 ≤ y' → y' < height →
      horizontalPass src1 s1 width height radius (buildKernel exp radius kernel1) tmp1
          (y' * width + x')
        = horizontalPass src2 s2 width height radius (buildKernel exp radius kernel2) tmp2
          (y' * width + x') := by
    intro x' y' hx0' hx' hy0' hy'
    rw [horizontalPass_apply src1 s1 width height radius _ tmp1 x' y' hx0' hx' hy0' hy',
      horizontalPass_apply src2 s2 width height radius _ tmp2 x' y' hx0' hx' hy0' hy',
      hAccum_eq_sum, hAccum_eq_sum]
    congr 3
    exact tapSum_congr radius _ _ _ _
      (fun k _ _ => hsame _ y' (clampTap_range _ width hw).1 (clampTap_range _ width hw).2
        hy0' hy')
      hK
  unfold processPlane
  rw [verticalPass_apply _ d1 width height radius _ dst1 hd1 x y hx0 hx hy0 hy,
    verticalPass_apply _ d2 width height radius _ dst2 hd2 x y hx0 hx hy0 hy,
    vAccum_eq_sum, vAccum_eq_sum]
  congr 3
  exact tapSum_congr radius _ _ _ _
    (fun k _ _ => htmp x _ hx0 hx (clampTap_range _ height hh).1 (clampTap_range _ height hh).2)
    hK

/-- Instance of C14: the white 2x2 plane stored with stride 2 and with stride 5
(padding of another value), written with destination strides 3 and 4. -/
theorem C14_stride_independence_witness :
    processPlane Real.exp srcp_white 2 3 2 2 1 (fun _ => 0) (fun _ => 0) (fun _ => 0)
        (1 * 3 + 1)
      = processPlane Real.exp (fun i => if i % 5 < 2 then 65535 else 17) 5 4 2 2 1 (fun _ => 1)
          (fun _ => 9) (fun _ => 3) (1 * 4 + 1) :=
  C14_stride_independence Real.exp srcp_white (fun i => if i % 5 < 2 then 65535 else 17)
    (fun _ => 0) (fun _ => 9) (fun _ => 0) (fun _ => 3) (fun _ => 0) (fun _ => 1)
    2 5 3 4 2 2 1 (by decide) (by decide) (by decide) (by decide) (by decide)
    (fun x y hx0 hx hy0 hy => by
      have e : (y * 5 + x) % 5 = x := by omega
      show (65535 : Nat) = if (y * 5 + x) % 5 < 2 then 65535 else 17
      rw [e, if_pos hx])
    1 1 (by decide) (by decide) (by decide) (by decide)

/-! ## C15: write footprint of one plane invocation -/

/-- A padding cell is none of the cells the vertical pass writes. -/
theorem padding_not_written (stride width x y x' y' : Int) (hx : width ≤ x) (hxs : x < stride)
    (hx0' : 0 ≤ x') (hx' : x' < width) : y * stride + x ≠ y' * stride + x' := by
  intro he
  have h1 : (y * stride + x) % stride = x := by
    rw [add_comm, Int.add_mul_emod_self, Int.emod_eq_of_lt (by omega) hxs]
  have h2 : (y' * stride + x') % stride = x' := by
    rw [add_comm, Int.add_mul_emod_self, Int.emod_eq_of_lt hx0' (by omega)]
  rw [he, h2] at h1
  omega

/-- C15: one plane invocation leaves the source buffer unchanged; it writes every
destination position `(x, y)` with `0 <= x < width` and `0 <= y < height` (the
sample stored there is the rounded vertical tap sum, whatever the destination
held before); and every destination sample in row padding
(`width <= x < dst_stride`) keeps the value it had before the call. -/
theorem C15_write_footprint {F : Type} [LinearOrderedField F] [FloorRing F] (exp : F → F)
    (m : PlaneMemory F) (src_stride dst_stride width height radius : Int)
    (hds : width ≤ dst_stride) :
    (processPlaneMemory exp src_stride dst_stride width height radius m).srcp = m.srcp ∧
    (∀ x y : Int, 0 ≤ x → x < width → 0 ≤ y → y < height →
      (processPlaneMemory exp src_stride dst_stride width height radius m).dstp
          (y * dst_stride + x)
        = toUInt16 (saturate (vAccum
            (processPlaneMemory exp src_stride dst_stride width height radius m).tmp
            width height radius
            (processPlaneMemory exp src_stride dst_stride width height radius m).kernel x y)
            + 1 / 2)) ∧
    (∀ x y : Int, width ≤ x → x < dst_stride → 0 ≤ y → y < height →
      (processPlaneMemory exp src_stride dst_stride width height radius m).dstp
          (y * dst_stride + x)
        = m.dstp (y * dst_stride + x)) := by
  refine ⟨rfl, ?_, ?_⟩
  · intro x y hx0 hx hy0 hy
    exact verticalPass_apply _ dst_stride width height radius _ m.dstp hds x y hx0 hx hy0 hy
  · intro x y hx hxs _ _
    exact verticalPass_frame _ dst_stride width height radius _ m.dstp _
      (fun x' y' hx0' hx' _ _ => padding_not_written dst_stride width x y x' y' hx hxs hx0' hx')

/-- Instance of C15: a 2x2 plane written with destination stride 4; the padding
cell `(3, 1)` keeps the value 7 the destination held, the source is untouched. -/
theorem C15_write_footprint_witness :
    (processPlaneMemory Real.exp 2 4 2 2 1
        { srcp := srcp_white, kernel := fun _ => 0, tmp := fun _ => 0, dstp := fun _ => 7 }).srcp
      = srcp_white ∧
    (processPlaneMemory Real.exp 2 4 2 2 1
        { srcp := srcp_white, kernel := fun _ => 0, tmp := fun _ => 0, dstp := fun _ => 7 }).dstp
        (1 * 4 + 3)
      = 7 :=
  ⟨(C15_write_footprint Real.exp
      { srcp := srcp_white, kernel := fun _ => 0, tmp := fun _ => 0, dstp := fun _ => 7 }
      2 4 2 2 1 (by decide)).1,
    (C15_write_footprint Real.exp
      { srcp := srcp_white, kernel := fun _ => 0, tmp := fun _ => 0, dstp := fun _ => 7 }
      2 4 2 2 1 (by decide)).2.2 3 1 (by decide) (by decide) (by decide) (by decide)⟩

/-! ## Tap sums under non-negative weights of total one -/

theorem tapSum_mono {F : Type} [LinearOrderedField F] (radius : Int) (K : Int → F)
    (hnn : ∀ i, 0 ≤ i → i ≤ 2 * radius → 0 ≤ K i) (a b : Int → F)
    (hab : ∀ k, -radius ≤ k → k ≤ radius → a k ≤ b k) :
    ∑ k in Finset.Icc (-radius) radius, a k * K (k + radius)
      ≤ ∑ k in Finset.Icc (-radius) radius, b k * K (k + radius) := by
  refine Finset.sum_le_sum (fun k hk => ?_)
  rw [Finset.mem_Icc] at hk
  exact mul_le_mul_of_nonneg_right (hab k hk.1 hk.2) (hnn _ (by omega) (by omega))

/-- The stored sample is monotone in the accumulator. -/
theorem store_mono {F : Type} [LinearOrderedField F] [FloorRing F] (u v : F) (huv : u ≤ v) :
    toUInt16 (saturate u + 1 / 2) ≤ toUInt16 (saturate v + 1 / 2) := by
  have hu := store_eq_specRound u
  have hv := store_eq_specRound v
  have hle : specRound u ≤ specRound v := by
    unfold specRound
    apply Int.floor_mono
    have : min (max u 0) 65535 ≤ min (max v 0) 65535 :=
      min_le_min (max_le_max huv le_rfl) le_rfl
    linarith
  omega

/-- C18: for every radius >= 1 and every two planes `A` and `B` of the same
dimensions with `A[x, y] <= B[x, y]` at every position, the blurred output of
`A` is at most the blurred output of `B` at every position. -/
theorem C18_monotonicity (A B tmpA tmpB dstA dstB : Int → Nat)
    (src_stride dst_stride width height radius : Int) (kernel0 : Int → ℝ)
    (hr : 1 ≤ radius) (hds : width ≤ dst_stride)
    (hAB : ∀ x y : Int, 0 ≤ x → x < width → 0 ≤ y → y < height →
      A (y * src_stride + x) ≤ B (y * src_stride + x))
    (x y : Int) (hx0 : 0 ≤ x) (hx : x < width) (hy0 : 0 ≤ y) (hy : y < height) :
    processPlane Real.exp A src_stride dst_stride width height radius kernel0 tmpA dstA
        (y * dst_stride + x)
      ≤ processPlane Real.exp B src_stride dst_stride width height radius kernel0 tmpB dstB
        (y * dst_stride + x) := by
  have hw : 1 ≤ width := by omega
  have hh : 1 ≤ height := by omega
  obtain ⟨hnn, _, _⟩ :=
    buildKernel_normalised Real.exp Real.exp_pos Real.exp_zero radius (by omega) kernel0
  have htmp : ∀ x' y' : Int, 0 ≤ x' → x' < width → 0 ≤ y' → y' < height →
      horizontalPass A src_stride width height radius (buildKernel Real.exp radius kernel0) tmpA
          (y' * width + x')
        ≤ horizontalPass B src_stride width height radius (buildKernel Real.exp radius kernel0)
          tmpB (y' * width + x') := by
    intro x' y' hx0' hx' hy0' hy'
    rw [horizontalPass_apply A src_stride width height radius _ tmpA x' y' hx0' hx' hy0' hy',
      horizontalPass_apply B src_stride width height radius _ tmpB x' y' hx0' hx' hy0' hy']
    apply store_mono
    rw [hAccum_eq_sum, hAccum_eq_sum]
    exact tapSum_mono radius _ hnn _ _ (fun k _ _ => by
      exact_mod_cast hAB _ y' (clampTap_range _ width hw).1 (clampTap_range _ width hw).2
        hy0' hy')
  unfold processPlane
  rw [verticalPass_apply _ dst_stride width height radius _ dstA hds x y hx0 hx hy0 hy,
    verticalPass_apply _ dst_stride width height radius _ dstB hds x y hx0 hx hy0 hy]
  apply store_mono
  rw [vAccum_eq_sum, vAccum_eq_sum]
  exact tapSum_mono radius _ hnn _ _ (fun k _ _ => by
    exact_mod_cast htmp x _ hx0 hx (clampTap_range _ height hh).1 (clampTap_range _ height hh).2)

/-- Instance of C18: the corner plane lies below the white plane. -/
theorem C18_monotonicity_witness :
    processPlane Real.exp cornerPlane 4 4 4 4 1 (fun _ => 0) (fun _ => 0) (fun _ => 0)
        (0 * 4 + 1)
      ≤ processPlane Real.exp srcp_white 4 4 4 4 1 (fun _ => 0) (fun _ => 0) (fun _ => 0)
        (0 * 4 + 1) :=
  C18_monotonicity cornerPlane srcp_white (fun _ => 0) (fun _ => 0) (fun _ => 0) (fun _ => 0)
    4 4 4 4 1 (fun _ => 0) (by decide) (by decide)
    (fun x y _ _ _ _ => by unfold cornerPlane srcp_white; split_ifs <;> decide)
    1 0 (by decide) (by decide) (by decide) (by decide)

/-! ## C19: locality -/

/-- A clamped tap position stays inside the window of half-width `radius`
around the position, cut to the extent. -/
theorem clampTap_window (pos k extent radius : Int) (hp0 : 0 ≤ pos) (hp : pos < extent)
    (hk0 : -radius ≤ k) (hk1 : k ≤ radius) :
    max 0 (pos - radius) ≤ clampTap (pos + k) extent ∧
      clampTap (pos + k) extent ≤ min (extent - 1) (pos + radius) := by
  rw [max_le_iff, le_min_iff]
  unfold clampTap
  split_ifs <;> omega

/-- C19: for every radius >= 1 and every output position `(x, y)`, two planes of
equal dimensions that agree on the source samples whose column lies in
`[max(0, x-radius), min(width-1, x+radius)]` and whose row lies in
`[max(0, y-radius), min(height-1, y+radius)]` produce the same output sample
at `(x, y)`. -/
theorem C19_locality {F : Type} [LinearOrderedField F] [FloorRing F] (exp : F → F)
    (A B tmpA tmpB dstA dstB : Int → Nat)
    (src_stride dst_stride width height radius : Int) (kernel0 : Int → F)
    (_hr : 1 ≤ radius) (hds : width ≤ dst_stride)
    (x y : Int) (hx0 : 0 ≤ x) (hx : x < width) (hy0 : 0 ≤ y) (hy : y < height)
    (hwin : ∀ x' y' : Int, max 0 (x - radius) ≤ x' → x' ≤ min (width - 1) (x + radius) →
      max 0 (y - radius) ≤ y' → y' ≤ min (height - 1) (y + radius) →
      A (y' * src_stride + x') = B (y' * src_stride + x')) :
    processPlane exp A src_stride dst_stride width height radius kernel0 tmpA dstA
        (y * dst_stride + x)
      = processPlane exp B src_stride dst_stride width height radius kernel0 tmpB dstB
        (y * dst_stride + x) := by
  have htmp : ∀ l : Int, -radius ≤ l → l ≤ radius →
      horizontalPass A src_stride width height radius (buildKernel exp radius kernel0) tmpA
          (clampTap (y + l) height * width + x)
        = horizontalPass B src_stride width height radius (buildKernel exp radius kernel0) tmpB
          (clampTap (y + l) height * width + x) := by
    intro l hl0 hl1
    obtain ⟨c0, c1⟩ := clampTap_range (y + l) height (by omega)
    obtain ⟨w0, w1⟩ := clampTap_window y l height radius hy0 hy hl0 hl1
    rw [horizontalPass_apply A src_stride width height radius _ tmpA x _ hx0 hx c0 c1,
      horizontalPass_apply B src_stride width height radius _ tmpB x _ hx0 hx c0 c1,
      hAccum_eq_sum, hAccum_eq_sum]
    congr 3
    exact tapSum_congr radius _ _ _ _
      (fun k hk0 hk1 =>
        hwin _ _ (clampTap_window x k width radius hx0 hx hk0 hk1).1
          (clampTap_window x k width radius hx0 hx hk0 hk1).2 w0 w1)
      (fun _ _ _ => rfl)
  unfold processPlane
  rw [verticalPass_apply _ dst_stride width height radius _ dstA hds x y hx0 hx hy0 hy,
    verticalPass_apply _ dst_stride width height radius _ dstB hds x y hx0 hx hy0 hy,
    vAccum_eq_sum, vAccum_eq_sum]
  congr 3
  exact tapSum_congr radius _ _ _ _ htmp (fun _ _ _ => rfl)

/-- Instance of C19: at output `(0, 0)` with radius 1 on a 4x4 plane the window
is the 2x2 corner; the corner plane and a plane that differs from it only at
`(3, 3)` give the same sample. -/
theorem C19_locality_witness :
    processPlane Real.exp cornerPlane 4 4 4 4 1 (fun _ => 0) (fun _ => 0) (fun _ => 0)
        (0 * 4 + 0)
      = processPlane Real.exp (fun i => if i = 0 then 65535 else if i = 15 then 4000 else 0)
          4 4 4 4 1 (fun _ => 0) (fun _ => 0) (fun _ => 0) (0 * 4 + 0) :=
  C19_locality Real.exp cornerPlane (fun i => if i = 0 then 65535 else if i = 15 then 4000 else 0)
    (fun _ => 0) (fun _ => 0) (fun _ => 0) (fun _ => 0) 4 4 4 4 1 (fun _ => 0)
    (by decide) (by decide) 0 0 (by decide) (by decide) (by decide) (by decide)
    (fun x' y' h1 h2 h3 h4 => by
      have hx' : x' ≤ 1 := le_trans h2 (by decide)
      have hy' : y' ≤ 1 := le_trans h4 (by decide)
      have hne : y' * 4 + x' ≠ 15 := by omega
      show (if y' * 4 + x' = 0 then 65535 else 0)
        = if y' * 4 + x' = 0 then 65535 else if y' * 4 + x' = 15 then 4000 else 0
      rw [if_neg hne])

/-! ## Mirror images with the taps in the opposite order -/

/-- The descending tap loop depends on the samples it reads only. -/
theorem tapLoopDown_congr {D : Type} (A : MachineArith D) (radius : Int) (K : Int → D)
    (a b : Int → Nat) (hab : ∀ k, -radius ≤ k → k ≤ radius → a k = b k) :
    forLoopDown (-radius) radius
        (fun k val => A.add val (A.mul (A.ofInt (a k)) (K (k + radius)))) (A.ofInt 0)
      = forLoopDown (-radius) radius
        (fun k val => A.add val (A.mul (A.ofInt (b k)) (K (k + radius)))) (A.ofInt 0) := by
  unfold forLoopDown
  refine List.foldl_ext _ _ _ (fun st j hj => ?_)
  rw [List.mem_range] at hj
  show A.add st (A.mul (A.ofInt (a (radius - (j : Int)))) (K (radius - (j : Int) + radius)))
    = A.add st (A.mul (A.ofInt (b (radius - (j : Int)))) (K (radius - (j : Int) + radius)))
  rw [hab _ (by omega) (by omega)]

end GaussianBlur
